import Mathlib

/-!
Verification of the bt2magnet torrent-metadata core (src/utils/magnetUtils.ts)
against its natural-language specification.

The embedding models:
* JavaScript strings as lists of UTF-16 code units (`JStr`),
* byte buffers (`Uint8Array`) as lists of byte values (`Bytes`),
* `TextEncoder`/`TextDecoder` as UTF-8 encode / decode-with-replacement,
* the bencode decoder/encoder, the torrent descriptor extractor
  (`parseBencodeBuffer`), the magnet URI parser/generator and the input
  resolver (`parseInput`), each translated from the TypeScript source.

JavaScript exceptions are modelled with `Except`; `crypto.subtle.digest` with
a pure SHA-1 over byte lists.  Bencode integers are modelled as exact `Int`
(the source stores them in IEEE doubles; values beyond 2^53 would lose
precision there, which this embedding does not reproduce).
-/

/-- A JavaScript string: a list of UTF-16 code units (each < 2^16 in real JS). -/
abbrev JStr := List Nat

/-- A byte buffer (`Uint8Array`): a list of byte values (each < 2^8 in real JS). -/
abbrev Bytes := List Nat

/-- Converts a Lean string literal of BMP characters to a `JStr`
(each such character is a single UTF-16 code unit). -/
def s2j (s : String) : JStr := s.data.map Char.toNat

/-- JavaScript `String.prototype.trim` whitespace set
(WhiteSpace and LineTerminator code points). -/
def jsIsWs (c : Nat) : Bool :=
  c = 0x9 ∨ c = 0xA ∨ c = 0xB ∨ c = 0xC ∨ c = 0xD ∨ c = 0x20 ∨ c = 0xA0 ∨
  c = 0x1680 ∨ (0x2000 ≤ c ∧ c ≤ 0x200A) ∨ c = 0x2028 ∨ c = 0x2029 ∨
  c = 0x202F ∨ c = 0x205F ∨ c = 0x3000 ∨ c = 0xFEFF

/-- JavaScript `String.prototype.trim`. -/
def jsTrim (s : JStr) : JStr :=
  ((s.dropWhile jsIsWs).reverse.dropWhile jsIsWs).reverse

/-- JavaScript `String.prototype.startsWith` at position 0. -/
def startsWithJ (pre s : JStr) : Bool :=
  s.take pre.length = pre

/-- An ASCII hexadecimal digit, as used by the regex `[a-fA-F0-9]`. -/
def isHexDigit (c : Nat) : Bool :=
  (48 ≤ c ∧ c ≤ 57) ∨ (65 ≤ c ∧ c ≤ 70) ∨ (97 ≤ c ∧ c ≤ 102)

/-- The test `/^[a-fA-F0-9]{40}$/.test(s)` on the code units of `s`. -/
def isHex40 (s : JStr) : Bool :=
  s.length = 40 ∧ s.all isHexDigit

/-- JavaScript `String.prototype.toLowerCase`, modelled on the ASCII range
(the source only applies it to strings that are then, or have already been,
validated as ASCII hexadecimal, where the full Unicode mapping agrees). -/
def jsToLowerCase (s : JStr) : JStr :=
  s.map fun c => if 65 ≤ c ∧ c ≤ 90 then c + 32 else c

/-- JavaScript `String.prototype.toUpperCase`, modelled on the ASCII range
(used only by the specification's resolver idempotence property, which applies
it to 40-hex-digit strings). -/
def jsToUpperCase (s : JStr) : JStr :=
  s.map fun c => if 97 ≤ c ∧ c ≤ 122 then c - 32 else c

/-- Index of the first occurrence of `c` in `l`, if any. -/
def fIdx (l : List Nat) (c : Nat) : Option Nat :=
  match l with
  | [] => none
  | x :: xs => if x = c then some 0 else (fIdx xs c).map (· + 1)

/-- JavaScript `TypedArray.prototype.indexOf(c, start)` (for `start ≥ 0`),
returning `none` for `-1`. -/
def jsIndexOf (data : List Nat) (c : Nat) (start : Nat) : Option Nat :=
  (fIdx (data.drop start) c).map (· + start)

/-- JavaScript `TypedArray.prototype.slice(a, b)` for non-negative `a`, `b`
(clamps to the buffer length, returns `[]` when `a ≥ b`). -/
def jsSlice (data : List Nat) (a b : Nat) : List Nat :=
  (data.take b).drop a

/-- UTF-8 encoding of one Unicode scalar value. -/
def utf8EncodeChar (c : Nat) : Bytes :=
  if c < 0x80 then [c]
  else if c < 0x800 then [0xC0 + c / 64, 0x80 + c % 64]
  else if c < 0x10000 then [0xE0 + c / 4096, 0x80 + c / 64 % 64, 0x80 + c % 64]
  else [0xF0 + c / 262144, 0x80 + c / 4096 % 64, 0x80 + c / 64 % 64, 0x80 + c % 64]

/-- Fuelled worker for `cuToCodePoints`: one unit of fuel per produced code
point; each step consumes at least one code unit, so fuel equal to the input
length always suffices. -/
def cuToCpF : Nat → JStr → List Nat
  | 0, _ => []
  | _, [] => []
  | f + 1, u :: rest =>
    if u < 0xD800 ∨ 0xDFFF < u then u :: cuToCpF f rest
    else if u ≤ 0xDBFF then
      match rest with
      | v :: rest2 =>
        if 0xDC00 ≤ v ∧ v ≤ 0xDFFF then
          (0x10000 + (u - 0xD800) * 0x400 + (v - 0xDC00)) :: cuToCpF f rest2
        else 0xFFFD :: cuToCpF f rest
      | [] => [0xFFFD]
    else 0xFFFD :: cuToCpF f rest

/-- Converts a sequence of UTF-16 code units to Unicode code points, replacing
unpaired surrogates with U+FFFD (the conversion to a `USVString` that
`TextEncoder.encode` and `encodeURIComponent`-style APIs perform implicitly). -/
def cuToCodePoints (s : JStr) : List Nat := cuToCpF s.length s

/-- `new TextEncoder().encode(s)`: UTF-8 encoding of the string's scalar values. -/
def textEncode (s : JStr) : Bytes :=
  (cuToCodePoints s).flatMap utf8EncodeChar

/-- UTF-16 encoding of one Unicode code point (surrogate pair above U+FFFF). -/
def cpToCu (c : Nat) : JStr :=
  if c < 0x10000 then [c]
  else [0xD800 + (c - 0x10000) / 0x400, 0xDC00 + (c - 0x10000) % 0x400]

/-- Is `b` a UTF-8 continuation byte in the closed range `[lo, hi]`? -/
def contIn (b lo hi : Nat) : Bool := lo ≤ b ∧ b ≤ hi

/-- Fuelled worker for `utf8DecodeReplace`: one unit of fuel per produced code
point; each step consumes at least one byte, so fuel equal to the input length
always suffices. -/
def u8dF : Nat → Bytes → List Nat
  | 0, _ => []
  | _, [] => []
  | f + 1, b :: rest =>
    if b ≤ 0x7F then b :: u8dF f rest
    else if 0xC2 ≤ b ∧ b ≤ 0xDF then
      match rest with
      | c1 :: r1 =>
        if contIn c1 0x80 0xBF then
          ((b - 0xC0) * 64 + (c1 - 0x80)) :: u8dF f r1
        else 0xFFFD :: u8dF f rest
      | [] => [0xFFFD]
    else if 0xE0 ≤ b ∧ b ≤ 0xEF then
      match rest with
      | c1 :: r1 =>
        if contIn c1 (if b = 0xE0 then 0xA0 else 0x80) (if b = 0xED then 0x9F else 0xBF) then
          match r1 with
          | c2 :: r2 =>
            if contIn c2 0x80 0xBF then
              ((b - 0xE0) * 4096 + (c1 - 0x80) * 64 + (c2 - 0x80)) :: u8dF f r2
            else 0xFFFD :: u8dF f r1
          | [] => [0xFFFD]
        else 0xFFFD :: u8dF f rest
      | [] => [0xFFFD]
    else if 0xF0 ≤ b ∧ b ≤ 0xF4 then
      match rest with
      | c1 :: r1 =>
        if contIn c1 (if b = 0xF0 then 0x90 else 0x80) (if b = 0xF4 then 0x8F else 0xBF) then
          match r1 with
          | c2 :: r2 =>
            if contIn c2 0x80 0xBF then
              match r2 with
              | c3 :: r3 =>
                if contIn c3 0x80 0xBF then
                  ((b - 0xF0) * 262144 + (c1 - 0x80) * 4096 + (c2 - 0x80) * 64 + (c3 - 0x80)) ::
                    u8dF f r3
                else 0xFFFD :: u8dF f r2
              | [] => [0xFFFD]
            else 0xFFFD :: u8dF f r1
          | [] => [0xFFFD]
        else 0xFFFD :: u8dF f rest
      | [] => [0xFFFD]
    else 0xFFFD :: u8dF f rest

/-- WHATWG UTF-8 decode with replacement, producing code points: invalid bytes
or truncated sequences produce U+FFFD and decoding resumes at the offending
byte.  This is the algorithm behind `new TextDecoder('utf-8').decode`. -/
def utf8DecodeReplace (bs : Bytes) : List Nat := u8dF bs.length bs

/-- `new TextDecoder('utf-8').decode(b)`: decode with replacement, then encode
the resulting code points as UTF-16 code units. -/
def textDecode (b : Bytes) : JStr :=
  (utf8DecodeReplace b).flatMap cpToCu

/-- Is `c` an ASCII decimal digit? -/
def isDigit (c : Nat) : Bool := 48 ≤ c ∧ c ≤ 57

/-- Numeric value of a string of decimal digit code units (big-endian). -/
def digitsVal (s : JStr) : Nat :=
  s.foldl (fun a c => a * 10 + (c - 48)) 0

/-- The longest leading run of decimal digits, or `none` (NaN) if there is
none.  Helper for `jsParseInt`. -/
def leadingDigitsVal (s : JStr) : Option Nat :=
  match s with
  | [] => none
  | c :: _ => if isDigit c then some (digitsVal (s.takeWhile isDigit)) else none

/-- JavaScript `parseInt(s, 10)`: skip whitespace, optional sign, longest
digit prefix; `none` models NaN. -/
def jsParseInt (s : JStr) : Option Int :=
  match s.dropWhile jsIsWs with
  | [] => none
  | c :: r =>
    if c = 45 then (leadingDigitsVal r).map fun n => -(n : Int)
    else if c = 43 then (leadingDigitsVal r).map fun n => (n : Int)
    else (leadingDigitsVal (c :: r)).map fun n => (n : Int)

/-- Decimal digit code units of `n`, most significant first, with `fuel`
bounding the recursion depth (any `fuel > n` computes all digits). -/
def natDigits (fuel n : Nat) : JStr :=
  match fuel with
  | 0 => []
  | f + 1 => if n < 10 then [n + 48] else natDigits f (n / 10) ++ [n % 10 + 48]

/-- Decimal representation of a natural number, as produced by JavaScript
number-to-string conversion on a non-negative integer. -/
def natDecimal (n : Nat) : JStr := natDigits (n + 1) n

/-- Decimal representation of an integer, as produced by JavaScript
template-string interpolation of an integral number. -/
def intDecimal (n : Int) : JStr :=
  if n < 0 then 45 :: natDecimal n.natAbs else natDecimal n.toNat

/-! ## Bencode values

The TypeScript decoder produces `number`s, `Uint8Array`s, arrays and plain
objects; the encoder consumes the same shapes.  `BValue.num none` models the
JavaScript `NaN` that `parseInt` yields on an unparseable integer payload.
Dictionaries are association lists in insertion order; the helpers below give
them JavaScript-object semantics (one entry per key, assignment keeps the
original position and overwrites the value). -/

inductive BValue where
  | num : Option Int → BValue
  | str : Bytes → BValue
  | list : List BValue → BValue
  | dict : List (JStr × BValue) → BValue

/-- JavaScript property assignment `obj[k] = v` on an association list:
overwrite in place if the key exists, append otherwise. -/
def objSet {A : Type} (pairs : List (JStr × A)) (k : JStr) (v : A) :
    List (JStr × A) :=
  match pairs with
  | [] => [(k, v)]
  | (k1, v1) :: rest =>
    if k1 = k then (k1, v) :: rest else (k1, v1) :: objSet rest k v

/-- View of an association list as the JavaScript object built by assigning
its pairs in order: one entry per key, first position, last value. -/
def objNormalize {A : Type} (pairs : List (JStr × A)) : List (JStr × A) :=
  pairs.foldl (fun acc kv => objSet acc kv.1 kv.2) []

/-- JavaScript property read `obj[k]` (`none` models `undefined`). -/
def objLookup {A : Type} (pairs : List (JStr × A)) (k : JStr) : Option A :=
  match pairs with
  | [] => none
  | (k1, v1) :: rest => if k1 = k then some v1 else objLookup rest k

/-- Lexicographic comparison of UTF-16 code-unit sequences: the order used by
the default `Array.prototype.sort()` comparator on JavaScript strings. -/
def cuLt : List Nat → List Nat → Bool
  | [], [] => false
  | [], _ :: _ => true
  | _ :: _, [] => false
  | a :: as, b :: bs => if a < b then true else if b < a then false else cuLt as bs

/-- Stable insertion of a keyed entry into a key-sorted list. -/
def insPair {A : Type} (x : JStr × A) : List (JStr × A) → List (JStr × A)
  | [] => [x]
  | y :: ys => if cuLt x.1 y.1 then x :: y :: ys else y :: insPair x ys

/-- Stable insertion sort of keyed entries by key, in the order of the
default JavaScript string comparator — the model of `Object.keys(data).sort()`
followed by mapping each key to its value. -/
def sortPairs {A : Type} (l : List (JStr × A)) : List (JStr × A) :=
  l.foldr insPair []

/-- Bencode encoding of a byte string: `<decimal length>:<raw bytes>`. -/
def encStrBytes (b : Bytes) : Bytes :=
  natDecimal b.length ++ [58] ++ b

mutual

/-- The source's `encodeBencode`: integers as `i<decimal>e` (NaN prints as
`iNaNe`), byte strings length-prefixed, lists bracketed with `l`/`e`, and
dictionaries bracketed with `d`/`e` with entries sorted by `Object.keys(..)
.sort()` — that is, by UTF-16 code-unit order of the key strings — each key
encoded as the byte string `TextEncoder` produces for it.  (The source sorts
the keys and then encodes each entry; here each entry is encoded first and the
encoded entries are then normalized and sorted by their keys — the same bytes,
since normalization and sorting inspect only the keys.) -/
def encodeBencode : BValue → Bytes
  | .num (some n) => [105] ++ intDecimal n ++ [101]
  | .num none => [105, 78, 97, 78, 101]
  | .str b => encStrBytes b
  | .list items => [108] ++ encItems items ++ [101]
  | .dict pairs =>
    [100] ++ ((sortPairs (objNormalize (encEntries pairs))).map (·.2)).flatten ++ [101]

/-- Concatenated encodings of the elements of an array. -/
def encItems : List BValue → Bytes
  | [] => []
  | v :: vs => encodeBencode v ++ encItems vs

/-- Encoded dictionary entries, keyed by their original key string: each entry
is the encoded key byte string followed by the encoded value. -/
def encEntries : List (JStr × BValue) → List (JStr × Bytes)
  | [] => []
  | (k, v) :: ps =>
    (k, encStrBytes (textEncode k) ++ encodeBencode v) :: encEntries ps

end

mutual

/-- Canonical form of a bencode value: dictionaries normalized to JavaScript
object shape and recursively sorted by key, exactly the shape `decodeBencode`
returns when fed `encodeBencode`'s output. -/
def canon : BValue → BValue
  | .num n => .num n
  | .str b => .str b
  | .list items => .list (canonItems items)
  | .dict pairs => .dict (sortPairs (objNormalize (canonEntries pairs)))

/-- Canonical forms of the elements of an array. -/
def canonItems : List BValue → List BValue
  | [] => []
  | v :: vs => canon v :: canonItems vs

/-- Canonical forms of the values of dictionary entries, keys unchanged. -/
def canonEntries : List (JStr × BValue) → List (JStr × BValue)
  | [] => []
  | (k, v) :: ps => (k, canon v) :: canonEntries ps

end

/-- A well-formed UTF-16 string: every code unit below 2^16 and surrogates
only in high-low pairs (what `TextEncoder` round-trips unchanged). -/
def wfJStr : JStr → Bool
  | [] => true
  | u :: rest =>
    if u < 0xD800 ∨ (0xDFFF < u ∧ u < 0x10000) then wfJStr rest
    else if u ≤ 0xDBFF then
      match rest with
      | v :: rest2 => (0xDC00 ≤ v ∧ v ≤ 0xDFFF) ∧ wfJStr rest2
      | [] => false
    else false

mutual

/-- A well-formed bencode value tree: genuine integers (no NaN), byte strings
of actual bytes, and dictionaries whose keys are well-formed UTF-16 strings
with no duplicates. -/
def wfB : BValue → Bool
  | .num (some _) => true
  | .num none => false
  | .str b => b.all (· < 256)
  | .list items => wfItems items
  | .dict pairs => wfPairs pairs ∧ (pairs.map (·.1)).Nodup

/-- Well-formedness of the elements of an array. -/
def wfItems : List BValue → Bool
  | [] => true
  | v :: vs => wfB v ∧ wfItems vs

/-- Well-formedness of dictionary entries: keys well-formed strings, values
well-formed trees. -/
def wfPairs : List (JStr × BValue) → Bool
  | [] => true
  | (k, v) :: ps => wfJStr k ∧ wfB v ∧ wfPairs ps

end

/-- Error kinds thrown by the source (messages abbreviated to constructors). -/
inductive JsErr where
  | invalidIntegerEncoding
  | invalidStringEncoding
  | invalidBencodeData
  | typeErr
  | missingInfoField
  | corruptTorrent
  | invalidMagnetFormat
  | invalidInfoHashFormat
  | uriError
  | invalidInputFormat
  deriving DecidableEq, Repr

mutual

/-- The source's `decodeBencode(data, offset)`: dispatch on the byte at
`offset` ('i' integer, 'l' list, 'd' dictionary, ASCII digit byte string),
returning the value and the offset just past it.  Out-of-range access yields
`undefined`, which matches no branch and falls through to the final throw.
One unit of fuel is spent per recursive step; any fuel above `data.length`
is enough, since every decoded value consumes at least one byte. -/
def decodeB : Nat → Bytes → Nat → Except JsErr (BValue × Nat)
  | 0, _, _ => throw .invalidBencodeData
  | f + 1, data, offset =>
    match data.get? offset with
    | some 105 =>
      match jsIndexOf data 101 (offset + 1) with
      | none => throw .invalidIntegerEncoding
      | some e =>
        let numStr := textDecode (jsSlice data (offset + 1) e)
        pure (.num (jsParseInt numStr), e + 1)
    | some 108 =>
      match decodeItemsB f data (offset + 1) with
      | .error e => .error e
      | .ok (items, pos) => pure (.list items, pos + 1)
    | some 100 =>
      match decodePairsB f data (offset + 1) [] with
      | .error e => .error e
      | .ok (pairs, pos) => pure (.dict pairs, pos + 1)
    | some b =>
      if 48 ≤ b ∧ b ≤ 57 then
        match jsIndexOf data 58 offset with
        | none => throw .invalidStringEncoding
        | some colon =>
          let lengthStr := textDecode (jsSlice data offset colon)
          match jsParseInt lengthStr with
          | some n =>
            let len := n.toNat
            pure (.str (jsSlice data (colon + 1) (colon + 1 + len)), colon + 1 + len)
          | none =>
            -- unreachable: the dispatched-on byte is a decimal digit, so the
            -- sliced length string starts with a digit and parseInt succeeds
            throw .invalidStringEncoding
      else throw .invalidBencodeData
    | none => throw .invalidBencodeData

/-- The source's list loop: decode elements while the position is in range and
the byte there is not the terminator `e`; exiting the loop (either way)
returns the collected elements and the exit position. -/
def decodeItemsB : Nat → Bytes → Nat → Except JsErr (List BValue × Nat)
  | 0, _, _ => throw .invalidBencodeData
  | f + 1, data, pos =>
    match data.get? pos with
    | some b =>
      if b = 101 then pure ([], pos)
      else
        match decodeB f data pos with
        | .error e => .error e
        | .ok (v, p) =>
          match decodeItemsB f data p with
          | .error e => .error e
          | .ok (vs, p2) => pure (v :: vs, p2)
    | none => pure ([], pos)

/-- The source's dictionary loop: decode a key and a value while in range and
not at the terminator; the key's decoded value is passed to `TextDecoder`
(throwing a TypeError unless it is a byte string) and assigned into the
object being built. -/
def decodePairsB : Nat → Bytes → Nat → List (JStr × BValue) →
    Except JsErr (List (JStr × BValue) × Nat)
  | 0, _, _, _ => throw .invalidBencodeData
  | f + 1, data, pos, acc =>
    match data.get? pos with
    | some b =>
      if b = 101 then pure (acc, pos)
      else
        match decodeB f data pos with
        | .error e => .error e
        | .ok (kv, p) =>
          match decodeB f data p with
          | .error e => .error e
          | .ok (v, p2) =>
            match kv with
            | .str kb => decodePairsB f data p2 (objSet acc (textDecode kb) v)
            | _ => throw .typeErr
    | none => pure (acc, pos)

end

/-- Top-level `decodeBencode(data)` at offset 0.  The fuel `2*data.length + 2`
is always sufficient: along any call path each unit of fuel is matched by a
consumed input byte except for the single loop-to-element step, which never
occurs twice in a row, and every call whose position is past the end of the
buffer returns immediately. -/
def decodeBencode (data : Bytes) : Except JsErr (BValue × Nat) :=
  decodeB (2 * data.length + 2) data 0

/-! ## SHA-1

`crypto.subtle.digest('SHA-1', bytes)` is an external primitive to the source;
it is modelled here by a pure SHA-1 over byte lists (all 32-bit arithmetic is
`Nat` reduced modulo 2^32). -/

/-- 32-bit left rotation (the two parts occupy disjoint bit ranges). -/
def rotl32 (x b : Nat) : Nat :=
  (x * 2 ^ b) % 2 ^ 32 + x / 2 ^ (32 - b)

/-- Big-endian 4-byte representation of a 32-bit word. -/
def be4 (n : Nat) : Bytes :=
  [n / 2 ^ 24 % 256, n / 2 ^ 16 % 256, n / 2 ^ 8 % 256, n % 256]

/-- Big-endian 8-byte representation of the 64-bit message bit length. -/
def be8 (n : Nat) : Bytes :=
  [n / 2 ^ 56 % 256, n / 2 ^ 48 % 256, n / 2 ^ 40 % 256, n / 2 ^ 32 % 256,
   n / 2 ^ 24 % 256, n / 2 ^ 16 % 256, n / 2 ^ 8 % 256, n % 256]

/-- SHA-1 padding: a 1 bit, zeros to 56 mod 64 bytes, then the bit length. -/
def sha1Pad (msg : Bytes) : Bytes :=
  msg ++ [0x80] ++ List.replicate ((64 + 56 - (msg.length + 1) % 64) % 64) 0 ++
    be8 (msg.length * 8)

/-- Big-endian 32-bit words of a byte sequence (length a multiple of 4). -/
def toWords : Bytes → List Nat
  | b0 :: b1 :: b2 :: b3 :: rest =>
    (b0 * 2 ^ 24 + b1 * 2 ^ 16 + b2 * 2 ^ 8 + b3) :: toWords rest
  | _ => []

/-- Splits a word list into blocks of 16 (fuel at least the length suffices). -/
def chunk16 : Nat → List Nat → List (List Nat)
  | 0, _ => []
  | _, [] => []
  | f + 1, ws => ws.take 16 :: chunk16 f (ws.drop 16)

/-- Message-schedule extension, most recent word first: appends
`rotl1 (w[t-3] xor w[t-8] xor w[t-14] xor w[t-16])` the given number of times. -/
def extW : Nat → List Nat → List Nat
  | 0, rw => rw
  | f + 1, rw =>
    extW f ((rotl32 (((rw.get? 2).getD 0 ^^^ (rw.get? 7).getD 0) ^^^
      (((rw.get? 13).getD 0) ^^^ (rw.get? 15).getD 0)) 1) :: rw)

/-- The SHA-1 round function for round `t`. -/
def sha1F (t b c d : Nat) : Nat :=
  if t < 20 then (b &&& c) ||| ((b ^^^ 0xFFFFFFFF) &&& d)
  else if t < 40 then (b ^^^ c) ^^^ d
  else if t < 60 then ((b &&& c) ||| (b &&& d)) ||| (c &&& d)
  else (b ^^^ c) ^^^ d

/-- The SHA-1 round constant for round `t`. -/
def sha1K (t : Nat) : Nat :=
  if t < 20 then 0x5A827999
  else if t < 40 then 0x6ED9EBA1
  else if t < 60 then 0x8F1BBCDC
  else 0xCA62C1D6

/-- The 80 SHA-1 rounds over one block's schedule. -/
def sha1Rounds (t : Nat) (ws : List Nat) (st : Nat × Nat × Nat × Nat × Nat) :
    Nat × Nat × Nat × Nat × Nat :=
  match ws with
  | [] => st
  | w :: rest =>
    match st with
    | (a, b, c, d, e) =>
      sha1Rounds (t + 1) rest
        ((rotl32 a 5 + sha1F t b c d + e + sha1K t + w) % 2 ^ 32, a, rotl32 b 30, c, d)

/-- Folds the compression function over the message blocks. -/
def sha1Blocks (blocks : List (List Nat)) (h : Nat × Nat × Nat × Nat × Nat) :
    Nat × Nat × Nat × Nat × Nat :=
  match blocks with
  | [] => h
  | blk :: rest =>
    match h with
    | (h0, h1, h2, h3, h4) =>
      let w80 := (extW 64 blk.reverse).reverse
      match sha1Rounds 0 w80 (h0, h1, h2, h3, h4) with
      | (a, b, c, d, e) =>
        sha1Blocks rest ((h0 + a) % 2 ^ 32, (h1 + b) % 2 ^ 32, (h2 + c) % 2 ^ 32,
          (h3 + d) % 2 ^ 32, (h4 + e) % 2 ^ 32)

/-- SHA-1 digest: 20 bytes. -/
def sha1 (msg : Bytes) : Bytes :=
  let ws := toWords (sha1Pad msg)
  match sha1Blocks (chunk16 ws.length ws)
      (0x67452301, 0xEFCDAB89, 0x98BADCFE, 0x10325476, 0xC3D2E1F0) with
  | (h0, h1, h2, h3, h4) => be4 h0 ++ be4 h1 ++ be4 h2 ++ be4 h3 ++ be4 h4

/-- Lower-case hexadecimal digit code unit for a value below 16. -/
def hexDigitL (n : Nat) : Nat := if n < 10 then 48 + n else 87 + n

/-- The source's hex rendering of the digest: each byte through
`toString(16).padStart(2, '0')`, joined — two lower-case hex digits per byte. -/
def bytesToHex (bs : Bytes) : JStr :=
  bs.flatMap fun b => [hexDigitL (b / 16), hexDigitL (b % 16)]

/-! ## Percent coding and the magnet URI query machinery -/

/-- Is `c` in `encodeURIComponent`'s unescaped set
(alphanumeric or one of `- _ . ! ~ * ' ( )`)? -/
def uriUnescaped (c : Nat) : Bool :=
  (48 ≤ c ∧ c ≤ 57) ∨ (65 ≤ c ∧ c ≤ 90) ∨ (97 ≤ c ∧ c ≤ 122) ∨
  c = 45 ∨ c = 95 ∨ c = 46 ∨ c = 33 ∨ c = 126 ∨ c = 42 ∨ c = 39 ∨ c = 40 ∨ c = 41

/-- Upper-case hexadecimal digit code unit for a value below 16. -/
def hexDigitU (n : Nat) : Nat := if n < 10 then 48 + n else 55 + n

/-- Percent-escape of one byte, upper-case hex, as `encodeURIComponent` emits. -/
def pctByte (b : Nat) : JStr := [37, hexDigitU (b / 16), hexDigitU (b % 16)]

/-- ECMAScript `encodeURIComponent`: unescaped-set code units pass through,
everything else is UTF-8 encoded and percent-escaped; a lone surrogate throws
a `URIError`, modelled as `none`. -/
def encodeURIComponent : JStr → Option JStr
  | [] => some []
  | c :: rest =>
    if uriUnescaped c then (encodeURIComponent rest).map (c :: ·)
    else if c < 0xD800 ∨ 0xDFFF < c then
      (encodeURIComponent rest).map (((utf8EncodeChar c).flatMap pctByte) ++ ·)
    else if c ≤ 0xDBFF then
      match rest with
      | c2 :: rest2 =>
        if 0xDC00 ≤ c2 ∧ c2 ≤ 0xDFFF then
          (encodeURIComponent rest2).map
            (((utf8EncodeChar (0x10000 + (c - 0xD800) * 0x400 + (c2 - 0xDC00))).flatMap
              pctByte) ++ ·)
        else none
      | [] => none
    else none

/-- Value of an ASCII hex digit code unit, if it is one. -/
def hexVal (c : Nat) : Option Nat :=
  if 48 ≤ c ∧ c ≤ 57 then some (c - 48)
  else if 65 ≤ c ∧ c ≤ 70 then some (c - 55)
  else if 97 ≤ c ∧ c ≤ 102 then some (c - 87)
  else none

/-- Strict decoding of one UTF-8 sequence of the exact given bytes (no more,
no less): the scalar value, or `none` on any malformed, overlong, surrogate or
out-of-range sequence.  Used by `decodeURIComponent`, which throws in all
those cases. -/
def utf8Strict1 : Bytes → Option Nat
  | [b] => if b ≤ 0x7F then some b else none
  | [b, c1] =>
    if (0xC2 ≤ b ∧ b ≤ 0xDF) ∧ contIn c1 0x80 0xBF then
      some ((b - 0xC0) * 64 + (c1 - 0x80))
    else none
  | [b, c1, c2] =>
    if (0xE0 ≤ b ∧ b ≤ 0xEF) ∧
        contIn c1 (if b = 0xE0 then 0xA0 else 0x80) (if b = 0xED then 0x9F else 0xBF) ∧
        contIn c2 0x80 0xBF then
      some ((b - 0xE0) * 4096 + (c1 - 0x80) * 64 + (c2 - 0x80))
    else none
  | [b, c1, c2, c3] =>
    if (0xF0 ≤ b ∧ b ≤ 0xF4) ∧
        contIn c1 (if b = 0xF0 then 0x90 else 0x80) (if b = 0xF4 then 0x8F else 0xBF) ∧
        contIn c2 0x80 0xBF ∧ contIn c3 0x80 0xBF then
      some ((b - 0xF0) * 262144 + (c1 - 0x80) * 4096 + (c2 - 0x80) * 64 + (c3 - 0x80))
    else none
  | _ => none

/-- Number of continuation bytes demanded by a UTF-8 lead byte with its high
bit set; `none` when the count is not between 1 and 3. -/
def contCount (b : Nat) : Option Nat :=
  if 0xC0 ≤ b ∧ b ≤ 0xDF then some 1
  else if 0xE0 ≤ b ∧ b ≤ 0xEF then some 2
  else if 0xF0 ≤ b ∧ b ≤ 0xF7 then some 3
  else none

/-- ECMAScript `decodeURIComponent`: code units other than `%` pass through;
`%` must begin `%XX` (hex), and a byte with the high bit set must begin a
fully percent-escaped, strictly valid UTF-8 sequence, else a `URIError` is
thrown (modelled as `none`). -/
def decodeURIComponent : JStr → Option JStr
  | [] => some []
  | c :: rest =>
    if c ≠ 37 then (decodeURIComponent rest).map (c :: ·)
    else
      match rest with
      | h1 :: h2 :: r2 =>
        match hexVal h1, hexVal h2 with
        | some v1, some v2 =>
          let b := v1 * 16 + v2
          if b ≤ 0x7F then (decodeURIComponent r2).map (b :: ·)
          else
            match contCount b with
            | some 1 =>
              match r2 with
              | 37 :: h3 :: h4 :: r4 =>
                match hexVal h3, hexVal h4 with
                | some v3, some v4 =>
                  match utf8Strict1 [b, v3 * 16 + v4] with
                  | some cp => (decodeURIComponent r4).map (cpToCu cp ++ ·)
                  | none => none
                | _, _ => none
              | _ => none
            | some 2 =>
              match r2 with
              | 37 :: h3 :: h4 :: 37 :: h5 :: h6 :: r6 =>
                match hexVal h3, hexVal h4, hexVal h5, hexVal h6 with
                | some v3, some v4, some v5, some v6 =>
                  match utf8Strict1 [b, v3 * 16 + v4, v5 * 16 + v6] with
                  | some cp => (decodeURIComponent r6).map (cpToCu cp ++ ·)
                  | none => none
                | _, _, _, _ => none
              | _ => none
            | some 3 =>
              match r2 with
              | 37 :: h3 :: h4 :: 37 :: h5 :: h6 :: 37 :: h7 :: h8 :: r8 =>
                match hexVal h3, hexVal h4, hexVal h5, hexVal h6, hexVal h7, hexVal h8 with
                | some v3, some v4, some v5, some v6, some v7, some v8 =>
                  match utf8Strict1 [b, v3 * 16 + v4, v5 * 16 + v6, v7 * 16 + v8] with
                  | some cp => (decodeURIComponent r8).map (cpToCu cp ++ ·)
                  | none => none
                | _, _, _, _, _, _ => none
              | _ => none
            | _ => none
        | _, _ => none
      | _ => none

/-- Fuelled worker for WHATWG percent-decoding over bytes: `%XX` with two hex
digits becomes a byte, anything else passes through (fuel at least the input
length suffices). -/
def pdF : Nat → Bytes → Bytes
  | 0, _ => []
  | _, [] => []
  | f + 1, b :: rest =>
    if b = 37 then
      match rest with
      | h1 :: h2 :: r2 =>
        match hexVal h1, hexVal h2 with
        | some v1, some v2 => (v1 * 16 + v2) :: pdF f r2
        | _, _ => 37 :: pdF f rest
      | _ => 37 :: pdF f rest
    else b :: pdF f rest

/-- WHATWG percent-decode on bytes. -/
def percentDecode (bs : Bytes) : Bytes := pdF bs.length bs

/-- One `application/x-www-form-urlencoded` name or value: `+` to space,
percent-decode the UTF-8 bytes, then UTF-8 decode with replacement.  This is
what `URLSearchParams` applies to every name and value. -/
def formDecodeStr (s : JStr) : JStr :=
  textDecode (percentDecode (textEncode (s.map fun c => if c = 43 then 32 else c)))

/-- Accumulating worker for `splitAmp`: `cur` holds the current piece
reversed. -/
def splitAmpGo (cur : JStr) : JStr → List JStr
  | [] => [cur.reverse]
  | c :: r => if c = 38 then cur.reverse :: splitAmpGo [] r else splitAmpGo (c :: cur) r

/-- Splits a query string on `&`, dropping empty pieces, as the
`URLSearchParams` string parser does. -/
def splitAmp (s : JStr) : List JStr :=
  (splitAmpGo [] s).filter (· ≠ [])

/-- Splits one `name=value` piece at the first `=` (no `=`: empty value). -/
def eqSplit (seg : JStr) : JStr × JStr :=
  match fIdx seg 61 with
  | some i => (seg.take i, seg.drop (i + 1))
  | none => (seg, [])

/-- `new URLSearchParams(query)`: split on `&`, split each piece at the first
`=`, form-decode names and values. -/
def parseQuery (q : JStr) : List (JStr × JStr) :=
  (splitAmp q).map fun seg =>
    match eqSplit seg with
    | (n, v) => (formDecodeStr n, formDecodeStr v)

/-- `params.get(name)`: the first value under `name`, or `none` for null. -/
def jsGetParam (params : List (JStr × JStr)) (name : JStr) : Option JStr :=
  (params.find? fun p => p.1 = name).map (·.2)

/-- `params.getAll(name)`: every value under `name`, in order. -/
def jsGetAllParam (params : List (JStr × JStr)) (name : JStr) : List JStr :=
  (params.filter fun p => p.1 = name).map (·.2)

/-- Is `c` outside the URL query percent-encode set (printable ASCII other
than `"`, `<`, `>`)?  Such code units are stored in the query verbatim. -/
def querySafe (c : Nat) : Bool :=
  0x21 ≤ c ∧ c ≤ 0x7E ∧ c ≠ 0x22 ∧ c ≠ 0x3C ∧ c ≠ 0x3E

/-- The URL parser's query-state serialization: code points in the query
percent-encode set are UTF-8 encoded and percent-escaped, the rest pass
through. -/
def queryEncode (s : JStr) : JStr :=
  (cuToCodePoints s).flatMap fun cp =>
    if querySafe cp then [cp] else (utf8EncodeChar cp).flatMap pctByte

/-- The query component that `new URL(link).search` exposes (without its
leading `?`): strip leading/trailing C0 controls and spaces, strip tabs and
newlines, cut at the first `#`, take what follows the first `?`, and
serialize it in query state. -/
def urlSearch (link : JStr) : JStr :=
  let t0 := ((link.dropWhile (· ≤ 0x20)).reverse.dropWhile (· ≤ 0x20)).reverse
  let t := t0.filter fun c => c ≠ 0x9 ∧ c ≠ 0xA ∧ c ≠ 0xD
  let bf := t.take ((fIdx t 35).getD t.length)
  match fIdx bf 63 with
  | some i => queryEncode (bf.drop (i + 1))
  | none => []

/-! ## The torrent descriptor and its producers -/

/-- The source's `TorrentInstance`: `none` models an absent (`undefined`)
field. -/
structure TorrentInstance where
  infoHash : JStr
  name : Option JStr
  announce : Option (List JStr)
  files : Option (List (JStr × Int))
  length : Option Int
  deriving DecidableEq, Repr

/-- The source's `parseMagnetLink`: read the query of the URI, require an
`xt` parameter of the form `urn:btih:` + 40 hex digits (case-insensitive,
normalized to lower case), take `dn` — if present and non-empty — through a
second `decodeURIComponent` (whose `URIError` propagates out of the catch
block, which rethrows every `Error`), and collect every `tr` value. -/
def parseMagnetLink (link : JStr) : Except JsErr TorrentInstance :=
  match jsGetParam (parseQuery (urlSearch link)) (s2j "xt") with
  | none => .error .invalidMagnetFormat
  | some xt =>
    if xt = [] ∨ ¬ startsWithJ (s2j "urn:btih:") xt then .error .invalidMagnetFormat
    else if ¬ isHex40 (jsToLowerCase (xt.drop 9)) then .error .invalidInfoHashFormat
    else
      match jsGetParam (parseQuery (urlSearch link)) (s2j "dn") with
      | some (c :: cs) =>
        match decodeURIComponent (c :: cs) with
        | some nm =>
          .ok ⟨jsToLowerCase (xt.drop 9), some nm,
            some (jsGetAllParam (parseQuery (urlSearch link)) (s2j "tr")), none, none⟩
        | none => .error .uriError
      | _ =>
        .ok ⟨jsToLowerCase (xt.drop 9), none,
          some (jsGetAllParam (parseQuery (urlSearch link)) (s2j "tr")), none, none⟩

/-- The source's `parseInput`: trim; a `magnet:` prefix delegates to
`parseMagnetLink`; exactly 40 hex characters yield a hash-only descriptor
with the hash lower-cased, no name and an empty tracker array; anything else
throws. -/
def parseInput (input : JStr) : Except JsErr TorrentInstance :=
  let t := jsTrim input
  if startsWithJ (s2j "magnet:") t then parseMagnetLink t
  else if isHex40 t then .ok ⟨jsToLowerCase t, none, some [], none, none⟩
  else .error .invalidInputFormat

/-- JavaScript `customName || torrent.name`: the first operand unless it is
falsy (absent or the empty string). -/
def jsOrStr (a b : Option JStr) : Option JStr :=
  match a with
  | some (c :: cs) => some (c :: cs)
  | _ => b

/-- Encodes every tracker of a list, propagating a `URIError`. -/
def encTrackers : List JStr → Except JsErr (List JStr)
  | [] => .ok []
  | t :: ts => do
    let e ← match encodeURIComponent t with
      | some e => Except.ok e
      | none => Except.error .uriError
    let rest ← encTrackers ts
    pure (e :: rest)

/-- The caller-supplied branch of the source's `generateMagnetLink` tracker
block: the caller's list when the flag is set and the list is non-empty, each
entry percent-encoded. -/
def customTrackerChoice (addTrackers : Bool)
    (customTrackers : Option (List JStr)) : Except JsErr (List JStr) :=
  if addTrackers then
    match customTrackers with
    | some (c :: cs) => encTrackers (c :: cs)
    | _ => Except.ok []
  else Except.ok []

/-- The tracker block of `generateMagnetLink`: the descriptor's own non-empty
`announce` list takes priority regardless of the flag. -/
def trackerPart (torrent : TorrentInstance) (addTrackers : Bool)
    (customTrackers : Option (List JStr)) : Except JsErr (List JStr) :=
  match torrent.announce with
  | some (t :: ts) => encTrackers (t :: ts)
  | _ => customTrackerChoice addTrackers customTrackers

/-- The source's `generateMagnetLink`: `magnet:?xt=urn:btih:` + the stored
hash; `&dn=` + the percent-encoded name if `customName || torrent.name` is
truthy; then one `&tr=` + percent-encoded entry per tracker from
`trackerPart`. -/
def generateMagnetLink (torrent : TorrentInstance) (customName : Option JStr)
    (addTrackers : Bool) (customTrackers : Option (List JStr)) :
    Except JsErr JStr :=
  let base := s2j "magnet:?xt=urn:btih:" ++ torrent.infoHash
  let withName :=
    match jsOrStr customName torrent.name with
    | some (c :: cs) =>
      match encodeURIComponent (c :: cs) with
      | some e => Except.ok (base ++ s2j "&dn=" ++ e)
      | none => Except.error JsErr.uriError
    | _ => Except.ok base
  match withName with
  | .error e => .error e
  | .ok wn =>
    match trackerPart torrent addTrackers customTrackers with
    | .error e => .error e
    | .ok trs => .ok (wn ++ (trs.map (s2j "&tr=" ++ ·)).flatten)

/-! ## The torrent descriptor extractor (`parseBencodeBuffer`) -/

/-- JavaScript truthiness of a decoded bencode value: `0` and `NaN` are
falsy; every `Uint8Array`, array and object — even empty — is truthy. -/
def jsTruthy : BValue → Bool
  | .num (some n) => n ≠ 0
  | .num none => false
  | .str _ => true
  | .list _ => true
  | .dict _ => true

/-- JavaScript property read `v.p` on a decoded bencode value: a key lookup
on objects; on arrays and `Uint8Array`s only `length` exists (their element
count); `none` models `undefined`. -/
def jsGetProp (v : BValue) (p : JStr) : Option BValue :=
  match v with
  | .dict pairs => objLookup pairs p
  | .list items => if p = s2j "length" then some (.num (some items.length)) else none
  | .str b => if p = s2j "length" then some (.num (some b.length)) else none
  | .num _ => none

/-- `new TextDecoder('utf-8').decode(v)`: decodes a `Uint8Array`, throws a
TypeError on any other argument. -/
def textDecodeVal : BValue → Except JsErr JStr
  | .str b => .ok (textDecode b)
  | _ => .error .typeErr

/-- The inner loop over one `announce-list` group: decode each entry and push
it unless already present (`announce.includes` check). -/
def foldGroup (acc : List JStr) : List BValue → Except JsErr (List JStr)
  | [] => .ok acc
  | t :: ts =>
    match textDecodeVal t with
    | .error e => .error e
    | .ok u => foldGroup (if acc.contains u then acc else acc ++ [u]) ts

/-- The outer loop over `announce-list`: non-array groups are skipped. -/
def foldGroups (acc : List JStr) : List BValue → Except JsErr (List JStr)
  | [] => .ok acc
  | g :: gs =>
    match g with
    | .list ts =>
      match foldGroup acc ts with
      | .error e => .error e
      | .ok acc2 => foldGroups acc2 gs
    | _ => foldGroups acc gs

/-- The main `announce` push of `parseBencodeBuffer`: the decoded value, if
truthy. -/
def mainAnnounce (torrentData : BValue) : Except JsErr (List JStr) :=
  match jsGetProp torrentData (s2j "announce") with
  | some av =>
    if jsTruthy av then
      match textDecodeVal av with
      | .ok t => .ok [t]
      | .error e => .error e
    else .ok []
  | none => .ok []

/-- The tracker-collection block of `parseBencodeBuffer`: the main `announce`
push, then the walk over `announce-list` when it is a truthy array. -/
def collectAnnounce (torrentData : BValue) : Except JsErr (List JStr) :=
  match mainAnnounce torrentData with
  | .error e => .error e
  | .ok a0 =>
    match jsGetProp torrentData (s2j "announce-list") with
    | some (.list groups) => foldGroups a0 groups
    | _ => .ok a0

/-- One multi-file entry: if `file.path` and `file.length` are both truthy,
the path (an array of byte-string segments) is decoded and joined with `/`
and the entry is appended, its length added to the running total.  A truthy
non-array path or non-byte-string segment throws a TypeError in the source; a
truthy non-numeric length would make the source concatenate strings into
`totalLength`, a shape no real torrent has — the model throws there too.
`decodeSegs` decodes each path segment (TypeError on a non-byte-string). -/
def decodeSegs : List BValue → Except JsErr (List JStr)
  | [] => .ok []
  | p :: ps =>
    match textDecodeVal p with
    | .error e => .error e
    | .ok s =>
      match decodeSegs ps with
      | .error e => .error e
      | .ok rest => .ok (s :: rest)

/-- One multi-file entry body (see the comment above `decodeSegs`). -/
def fileStep (st : List (JStr × Int) × Int) (e : BValue) :
    Except JsErr (List (JStr × Int) × Int) :=
  match jsGetProp e (s2j "path"), jsGetProp e (s2j "length") with
  | some pv, some lv =>
    if jsTruthy pv ∧ jsTruthy lv then
      match pv with
      | .list parts =>
        match decodeSegs parts with
        | .error e2 => .error e2
        | .ok segs =>
          match lv with
          | .num (some n) =>
            .ok (st.1 ++ [((segs.intersperse (s2j "/")).flatten, n)], st.2 + n)
          | _ => .error .typeErr
      | _ => .error .typeErr
    else .ok st
  | _, _ => .ok st

/-- The multi-file loop of `parseBencodeBuffer`. -/
def foldFiles (st : List (JStr × Int) × Int) :
    List BValue → Except JsErr (List (JStr × Int) × Int)
  | [] => .ok st
  | e :: es =>
    match fileStep st e with
    | .error e2 => .error e2
    | .ok st2 => foldFiles st2 es

/-- The name block of `parseBencodeBuffer`: decode `info.name` if truthy. -/
def nameOf (info : BValue) : Except JsErr (Option JStr) :=
  match jsGetProp info (s2j "name") with
  | some nv =>
    if jsTruthy nv then
      match textDecodeVal nv with
      | .ok s => .ok (some s)
      | .error e => .error e
    else .ok none
  | none => .ok none

/-- The file block of `parseBencodeBuffer`: walk a truthy `files` array;
otherwise, on a truthy `length` (single-file), one entry `(name, length)` —
only when the name is a truthy string — with that length as the total. -/
def filesOf (info : BValue) (name : Option JStr) :
    Except JsErr (List (JStr × Int) × Int) :=
  match jsGetProp info (s2j "files") with
  | some (.list entries) =>
    if jsTruthy (.list entries) then foldFiles ([], 0) entries else .ok ([], 0)
  | _ =>
    match jsGetProp info (s2j "length") with
    | some lv =>
      if jsTruthy lv then
        match lv with
        | .num (some n) =>
          match name with
          | some (c :: cs) => .ok ([((c :: cs : JStr), n)], n)
          | _ => .ok ([], n)
        | _ => .error .typeErr
      else .ok ([], 0)
    | none => .ok ([], 0)

/-- The body of `parseBencodeBuffer` after bencode decoding: require an
object with an `info` property, hash the re-encoded `info`, decode the name
if truthy, collect trackers, then collect files.  Empty collections and
non-positive totals are returned as `undefined`. -/
def extractDescriptor (torrentData : BValue) : Except JsErr TorrentInstance :=
  match torrentData with
  | .dict pairs =>
    match objLookup pairs (s2j "info") with
    | some info =>
      match nameOf info with
      | .error e => .error e
      | .ok name =>
        match collectAnnounce torrentData with
        | .error e => .error e
        | .ok announce =>
          match filesOf info name with
          | .error e => .error e
          | .ok (files, total) =>
            .ok ⟨bytesToHex (sha1 (encodeBencode info)), name,
              if announce.length > 0 then some announce else none,
              if files.length > 0 then some files else none,
              if total > 0 then some total else none⟩
    | none => .error .missingInfoField
  | _ => .error .missingInfoField

/-- The source's `parseBencodeBuffer`: bencode-decode the buffer and extract
the descriptor; the surrounding catch converts every failure into the single
`Invalid or corrupted torrent file format` error. -/
def parseBencodeBuffer (buffer : Bytes) : Except JsErr TorrentInstance :=
  match decodeBencode buffer with
  | .ok (v, _) =>
    match extractDescriptor v with
    | .ok d => .ok d
    | .error _ => .error .corruptTorrent
  | .error _ => .error .corruptTorrent

/-! ## Auxiliary definitions used by the verification below -/

/-- The `&dn=` segment the generator emits for a resolved name (empty when the
name is absent or the empty string). -/
def dnSegment (nm : Option JStr) : JStr :=
  match nm with
  | some (c :: cs) => s2j "&dn=" ++ (encodeURIComponent (c :: cs)).getD []
  | _ => []

/-- The caller-supplied tracker names chosen when the flag is set and the
list non-empty. -/
def customChoice (flag : Bool) (ct : Option (List JStr)) : List JStr :=
  if flag then
    match ct with
    | some (c :: cs) => c :: cs
    | _ => []
  else []

/-- The tracker list the generator chooses: the descriptor's own non-empty
`announce` list regardless of the flag; otherwise, with the flag set, a
non-empty caller-supplied list; otherwise nothing. -/
def chosenTrackers (t : TorrentInstance) (flag : Bool) (ct : Option (List JStr)) :
    List JStr :=
  match t.announce with
  | some (x :: xs) => x :: xs
  | _ => customChoice flag ct

/-- Appends `u` unless already present — one step of order-preserving
de-duplication by exact string equality. -/
def pushNew (acc : List JStr) (u : JStr) : List JStr :=
  if acc.contains u then acc else acc ++ [u]

/-- Order-preserving de-duplication, folded over a list from an accumulator. -/
def dedupAcc (acc : List JStr) : List JStr → List JStr
  | [] => acc
  | x :: xs => dedupAcc (pushNew acc x) xs

/-- Fuelled worker for `dedupKeepFirst` (fuel at least the length suffices). -/
def dedupF : Nat → List JStr → List JStr
  | 0, _ => []
  | _, [] => []
  | f + 1, x :: xs => x :: dedupF f (xs.filter (· ≠ x))

/-- De-duplication by exact string equality keeping the first occurrence,
insertion order preserved: each element is followed by the de-duplication of
the remainder with its later duplicates removed. -/
def dedupKeepFirst (l : List JStr) : List JStr := dedupF l.length l

/-- Stable insertion of an encoded entry into a list sorted by ascending
byte-wise comparison of the raw (UTF-8) key bytes. -/
def insByKeyBytes (x : JStr × Bytes) : List (JStr × Bytes) → List (JStr × Bytes)
  | [] => [x]
  | y :: ys =>
    if cuLt (textEncode x.1) (textEncode y.1) then x :: y :: ys
    else y :: insByKeyBytes x ys

/-- Stable sort of encoded entries by ascending byte-wise comparison of the
raw key bytes (`cuLt` is plain lexicographic comparison of `Nat` lists). -/
def sortByKeyBytes (l : List (JStr × Bytes)) : List (JStr × Bytes) :=
  l.foldr insByKeyBytes []

/-- Modelled from the spec: dictionary encoding as `d` + the
`(encoded-key, encoded-value)` pairs sorted by ascending byte-wise comparison
of the raw key bytes + `e`. -/
def specDictEncode (pairs : List (JStr × BValue)) : Bytes :=
  [100] ++ ((sortByKeyBytes (objNormalize (encEntries pairs))).map (·.2)).flatten ++ [101]

/-- The byte sequence of a dictionary's encoded entries in a given entry
order: for each entry, the encoded key byte string followed by the encoded
value. -/
def encPairsSeq (L : List (JStr × BValue)) : Bytes :=
  L.flatMap fun p => encStrBytes (textEncode p.1) ++ encodeBencode p.2

/-- Structural equality of decoded values, as JavaScript deep equality of the
produced numbers/buffers/arrays/objects: object (dictionary) comparison
ignores key insertion order, so two trees are structurally equal exactly when
their canonical forms coincide.  Modelled from the spec's "structural
equality". -/
def streq (a b : BValue) : Prop := canon a = canon b

/-! ## Foundational lemmas -/

/-- ASCII bytes decode to themselves under UTF-8 replacement decoding. -/
theorem u8dF_ascii : ∀ (f : Nat) (s : Bytes), s.length ≤ f → (∀ c ∈ s, c ≤ 0x7F) →
    u8dF f s = s := by
  intro f
  induction f with
  | zero =>
    intro s hl _
    match s with
    | [] => rfl
  | succ f ih =>
    intro s hl hc
    match s with
    | [] => rfl
    | b :: rest =>
      have hb : b ≤ 0x7F := hc b (by simp)
      simp only [u8dF, if_pos hb]
      rw [ih rest (by simp at hl; omega) (fun c hcm => hc c (by simp [hcm]))]

/-- Code points below 2^16 are single code units. -/
theorem cpToCu_small {c : Nat} (h : c < 0x10000) : cpToCu c = [c] := by
  simp [cpToCu, h]

/-- ASCII strings are fixed by `textDecode`. -/
theorem textDecode_ascii {s : Bytes} (h : ∀ c ∈ s, c ≤ 0x7F) : textDecode s = s := by
  unfold textDecode utf8DecodeReplace
  rw [u8dF_ascii s.length s le_rfl h]
  induction s with
  | nil => rfl
  | cons b rest ih =>
    have hb : b ≤ 0x7F := h b (by simp)
    simp only [List.flatMap_cons, cpToCu_small (by omega : b < 0x10000)]
    rw [ih (fun c hcm => h c (by simp [hcm]))]
    rfl

/-- ASCII code units are fixed by `cuToCpF` with enough fuel. -/
theorem cuToCpF_ascii : ∀ (f : Nat) (s : JStr), s.length ≤ f → (∀ c ∈ s, c ≤ 0x7F) →
    cuToCpF f s = s := by
  intro f
  induction f with
  | zero =>
    intro s hl _
    match s with
    | [] => rfl
  | succ f ih =>
    intro s hl hc
    match s with
    | [] => rfl
    | u :: rest =>
      have hu : u ≤ 0x7F := hc u (by simp)
      simp only [cuToCpF, if_pos (Or.inl (by omega : u < 0xD800))]
      rw [ih rest (by simp at hl; omega) (fun c hcm => hc c (by simp [hcm]))]

/-- ASCII strings are fixed by `textEncode`. -/
theorem textEncode_ascii {s : JStr} (h : ∀ c ∈ s, c ≤ 0x7F) : textEncode s = s := by
  unfold textEncode cuToCodePoints
  rw [cuToCpF_ascii s.length s le_rfl h]
  induction s with
  | nil => rfl
  | cons u rest ih =>
    have hu : u ≤ 0x7F := h u (by simp)
    simp only [List.flatMap_cons]
    rw [ih (fun c hcm => h c (by simp [hcm]))]
    rw [utf8EncodeChar, if_pos (by omega : u < 0x80)]
    rfl

/-- Full characterization of `fIdx`: the found index holds `c` and nothing
before it does. -/
theorem fIdx_eq_some {l : List Nat} {c i : Nat} (h : fIdx l c = some i) :
    i < l.length ∧ l.get? i = some c ∧ ∀ j, j < i → l.get? j ≠ some c := by
  induction l generalizing i with
  | nil => simp [fIdx] at h
  | cons x xs ih =>
    by_cases hx : x = c
    · simp [fIdx, hx] at h
      subst h
      simp [hx]
    · simp only [fIdx, if_neg hx, Option.map_eq_some'] at h
      obtain ⟨i0, hi0, hieq⟩ := h
      obtain ⟨h1, h2, h3⟩ := ih hi0
      subst hieq
      refine ⟨by simpa using h1, by simpa using h2, ?_⟩
      intro j hj
      match j with
      | 0 => simpa using hx
      | j + 1 =>
        simp only [List.get?_cons_succ]
        exact h3 j (by omega)

/-- `fIdx` on a list whose prefix lacks `c`. -/
theorem fIdx_append_not_mem {a b : List Nat} {c : Nat} (h : c ∉ a) :
    fIdx (a ++ b) c = (fIdx b c).map (· + a.length) := by
  induction a with
  | nil => simp
  | cons x xs ih =>
    have hx : x ≠ c := by rintro rfl; exact h (by simp)
    simp only [List.cons_append, fIdx, if_neg hx, List.append_eq]
    rw [ih (fun hm => h (by simp [hm]))]
    cases fIdx b c with
    | none => rfl
    | some i =>
      simp only [Option.map_some', Option.some.injEq, List.length_cons]
      omega

/-- `fIdx` finds an element at the head. -/
theorem fIdx_cons_self {c : Nat} {l : List Nat} : fIdx (c :: l) c = some 0 := by
  simp [fIdx]

/-- Decimal digits are not JavaScript whitespace. -/
theorem jsIsWs_digit {c : Nat} (h : isDigit c = true) : jsIsWs c = false := by
  simp only [isDigit, decide_eq_true_eq] at h
  simp only [jsIsWs, decide_eq_false_iff_not]
  omega

/-- `jsParseInt` on a non-empty all-digit string is its numeric value. -/
theorem jsParseInt_digits {s : JStr} (h0 : s ≠ []) (h1 : s.all isDigit) :
    jsParseInt s = some (digitsVal s) := by
  match s, h0 with
  | c :: rest, _ =>
    have hc : isDigit c = true := by
      have := List.all_eq_true.mp h1 c (by simp)
      simpa using this
    have hcv : 48 ≤ c ∧ c ≤ 57 := by simpa [isDigit] using hc
    have hdw : (c :: rest).dropWhile jsIsWs = c :: rest :=
      List.dropWhile_cons_of_neg (by simp [jsIsWs_digit hc])
    simp only [jsParseInt, hdw]
    rw [if_neg (by omega : ¬c = 45), if_neg (by omega : ¬c = 43)]
    have htw : (c :: rest).takeWhile isDigit = c :: rest := by
      rw [List.takeWhile_eq_self_iff.mpr]
      intro a ha
      exact List.all_eq_true.mp h1 a ha
    simp [leadingDigitsVal, hc, htw]

/-- Any fuel of the successor form computes `decodeB` at a digit-dispatched
byte-string head: the first colon is located, the digits before it give the
length, and the slice is taken (clamped to the available bytes). -/
theorem decodeB_stringCase {f : Nat} {data : Bytes} {offset : Nat} {b : Nat}
    (hb : data.get? offset = some b) (hd : 48 ≤ b ∧ b ≤ 57) {colon : Nat}
    (hc : jsIndexOf data 58 offset = some colon) {n : Int}
    (hp : jsParseInt (textDecode (jsSlice data offset colon)) = some n) :
    decodeB (f + 1) data offset =
      .ok (.str (jsSlice data (colon + 1) (colon + 1 + n.toNat)), colon + 1 + n.toNat) := by
  unfold decodeB
  rw [hb]
  have h105 : b ≠ 105 := by omega
  have h108 : b ≠ 108 := by omega
  have h100 : b ≠ 100 := by omega
  simp only []
  rcases hd with ⟨hd1, hd2⟩
  interval_cases b <;> simp_all [hc, hp, pure, Except.pure]

/-! ## C4 — truncated length-prefixed strings -/

/-- C4 (counterexample): on `"10:short"` — a declared length of 10 with only
5 bytes after the colon — `decodeBencode` does not fail with a malformed-
string error as the claim states: it succeeds, returning the silently
shortened byte string `"short"` and the out-of-range offset 13. -/
theorem c4_counterexample :
    decodeBencode (s2j "10:short") = .ok (.str (s2j "short"), 13) ∧
      (s2j "10:short").length = 8 := by
  exact ⟨rfl, rfl⟩

/-- C4 (amended): for every buffer consisting of a decimal length prefix, a
colon and fewer body bytes than the declared length, `decodeBencode` does not
fail: it returns the entire remaining body as a silently shortened byte
string, with the returned offset `digits + 1 + declared-length` pointing past
the end of the buffer. -/
theorem c4_amended (dig : JStr) (body : Bytes) (h1 : dig ≠ [])
    (h2 : dig.all isDigit = true) (h3 : body.length < digitsVal dig) :
    decodeBencode (dig ++ [58] ++ body) =
      .ok (.str body, dig.length + 1 + digitsVal dig) := by
  match dig, h1 with
  | c :: dtail, _ =>
    set dig := c :: dtail with hdig
    set data := dig ++ [58] ++ body with hdata
    have hcd : isDigit c = true := by
      have := List.all_eq_true.mp h2 c (by simp [hdig])
      simpa using this
    have hcv : 48 ≤ c ∧ c ≤ 57 := by simpa [isDigit] using hcd
    have hall : ∀ a ∈ dig, 48 ≤ a ∧ a ≤ 57 := by
      intro a ha
      have := List.all_eq_true.mp h2 a ha
      simpa [isDigit] using this
    have hget : data.get? 0 = some c := by simp [hdata, hdig]
    have h58 : (58 : Nat) ∉ dig := by
      intro hm
      have := hall 58 hm
      omega
    have hidx : jsIndexOf data 58 0 = some dig.length := by
      unfold jsIndexOf
      rw [List.drop_zero, hdata, List.append_assoc]
      rw [fIdx_append_not_mem h58]
      simp [List.cons_append, fIdx_cons_self]
    have hslice0 : jsSlice data 0 dig.length = dig := by
      unfold jsSlice
      rw [List.drop_zero, hdata, List.append_assoc, List.take_left]
    have hparse : jsParseInt (textDecode (jsSlice data 0 dig.length)) =
        some ((digitsVal dig : Nat) : Int) := by
      rw [hslice0, textDecode_ascii (fun a ha => by have := hall a ha; omega)]
      exact jsParseInt_digits (by simp [hdig]) h2
    have hmain := decodeB_stringCase (f := 2 * data.length + 1) hget hcv hidx hparse
    unfold decodeBencode
    rw [hmain]
    have htn : ((digitsVal dig : Nat) : Int).toNat = digitsVal dig := by simp
    have hlen : data.length = dig.length + 1 + body.length := by
      simp [hdata]
      omega
    have hslice : jsSlice data (dig.length + 1) (dig.length + 1 + digitsVal dig) = body := by
      unfold jsSlice
      rw [List.take_of_length_le (by omega)]
      have : data = (dig ++ [58]) ++ body := by simp [hdata]
      rw [this]
      have hl2 : (dig ++ [58]).length = dig.length + 1 := by simp
      rw [← hl2, List.drop_left]
    rw [htn, hslice]

/-- C4 (witness): the amended statement evaluated at `"10:short"`. -/
theorem c4_witness :
    decodeBencode (s2j "10:short") = .ok (.str (s2j "short"), 13) := by
  have h := c4_amended (s2j "10") (s2j "short") (by decide) (by decide) (by decide)
  simpa using h

/-! ## C3 — tracker emission policy of the generator -/




/-- `encTrackers` on a list of encodable trackers is the mapped encoding. -/
theorem encTrackers_ok {l : List JStr}
    (h : l.all (fun x => (encodeURIComponent x).isSome) = true) :
    encTrackers l = .ok (l.map fun x => (encodeURIComponent x).getD []) := by
  induction l with
  | nil => rfl
  | cons x xs ih =>
    have hx : (encodeURIComponent x).isSome = true :=
      by simpa using List.all_eq_true.mp h x (by simp)
    have hxs : xs.all (fun x => (encodeURIComponent x).isSome) = true := by
      rw [List.all_eq_true]
      intro a ha
      exact List.all_eq_true.mp h a (by simp [ha])
    obtain ⟨e, he⟩ := Option.isSome_iff_exists.mp hx
    simp only [encTrackers, he, ih hxs]
    simp [he, bind, Except.bind, pure, Except.pure]

/-- C3: for every descriptor, flag value and caller-supplied list (whose
strings percent-encode without a `URIError`), the generated magnet URI is the
`xt` header, the `dn` segment for `customName || torrent.name`, and one
`&tr=` + percent-encoded entry per chosen tracker, where the chosen trackers
are the descriptor's own whenever its list is non-empty — regardless of the
flag — else the caller's list exactly when the flag is set and that list is
non-empty, else none. -/
theorem c3_trackerPolicy (t : TorrentInstance) (cn : Option JStr) (flag : Bool)
    (ct : Option (List JStr))
    (hn : ((jsOrStr cn t.name).all fun s => (encodeURIComponent s).isSome) = true)
    (ha : (t.announce.all fun l => l.all fun x => (encodeURIComponent x).isSome) = true)
    (hc : (ct.all fun l => l.all fun x => (encodeURIComponent x).isSome) = true) :
    generateMagnetLink t cn flag ct =
      .ok (s2j "magnet:?xt=urn:btih:" ++ t.infoHash ++ dnSegment (jsOrStr cn t.name) ++
        ((chosenTrackers t flag ct).map fun tr =>
          s2j "&tr=" ++ (encodeURIComponent tr).getD []).flatten) := by
  have hcustom : customTrackerChoice flag ct =
      Except.ok ((customChoice flag ct).map fun x => (encodeURIComponent x).getD []) := by
    unfold customTrackerChoice customChoice
    cases flag with
    | false => simp
    | true =>
      revert hc
      rcases hct : ct with _ | (_ | ⟨c, cs⟩) <;> intro hc
      · simp
      · simp
      · simp only [if_pos rfl]
        exact encTrackers_ok (by simpa using hc)
  have htrs : trackerPart t flag ct =
      Except.ok ((chosenTrackers t flag ct).map fun x => (encodeURIComponent x).getD []) := by
    rcases hann : t.announce with _ | (_ | ⟨x, xs⟩)
    · simp only [trackerPart, chosenTrackers, hann]
      exact hcustom
    · simp only [trackerPart, chosenTrackers, hann]
      exact hcustom
    · simp only [trackerPart, chosenTrackers, hann]
      rw [hann] at ha
      exact encTrackers_ok (by simpa using ha)
  unfold generateMagnetLink
  rw [htrs]
  match hj : jsOrStr cn t.name with
  | none =>
    simp only [dnSegment]
    simp
    try rfl
  | some [] =>
    simp only [dnSegment]
    simp
    try rfl
  | some (c :: cs) =>
    have hs : (encodeURIComponent (c :: cs)).isSome = true := by
      rw [hj] at hn
      simpa using hn
    obtain ⟨e, he⟩ := Option.isSome_iff_exists.mp hs
    simp only [he, dnSegment]
    simp
    try rfl

/-- C3 (witness): a descriptor carrying one tracker, generated with the
include-trackers flag off and a caller list supplied, still emits its own
tracker (and not the caller's). -/
theorem c3_witness :
    generateMagnetLink
        ⟨s2j "aabbccdd00112233445566778899aabbccddeeff", some (s2j "nm"),
          some [s2j "udp://tracker.example/announce"], none, none⟩
        none false (some [s2j "udp://other.example/x"]) =
      .ok (s2j
        "magnet:?xt=urn:btih:aabbccdd00112233445566778899aabbccddeeff&dn=nm&tr=udp%3A%2F%2Ftracker.example%2Fannounce") := by
  have h := c3_trackerPolicy
    ⟨s2j "aabbccdd00112233445566778899aabbccddeeff", some (s2j "nm"),
      some [s2j "udp://tracker.example/announce"], none, none⟩
    none false (some [s2j "udp://other.example/x"]) (by decide) (by decide) (by decide)
  rw [h]
  rfl

/-! ## C6 — the text resolver (`parseInput`) -/

/-- `jsTrim` fixes strings with no whitespace code units. -/
theorem jsTrim_of_noWs {s : JStr} (h : ∀ c ∈ s, jsIsWs c = false) : jsTrim s = s := by
  have h1 : List.dropWhile jsIsWs s = s := by
    rw [List.dropWhile_eq_self_iff]
    intro hd
    have := h _ (List.get_mem s 0 hd)
    simpa using this
  have hrev : ∀ c ∈ s.reverse, jsIsWs c = false := fun c hc => h c (List.mem_reverse.mp hc)
  have h2 : List.dropWhile jsIsWs s.reverse = s.reverse := by
    rw [List.dropWhile_eq_self_iff]
    intro hd
    have := hrev _ (List.get_mem s.reverse 0 hd)
    simpa [List.get_reverse'] using this
  unfold jsTrim
  rw [h1, h2, List.reverse_reverse]

/-- Hex digits are not JavaScript whitespace. -/
theorem jsIsWs_hex {c : Nat} (h : isHexDigit c = true) : jsIsWs c = false := by
  simp only [isHexDigit, decide_eq_true_eq] at h
  simp only [jsIsWs, decide_eq_false_iff_not]
  omega

/-- A 40-hex-digit string does not start with `magnet:` (its first code unit
is a hex digit, not `m`). -/
theorem hex40_not_magnet {x : JStr} (h : isHex40 x = true) :
    startsWithJ (s2j "magnet:") x = false := by
  obtain ⟨hl, ha⟩ : x.length = 40 ∧ x.all isHexDigit = true := by
    simpa [isHex40] using h
  by_contra hne
  have hsw : startsWithJ (s2j "magnet:") x = true := by
    cases hx : startsWithJ (s2j "magnet:") x
    · exact absurd hx hne
    · rfl
  unfold startsWithJ at hsw
  have htake : x.take 7 = s2j "magnet:" := by simpa using hsw
  have hm : (109 : Nat) ∈ x.take 7 := by rw [htake]; decide
  have hmx : (109 : Nat) ∈ x := List.take_subset 7 x hm
  have := List.all_eq_true.mp ha 109 hmx
  simp [isHexDigit] at this

/-- Upper-casing preserves being 40 hex digits. -/
theorem isHex40_toUpper {x : JStr} (h : isHex40 x = true) :
    isHex40 (jsToUpperCase x) = true := by
  obtain ⟨hl, ha⟩ : x.length = 40 ∧ x.all isHexDigit = true := by
    simpa [isHex40] using h
  have h1 : (jsToUpperCase x).length = 40 := by simpa [jsToUpperCase] using hl
  have h2 : (jsToUpperCase x).all isHexDigit = true := by
    rw [List.all_eq_true]
    intro c hc
    obtain ⟨c0, hc0, hceq⟩ := List.mem_map.mp hc
    have h3 := List.all_eq_true.mp ha c0 hc0
    subst hceq
    simp only [isHexDigit, decide_eq_true_eq] at h3 ⊢
    split_ifs <;> omega
  simp [isHex40, h1, h2]

/-- Lower-casing after upper-casing is plain lower-casing. -/
theorem toLower_toUpper (x : JStr) :
    jsToLowerCase (jsToUpperCase x) = jsToLowerCase x := by
  unfold jsToLowerCase jsToUpperCase
  rw [List.map_map]
  apply List.map_congr_left
  intro c _
  simp only [Function.comp_apply]
  split_ifs <;> omega

/-- C6: `parseInput` trims its input, delegates to the magnet parser on a
`magnet:` prefix, turns exactly-40-hex input into a descriptor whose only
content is the lower-cased hash (no name, empty tracker list), and fails on
everything else; in particular a 40-hex string and its upper-casing resolve
to descriptors with the same lower-cased hash. -/
theorem c6_resolveFromText :
    (∀ input : JStr, parseInput input =
      (if startsWithJ (s2j "magnet:") (jsTrim input) then parseMagnetLink (jsTrim input)
       else if isHex40 (jsTrim input) then
         .ok ⟨jsToLowerCase (jsTrim input), none, some [], none, none⟩
       else .error .invalidInputFormat)) ∧
    (∀ x : JStr, isHex40 x = true →
      parseInput x = .ok ⟨jsToLowerCase x, none, some [], none, none⟩ ∧
      parseInput (jsToUpperCase x) = .ok ⟨jsToLowerCase x, none, some [], none, none⟩) := by
  constructor
  · intro input
    rfl
  · intro x hx
    have hnoWs : ∀ c ∈ x, jsIsWs c = false := by
      intro c hc
      have ha : x.all isHexDigit = true := by
        have : x.length = 40 ∧ x.all isHexDigit = true := by simpa [isHex40] using hx
        exact this.2
      exact jsIsWs_hex (List.all_eq_true.mp ha c hc)
    have htrim : jsTrim x = x := jsTrim_of_noWs hnoWs
    have hxu : isHex40 (jsToUpperCase x) = true := isHex40_toUpper hx
    have hnoWsU : ∀ c ∈ jsToUpperCase x, jsIsWs c = false := by
      intro c hc
      have ha : (jsToUpperCase x).all isHexDigit = true := by
        have : (jsToUpperCase x).length = 40 ∧ (jsToUpperCase x).all isHexDigit = true := by
          simpa [isHex40] using hxu
        exact this.2
      exact jsIsWs_hex (List.all_eq_true.mp ha c hc)
    have htrimU : jsTrim (jsToUpperCase x) = jsToUpperCase x := jsTrim_of_noWs hnoWsU
    constructor
    · show (if startsWithJ (s2j "magnet:") (jsTrim x) = true then parseMagnetLink (jsTrim x)
        else if isHex40 (jsTrim x) = true then
          Except.ok ⟨jsToLowerCase (jsTrim x), none, some [], none, none⟩
        else Except.error JsErr.invalidInputFormat) = _
      rw [htrim, hex40_not_magnet hx, hx]
      simp
    · show (if startsWithJ (s2j "magnet:") (jsTrim (jsToUpperCase x)) = true then
          parseMagnetLink (jsTrim (jsToUpperCase x))
        else if isHex40 (jsTrim (jsToUpperCase x)) = true then
          Except.ok ⟨jsToLowerCase (jsTrim (jsToUpperCase x)), none, some [], none, none⟩
        else Except.error JsErr.invalidInputFormat) = _
      rw [htrimU, hex40_not_magnet hxu, hxu]
      simp [toLower_toUpper]

/-- C6 (witness): the dispatch equation and the case-insensitivity property
evaluated at a concrete mixed-case 40-hex string. -/
theorem c6_witness :
    parseInput (s2j "AAbbCCdd00112233445566778899aabbccddeeff") =
      .ok ⟨s2j "aabbccdd00112233445566778899aabbccddeeff", none, some [], none, none⟩ ∧
    parseInput (jsToUpperCase (s2j "AAbbCCdd00112233445566778899aabbccddeeff")) =
      .ok ⟨s2j "aabbccdd00112233445566778899aabbccddeeff", none, some [], none, none⟩ := by
  have h := c6_resolveFromText.2 (s2j "AAbbCCdd00112233445566778899aabbccddeeff") (by decide)
  obtain ⟨h1, h2⟩ := h
  constructor
  · rw [h1]
    rfl
  · rw [h2]
    rfl

/-! ## C5 — info dictionary with neither `files` nor `length` -/

set_option maxRecDepth 10000 in
/-- C5 (counterexample): the torrent `"d4:infodee"` — an `info` dictionary
with neither a `files` nor a `length` key — does not fail with an
invalid-structure error as the claim states: `parseBencodeBuffer` returns a
descriptor (hash-only, every optional field absent). -/
theorem c5_counterexample :
    parseBencodeBuffer (s2j "d4:infodee") =
      .ok ⟨s2j "600ccd1b71569232d01d110bc63e906beab04d8c", none, none, none, none⟩ := by
  rfl

/-- C5 (amended): whenever the decoded torrent's `info` dictionary has
neither a `files` nor a `length` key (name and main announce being byte
strings or absent, with no `announce-list`), the extractor does not fail: it
returns a descriptor with `files` and `totalLength` both absent. -/
theorem c5_amended (pairs ipairs : List (JStr × BValue)) (nb ab : Option Bytes)
    (h1 : objLookup pairs (s2j "info") = some (.dict ipairs))
    (h2 : objLookup ipairs (s2j "files") = none)
    (h3 : objLookup ipairs (s2j "length") = none)
    (h4 : objLookup ipairs (s2j "name") = nb.map .str)
    (h5 : objLookup pairs (s2j "announce") = ab.map .str)
    (h6 : objLookup pairs (s2j "announce-list") = none) :
    extractDescriptor (.dict pairs) =
      .ok ⟨bytesToHex (sha1 (encodeBencode (.dict ipairs))), nb.map textDecode,
        ab.map (fun b => [textDecode b]), none, none⟩ := by
  have hname : nameOf (.dict ipairs) = .ok (nb.map textDecode) := by
    unfold nameOf
    simp only [jsGetProp, h4]
    cases nb with
    | none => rfl
    | some b => simp [jsTruthy, textDecodeVal]
  have hann : collectAnnounce (.dict pairs) = .ok ((ab.map fun b => [textDecode b]).getD []) := by
    unfold collectAnnounce mainAnnounce
    simp only [jsGetProp, h5, h6]
    cases ab with
    | none => rfl
    | some b => simp [jsTruthy, textDecodeVal]
  have hfiles : filesOf (.dict ipairs) (nb.map textDecode) = .ok ([], 0) := by
    unfold filesOf
    simp only [jsGetProp, h2, h3]
  unfold extractDescriptor
  simp only [h1, hname, hann, hfiles]
  cases ab with
  | none => simp
  | some b => simp

set_option maxRecDepth 10000 in
/-- C5 (witness): the amended statement evaluated at the explicit decoded
form of `"d4:infodee"`. -/
theorem c5_witness :
    extractDescriptor (.dict [(s2j "info", .dict [])]) =
      .ok ⟨s2j "600ccd1b71569232d01d110bc63e906beab04d8c", none, none, none, none⟩ := by
  have h := c5_amended [(s2j "info", .dict [])] [] none none rfl rfl rfl rfl rfl rfl
  rw [h]
  rfl

/-! ## C9 — `files` and `totalLength` population -/

set_option maxRecDepth 10000 in
/-- C9 (counterexample): the single-file torrent `"d4:infod6:lengthi3eee"`,
whose `info` has a `length` but no `name`, yields a descriptor with
`totalLength` populated and `files` absent — refuting the claim that the two
fields are always either both absent or both populated. -/
theorem c9_counterexample :
    parseBencodeBuffer (s2j "d4:infod6:lengthi3eee") =
      .ok ⟨s2j "baabfdf23547cded71ea866a0793d1ea3332277c", none, none, none, some 3⟩ ∧
    (none : Option (List (JStr × Int))) = none ∧ (some (3 : Int)).isSome = true := by
  exact ⟨rfl, rfl, rfl⟩

/-- One file-loop step keeps the running total equal to the sum of the
collected entries' lengths: skipped entries change nothing and a pushed entry
adds exactly its length to the total. -/
theorem fileStep_sum (st : List (JStr × Int) × Int) (e : BValue)
    (st2 : List (JStr × Int) × Int) (h : fileStep st e = .ok st2)
    (hs : st.2 = (st.1.map (·.2)).sum) : st2.2 = (st2.1.map (·.2)).sum := by
  unfold fileStep at h
  rcases hp : jsGetProp e (s2j "path") with _ | pv
  · rw [hp] at h
    simp only [Except.ok.injEq] at h
    exact h ▸ hs
  · rw [hp] at h
    rcases hl : jsGetProp e (s2j "length") with _ | lv
    · rw [hl] at h
      simp only [Except.ok.injEq] at h
      exact h ▸ hs
    · rw [hl] at h
      simp only [] at h
      split_ifs at h
      · rcases pv with nv | bv | parts | dpairs
        · simp at h
        · simp at h
        · simp only [] at h
          rcases hds : decodeSegs parts with e2 | segs
          · rw [hds] at h
            simp at h
          · rw [hds] at h
            simp only [] at h
            rcases lv with (_ | n) | bv2 | l2 | d2
            · simp at h
            · simp only [Except.ok.injEq] at h
              rw [← h]
              simp only [List.map_append, List.sum_append, List.map_cons, List.map_nil,
                List.sum_cons, List.sum_nil]
              omega
            · simp at h
            · simp at h
            · simp at h
        · simp at h
      · simp only [Except.ok.injEq] at h
        exact h ▸ hs

/-- The file loop keeps the running total equal to the sum of the collected
entries' lengths. -/
theorem foldFiles_sum : ∀ (es : List BValue) (st st2 : List (JStr × Int) × Int),
    foldFiles st es = .ok st2 → st.2 = (st.1.map (·.2)).sum →
    st2.2 = (st2.1.map (·.2)).sum := by
  intro es
  induction es with
  | nil =>
    intro st st2 h hs
    simp only [foldFiles, Except.ok.injEq] at h
    exact h ▸ hs
  | cons e es ih =>
    intro st st2 h hs
    rw [foldFiles] at h
    rcases hstep : fileStep st e with e2 | stm
    · rw [hstep] at h
      simp at h
    · rw [hstep] at h
      simp only [] at h
      exact ih stm st2 h (fileStep_sum st e stm hstep hs)

/-- C9 (amended): `files` and `totalLength` can be populated independently —
a single-file torrent with no (truthy) name populates `totalLength` alone
(the counterexample), and collected file entries whose lengths sum to a
non-positive value populate `files` alone (first conjunct).  The single-file
shape the claim describes does hold whenever the name is present and truthy
and the length positive: the one file entry is `(name, info.length)` and
`totalLength` equals that length (second conjunct). -/
theorem c9_amended :
    (∀ (pairs ipairs : List (JStr × BValue)) (entries : List BValue)
      (fl : List (JStr × Int)) (total : Int),
      objLookup pairs (s2j "info") = some (.dict ipairs) →
      objLookup ipairs (s2j "name") = none →
      objLookup pairs (s2j "announce") = none →
      objLookup pairs (s2j "announce-list") = none →
      objLookup ipairs (s2j "files") = some (.list entries) →
      foldFiles ([], 0) entries = .ok (fl, total) →
      fl ≠ [] → (fl.map (·.2)).sum ≤ 0 →
      extractDescriptor (.dict pairs) =
        .ok ⟨bytesToHex (sha1 (encodeBencode (.dict ipairs))), none, none,
          some fl, none⟩) ∧
    (∀ (pairs ipairs : List (JStr × BValue)) (nb : Bytes) (len : Int),
      objLookup pairs (s2j "info") = some (.dict ipairs) →
      objLookup ipairs (s2j "files") = none →
      objLookup ipairs (s2j "length") = some (.num (some len)) →
      objLookup ipairs (s2j "name") = some (.str nb) →
      objLookup pairs (s2j "announce") = none →
      objLookup pairs (s2j "announce-list") = none →
      0 < len → textDecode nb ≠ [] →
      extractDescriptor (.dict pairs) =
        .ok ⟨bytesToHex (sha1 (encodeBencode (.dict ipairs))), some (textDecode nb), none,
          some [(textDecode nb, len)], some len⟩) := by
  constructor
  · intro pairs ipairs entries fl total h1 h2 h3 h4 h5 hff hfl hsum
    have hname : nameOf (.dict ipairs) = .ok none := by
      unfold nameOf
      simp only [jsGetProp, h2]
    have hann : collectAnnounce (.dict pairs) = .ok [] := by
      unfold collectAnnounce mainAnnounce
      simp only [jsGetProp, h3, h4]
    have hfiles : filesOf (.dict ipairs) none = .ok (fl, total) := by
      unfold filesOf
      simp only [jsGetProp, h5]
      simp only [jsTruthy, if_true]
      exact hff
    have htot : total = (fl.map (·.2)).sum :=
      foldFiles_sum entries ([], 0) (fl, total) hff (by simp)
    unfold extractDescriptor
    simp only [h1, hname, hann, hfiles]
    rw [if_neg (by simp), if_pos (List.length_pos.mpr hfl), if_neg (by omega)]
  · intro pairs ipairs nb len h1 h2 h3 h4 h5 h6 h7 h8
    have hname : nameOf (.dict ipairs) = .ok (some (textDecode nb)) := by
      unfold nameOf
      simp only [jsGetProp, h4]
      simp [jsTruthy, textDecodeVal]
    have hann : collectAnnounce (.dict pairs) = .ok [] := by
      unfold collectAnnounce mainAnnounce
      simp only [jsGetProp, h5, h6]
    have hfiles : filesOf (.dict ipairs) (some (textDecode nb)) =
        .ok ([(textDecode nb, len)], len) := by
      unfold filesOf
      simp only [jsGetProp, h2, h3]
      match htd : textDecode nb, h8 with
      | c :: cs, _ =>
        have hl0 : len ≠ 0 := by omega
        simp [jsTruthy, hl0]
    unfold extractDescriptor
    simp only [h1, hname, hann, hfiles]
    simp [h7]

set_option maxRecDepth 10000 in
/-- C9 (witness): both amended conjuncts evaluated concretely — a multi-file
torrent whose single collected entry has length `-1` (files populated,
`totalLength` absent), and a single-file torrent with name `a.txt` and
length 3 (both populated, entry `(a.txt, 3)`). -/
theorem c9_witness :
    extractDescriptor
        (.dict [(s2j "info", .dict [(s2j "files",
          .list [.dict [(s2j "path", .list [.str (s2j "x")]),
            (s2j "length", .num (some (-1)))]])])]) =
      .ok ⟨s2j "439ad3ade3fda286d8b9fed047cf4ff7695796da", none, none,
        some [(s2j "x", -1)], none⟩ ∧
    extractDescriptor
        (.dict [(s2j "info",
          .dict [(s2j "length", .num (some 3)), (s2j "name", .str (s2j "a.txt"))])]) =
      .ok ⟨s2j "0a926e7fe8d162b99830db2498a1490b5fca69b4", some (s2j "a.txt"), none,
        some [(s2j "a.txt", 3)], some 3⟩ := by
  constructor
  · have h := c9_amended.1
      [(s2j "info", .dict [(s2j "files",
        .list [.dict [(s2j "path", .list [.str (s2j "x")]),
          (s2j "length", .num (some (-1)))]])])]
      [(s2j "files", .list [.dict [(s2j "path", .list [.str (s2j "x")]),
        (s2j "length", .num (some (-1)))]])]
      [.dict [(s2j "path", .list [.str (s2j "x")]), (s2j "length", .num (some (-1)))]]
      [(s2j "x", -1)] (-1) rfl rfl rfl rfl rfl (by rfl) (by decide) (by decide)
    rw [h]
    rfl
  · have h := c9_amended.2
      [(s2j "info", .dict [(s2j "length", .num (some 3)), (s2j "name", .str (s2j "a.txt"))])]
      [(s2j "length", .num (some 3)), (s2j "name", .str (s2j "a.txt"))]
      (s2j "a.txt") 3 rfl rfl rfl rfl rfl rfl (by omega) (by decide)
    rw [h]
    rfl

/-! ## C10 — tracker de-duplication -/





/-- `dedupF` ignores the exact fuel once it is at least the length. -/
theorem dedupF_fuelIrrel : ∀ (f g : Nat) (l : List JStr), l.length ≤ f → l.length ≤ g →
    dedupF f l = dedupF g l := by
  intro f
  induction f with
  | zero =>
    intro g l hf _
    match l, hf with
    | [], _ => cases g <;> rfl
  | succ f ih =>
    intro g l hf hg
    match l with
    | [] => cases g <;> rfl
    | x :: xs =>
      match g, hg with
      | g + 1, hg2 =>
        simp only [dedupF, List.cons.injEq, true_and]
        have hfil : (xs.filter (· ≠ x)).length ≤ xs.length := List.length_filter_le _ _
        simp only [List.length_cons] at hf hg2
        exact ih g (xs.filter (· ≠ x)) (by omega) (by omega)

/-- The defining recurrence of `dedupKeepFirst`. -/
theorem dedupKeepFirst_cons (x : JStr) (xs : List JStr) :
    dedupKeepFirst (x :: xs) = x :: dedupKeepFirst (xs.filter (· ≠ x)) := by
  unfold dedupKeepFirst
  simp only [List.length_cons, dedupF, List.cons.injEq, true_and]
  exact dedupF_fuelIrrel xs.length (xs.filter (· ≠ x)).length (xs.filter (· ≠ x))
    (List.length_filter_le _ _) le_rfl

/-- `dedupAcc` from a duplicate-free accumulator is the accumulator followed
by the first-occurrence de-duplication of the new elements. -/
theorem dedupAcc_eq : ∀ (l acc : List JStr), acc.Nodup →
    dedupAcc acc l = acc ++ dedupKeepFirst (l.filter fun y => !(acc.contains y)) := by
  intro l
  induction l with
  | nil =>
    intro acc _
    simp [dedupAcc, dedupKeepFirst, dedupF]
  | cons x xs ih =>
    intro acc hacc
    by_cases hx : x ∈ acc
    · have hcont : acc.contains x = true := by
        simpa [List.elem_eq_mem] using hx
      simp only [dedupAcc, pushNew, hcont, if_pos]
      rw [ih acc hacc]
      congr 2
      rw [List.filter_cons]
      simp [hcont, hx]
    · have hcont : acc.contains x = false := by
        simpa [List.elem_eq_mem] using hx
      have hnd2 : (acc ++ [x]).Nodup := by
        rw [List.nodup_append]
        refine ⟨hacc, List.nodup_singleton x, ?_⟩
        intro a ha hax
        simp only [List.mem_singleton] at hax
        subst hax
        exact hx ha
      have hpush : pushNew acc x = acc ++ [x] := by
        simp [pushNew, hcont, hx]
      simp only [dedupAcc, hpush]
      rw [ih (acc ++ [x]) hnd2]
      have hfil : xs.filter (fun y => !((acc ++ [x]).contains y)) =
          (xs.filter fun y => !(acc.contains y)).filter (· ≠ x) := by
        rw [List.filter_filter]
        apply List.filter_congr
        intro y _
        simp only [List.elem_eq_mem, List.mem_append, List.mem_singleton]
        by_cases hyx : y = x
        · subst hyx
          simp
        · by_cases hya : y ∈ acc
          · simp [hyx, hya]
          · simp [hyx, hya]
      have hconsfil : (x :: xs).filter (fun y => !(acc.contains y)) =
          x :: xs.filter (fun y => !(acc.contains y)) := by
        rw [List.filter_cons]
        simp [hcont, hx]
      rw [hconsfil, dedupKeepFirst_cons, ← hfil, List.append_assoc]
      rfl

/-- `foldGroup` over byte-string entries never throws and performs
order-preserving de-duplication of the decoded strings. -/
theorem foldGroup_eq : ∀ (g : List Bytes) (acc : List JStr),
    foldGroup acc (g.map .str) = .ok (dedupAcc acc (g.map textDecode)) := by
  intro g
  induction g with
  | nil => intro acc; rfl
  | cons t ts ih =>
    intro acc
    simp only [List.map_cons, foldGroup, textDecodeVal, dedupAcc, pushNew]
    exact ih _

/-- `dedupAcc` splits across appending. -/
theorem dedupAcc_append : ∀ (l1 l2 : List JStr) (acc : List JStr),
    dedupAcc acc (l1 ++ l2) = dedupAcc (dedupAcc acc l1) l2 := by
  intro l1
  induction l1 with
  | nil => intro l2 acc; rfl
  | cons x xs ih =>
    intro l2 acc
    simp only [List.cons_append, dedupAcc]
    exact ih _ _

/-- `foldGroups` over groups of byte strings never throws and de-duplicates
the flattened decoded strings in order. -/
theorem foldGroups_eq : ∀ (groups : List (List Bytes)) (acc : List JStr),
    foldGroups acc (groups.map fun g => .list (g.map .str)) =
      .ok (dedupAcc acc ((groups.map fun g => g.map textDecode).flatten)) := by
  intro groups
  induction groups with
  | nil => intro acc; rfl
  | cons g gs ih =>
    intro acc
    simp only [List.map_cons, foldGroups, foldGroup_eq, List.flatten_cons]
    rw [dedupAcc_append]
    exact ih _

/-- C10 (counterexample): the magnet parser applies no de-duplication — a
link with the same `tr` value twice yields a tracker list with both copies,
refuting the claim that every parser-produced tracker sequence is
de-duplicated. -/
theorem c10_counterexample :
    parseMagnetLink
        (s2j "magnet:?xt=urn:btih:aabbccdd00112233445566778899aabbccddeeff&tr=a&tr=a") =
      .ok ⟨s2j "aabbccdd00112233445566778899aabbccddeeff", none,
        some [s2j "a", s2j "a"], none, none⟩ ∧
    ¬ ([s2j "a", s2j "a"] : List JStr).Nodup := by
  exact ⟨rfl, by decide⟩

/-- C10 (amended): the torrent extractor's tracker sequence is the
order-preserving, exact-string de-duplication of the `announce` value
followed by the flattened `announce-list` entries; the magnet parser,
however, emits the `tr` values exactly as they occur, without
de-duplication. -/
theorem c10_amended :
    (∀ (pairs : List (JStr × BValue)) (ab : Option Bytes) (groups : List (List Bytes)),
      objLookup pairs (s2j "announce") = ab.map .str →
      objLookup pairs (s2j "announce-list") =
        some (.list (groups.map fun g => .list (g.map .str))) →
      collectAnnounce (.dict pairs) =
        .ok (dedupKeepFirst ((ab.map textDecode).toList ++
          (groups.map fun g => g.map textDecode).flatten))) ∧
    (∀ (link hash : JStr) (nm : Option JStr) (ann : List JStr),
      parseMagnetLink link = .ok ⟨hash, nm, some ann, none, none⟩ →
      ann = jsGetAllParam (parseQuery (urlSearch link)) (s2j "tr")) := by
  constructor
  · intro pairs ab groups h5 h6
    have hmain : mainAnnounce (.dict pairs) = .ok ((ab.map textDecode).toList) := by
      unfold mainAnnounce
      simp only [jsGetProp, h5]
      cases ab with
      | none => rfl
      | some b => simp [jsTruthy, textDecodeVal]
    unfold collectAnnounce
    rw [hmain]
    simp only [jsGetProp, h6]
    rw [foldGroups_eq]
    congr 1
    cases ab with
    | none =>
      simp only [Option.map_none', Option.toList_none, List.nil_append]
      rw [dedupAcc_eq _ [] List.nodup_nil]
      have : ((groups.map fun g => g.map textDecode).flatten).filter
          (fun y => !(([] : List JStr).contains y)) =
          (groups.map fun g => g.map textDecode).flatten := by
        apply List.filter_eq_self.mpr
        intro a _
        rfl
      rw [this]
      rfl
    | some b =>
      simp only [Option.map_some', Option.toList_some, List.singleton_append]
      rw [dedupAcc_eq _ [textDecode b] (List.nodup_singleton _), dedupKeepFirst_cons]
      simp only [List.singleton_append, List.cons.injEq, true_and]
      congr 1
      apply List.filter_congr
      intro y _
      simp [List.elem_eq_mem, decide_not]
  · intro link hash nm ann h
    unfold parseMagnetLink at h
    split at h
    · exact absurd h (by simp)
    · split at h
      · exact absurd h (by simp)
      · split at h
        · exact absurd h (by simp)
        · split at h
          · split at h
            · simp only [Except.ok.injEq, TorrentInstance.mk.injEq,
                Option.some.injEq] at h
              exact h.2.2.1.symm
            · exact absurd h (by simp)
          · simp only [Except.ok.injEq, TorrentInstance.mk.injEq,
              Option.some.injEq] at h
            exact h.2.2.1.symm

/-- C10 (witness): the extractor conjunct evaluated on a torrent whose main
announce `http` reappears in the announce-list next to a duplicated `udp`:
the collected sequence keeps first occurrences in order. -/
theorem c10_witness :
    collectAnnounce (.dict [(s2j "announce", .str (s2j "http")),
      (s2j "announce-list", .list [.list [.str (s2j "http"), .str (s2j "udp")],
        .list [.str (s2j "udp")]])]) = .ok [s2j "http", s2j "udp"] := by
  have h := c10_amended.1
    [(s2j "announce", .str (s2j "http")),
      (s2j "announce-list", .list [.list [.str (s2j "http"), .str (s2j "udp")],
        .list [.str (s2j "udp")]])]
    (some (s2j "http")) [[s2j "http", s2j "udp"], [s2j "udp"]] rfl rfl
  rw [h]
  rfl

/-! ## Query-string lemmas (shared by the magnet parser claims) -/

/-- `fIdx` misses an absent byte. -/
theorem fIdx_eq_none {l : List Nat} {c : Nat} (h : c ∉ l) : fIdx l c = none := by
  induction l with
  | nil => rfl
  | cons x xs ih =>
    have hx : x ≠ c := by rintro rfl; exact h (by simp)
    simp [fIdx, hx, ih (fun hm => h (by simp [hm]))]

/-- `splitAmpGo` passes an ampersand-free prefix into the current piece. -/
theorem splitAmpGo_append (a : JStr) : ∀ (cur b : JStr), (38 : Nat) ∉ a →
    splitAmpGo cur (a ++ 38 :: b) = (cur.reverse ++ a) :: splitAmpGo [] b := by
  induction a with
  | nil =>
    intro cur b _
    simp [splitAmpGo]
  | cons x xs ih =>
    intro cur b h
    have hx : x ≠ 38 := by rintro rfl; exact h (by simp)
    simp only [List.cons_append, splitAmpGo, if_neg hx]
    rw [show xs.append (38 :: b) = xs ++ 38 :: b from rfl]
    rw [ih (x :: cur) b (fun hm => h (by simp [hm]))]
    simp

/-- `splitAmpGo` on an ampersand-free string is one piece. -/
theorem splitAmpGo_noAmp (a : JStr) : ∀ (cur : JStr), (38 : Nat) ∉ a →
    splitAmpGo cur a = [cur.reverse ++ a] := by
  induction a with
  | nil => intro cur _; simp [splitAmpGo]
  | cons x xs ih =>
    intro cur h
    have hx : x ≠ 38 := by rintro rfl; exact h (by simp)
    simp only [splitAmpGo, if_neg hx]
    rw [ih (x :: cur) (fun hm => h (by simp [hm]))]
    simp

/-- `splitAmp` of a first segment followed by `&`-prefixed segments, none
empty and none containing `&`, is exactly the segment list. -/
theorem splitAmp_parts : ∀ (rest : List JStr) (seg0 : JStr), (38 : Nat) ∉ seg0 →
    seg0 ≠ [] → (∀ s ∈ rest, (38 : Nat) ∉ s ∧ s ≠ []) →
    splitAmp (seg0 ++ (rest.map ((38 : Nat) :: ·)).flatten) = seg0 :: rest := by
  intro rest
  induction rest with
  | nil =>
    intro seg0 h0 hne _
    unfold splitAmp
    rw [List.map_nil, List.flatten_nil, List.append_nil, splitAmpGo_noAmp seg0 [] h0]
    simp [hne]
  | cons s ss ih =>
    intro seg0 h0 hne hrest
    unfold splitAmp
    have : seg0 ++ (List.map (fun x => 38 :: x) (s :: ss)).flatten =
        seg0 ++ 38 :: (s ++ (List.map (fun x => 38 :: x) ss).flatten) := by
      simp
    rw [this, splitAmpGo_append seg0 [] _ h0]
    simp only [List.reverse_nil, List.nil_append]
    have hs := hrest s (by simp)
    have htail := ih s hs.1 hs.2 (fun t ht => hrest t (by simp [ht]))
    unfold splitAmp at htail
    simp only [List.filter_cons, hne]
    rw [if_pos (by simpa using hne)]
    rw [← htail]

/-- `eqSplit` at the first equals sign. -/
theorem eqSplit_append {name value : JStr} (h : (61 : Nat) ∉ name) :
    eqSplit (name ++ 61 :: value) = (name, value) := by
  unfold eqSplit
  rw [fIdx_append_not_mem h, fIdx_cons_self]
  simp only [Option.map_some', Nat.zero_add]
  have h1 : (name ++ 61 :: value).take name.length = name := List.take_left name _
  have h2 : (name ++ 61 :: value).drop (name.length + 1) = value := by
    have : name ++ 61 :: value = (name ++ [61]) ++ value := by simp
    rw [this, show name.length + 1 = (name ++ [61]).length from by simp, List.drop_left]
  rw [h1, h2]

/-- Percent-decoding is the identity on percent-free byte strings. -/
theorem pdF_no37 : ∀ (f : Nat) (s : Bytes), s.length ≤ f → (37 : Nat) ∉ s →
    pdF f s = s := by
  intro f
  induction f with
  | zero =>
    intro s hl _
    match s, hl with
    | [], _ => rfl
  | succ f ih =>
    intro s hl h37
    match s with
    | [] => rfl
    | b :: rest =>
      have hb : b ≠ 37 := by rintro rfl; exact h37 (by simp)
      simp only [pdF, if_neg hb]
      rw [ih rest (by simp at hl; omega) (fun hm => h37 (by simp [hm]))]

/-- `formDecodeStr` is the identity on plain ASCII strings free of `%` and
`+`. -/
theorem formDecodeStr_plain {s : JStr} (hascii : ∀ c ∈ s, c ≤ 0x7F)
    (h37 : (37 : Nat) ∉ s) (h43 : (43 : Nat) ∉ s) : formDecodeStr s = s := by
  unfold formDecodeStr
  have hmap : (s.map fun c => if c = 43 then 32 else c) = s := by
    apply List.map_congr_left ?_ |>.trans (List.map_id s)
    intro c hc
    have : c ≠ 43 := by rintro rfl; exact h43 hc
    simp [this]
  rw [hmap, textEncode_ascii hascii]
  unfold percentDecode
  rw [pdF_no37 s.length s le_rfl h37, textDecode_ascii hascii]

/-- `queryEncode` passes query-safe ASCII through unchanged. -/
theorem queryEncode_safe {s : JStr} (h : ∀ c ∈ s, querySafe c = true) :
    queryEncode s = s := by
  unfold queryEncode cuToCodePoints
  have hascii : ∀ c ∈ s, c ≤ 0x7F := by
    intro c hc
    have := h c hc
    simp only [querySafe, decide_eq_true_eq] at this
    omega
  rw [cuToCpF_ascii s.length s le_rfl hascii]
  induction s with
  | nil => rfl
  | cons c cs ih =>
    simp only [List.flatMap_cons, if_pos (h c (by simp))]
    rw [ih (fun a ha => h a (by simp [ha])) (fun a ha => hascii a (by simp [ha]))]
    rfl

/-- The query component of a well-formed `magnet:?`-prefixed link whose query
is query-safe ASCII without `#`: exactly the query. -/
theorem urlSearch_magnet {q : JStr} (hq : ∀ c ∈ q, querySafe c = true)
    (h35 : (35 : Nat) ∉ q) : urlSearch (s2j "magnet:?" ++ q) = q := by
  have hall : ∀ c ∈ s2j "magnet:?" ++ q, 0x21 ≤ c ∧ c ≤ 0x7E := by
    intro c hc
    rcases List.mem_append.mp hc with hc | hc
    · fin_cases hc <;> simp
    · have := hq c hc
      simp only [querySafe, decide_eq_true_eq] at this
      omega
  simp only [urlSearch]
  have ht0 : ((((s2j "magnet:?" ++ q).dropWhile (· ≤ 0x20)).reverse.dropWhile
      (· ≤ 0x20)).reverse) = s2j "magnet:?" ++ q := by
    have h1 : (s2j "magnet:?" ++ q).dropWhile (fun c => c ≤ 0x20) = s2j "magnet:?" ++ q := by
      rw [List.dropWhile_eq_self_iff]
      intro hd
      have := hall _ (List.get_mem _ 0 hd)
      simp only [decide_eq_true_eq]
      omega
    rw [h1]
    have h2 : (s2j "magnet:?" ++ q).reverse.dropWhile (fun c => c ≤ 0x20) =
        (s2j "magnet:?" ++ q).reverse := by
      rw [List.dropWhile_eq_self_iff]
      intro hd
      have := hall _ (List.mem_reverse.mp (List.get_mem _ 0 hd))
      simp only [decide_eq_true_eq]
      omega
    rw [h2, List.reverse_reverse]
  rw [ht0]
  have hfilter : (s2j "magnet:?" ++ q).filter (fun c => c ≠ 0x9 ∧ c ≠ 0xA ∧ c ≠ 0xD) =
      s2j "magnet:?" ++ q := by
    apply List.filter_eq_self.mpr
    intro c hc
    have := hall c hc
    simp only [decide_eq_true_eq]
    omega
  rw [hfilter]
  have h35' : (35 : Nat) ∉ s2j "magnet:?" ++ q := by
    intro hm
    rcases List.mem_append.mp hm with hm | hm
    · simp [s2j] at hm
    · exact h35 hm
  rw [fIdx_eq_none h35']
  simp only [Option.getD_none, List.take_length]
  have hsplit : s2j "magnet:?" ++ q = s2j "magnet:" ++ 63 :: q := by
    rw [show s2j "magnet:?" = s2j "magnet:" ++ [63] from rfl]
    simp
  rw [hsplit, fIdx_append_not_mem (by decide), fIdx_cons_self]
  simp only [Option.map_some', Nat.zero_add]
  have hdrop : (s2j "magnet:" ++ 63 :: q).drop ((s2j "magnet:").length + 1) = q := by
    have : s2j "magnet:" ++ 63 :: q = (s2j "magnet:" ++ [63]) ++ q := by simp
    rw [this, show (s2j "magnet:").length + 1 = (s2j "magnet:" ++ [63]).length from by simp,
      List.drop_left]
  rw [hdrop]
  exact queryEncode_safe hq

/-- `parseQuery` on a query assembled from `name=value` segments joined by
`&`: every name and value comes back form-decoded, in order. -/
theorem parseQuery_build (seg0 : JStr × JStr) (rest : List (JStr × JStr))
    (h0n : (61 : Nat) ∉ seg0.1 ∧ (38 : Nat) ∉ seg0.1 ∧ seg0.1 ≠ [])
    (h0v : (38 : Nat) ∉ seg0.2)
    (hr : ∀ p ∈ rest, ((61 : Nat) ∉ p.1 ∧ (38 : Nat) ∉ p.1 ∧ p.1 ≠ []) ∧
      (38 : Nat) ∉ p.2) :
    parseQuery ((seg0.1 ++ 61 :: seg0.2) ++
        (rest.map fun p => (38 : Nat) :: (p.1 ++ 61 :: p.2)).flatten) =
      (seg0 :: rest).map fun p => (formDecodeStr p.1, formDecodeStr p.2) := by
  unfold parseQuery
  have hsegs : splitAmp ((seg0.1 ++ 61 :: seg0.2) ++
      (rest.map fun p => (38 : Nat) :: (p.1 ++ 61 :: p.2)).flatten) =
      (seg0.1 ++ 61 :: seg0.2) :: rest.map fun p => p.1 ++ 61 :: p.2 := by
    have := splitAmp_parts (rest.map fun p => p.1 ++ 61 :: p.2) (seg0.1 ++ 61 :: seg0.2)
      ?_ ?_ ?_
    · rw [← this]
      congr 1
      rw [List.map_map]
      rfl
    · intro hm
      rcases List.mem_append.mp hm with hm | hm
      · exact h0n.2.1 hm
      · rcases List.mem_cons.mp hm with hm | hm
        · omega
        · exact h0v hm
    · simp
    · intro s hs
      obtain ⟨p, hp, hpe⟩ := List.mem_map.mp hs
      subst hpe
      obtain ⟨⟨_, hn38, _⟩, hv38⟩ := hr p hp
      refine ⟨?_, by simp⟩
      intro hm
      rcases List.mem_append.mp hm with hm | hm
      · exact hn38 hm
      · rcases List.mem_cons.mp hm with hm | hm
        · omega
        · exact hv38 hm
  rw [hsegs]
  simp only [List.map_cons, List.map_map]
  rw [eqSplit_append h0n.1]
  congr 1
  apply List.map_congr_left
  intro p hp
  simp only [Function.comp_apply]
  rw [eqSplit_append (hr p hp).1.1]

/-- Lower-casing preserves being 40 hex digits. -/
theorem isHex40_toLower {x : JStr} (h : isHex40 x = true) :
    isHex40 (jsToLowerCase x) = true := by
  obtain ⟨hl, ha⟩ : x.length = 40 ∧ x.all isHexDigit = true := by
    simpa [isHex40] using h
  have h1 : (jsToLowerCase x).length = 40 := by simpa [jsToLowerCase] using hl
  have h2 : (jsToLowerCase x).all isHexDigit = true := by
    rw [List.all_eq_true]
    intro c hc
    obtain ⟨c0, hc0, hceq⟩ := List.mem_map.mp hc
    have h3 := List.all_eq_true.mp ha c0 hc0
    subst hceq
    simp only [isHexDigit, decide_eq_true_eq] at h3 ⊢
    split_ifs <;> omega
  simp [isHex40, h1, h2]

/-- Hex digits are query-safe. -/
theorem querySafe_hex {c : Nat} (h : isHexDigit c = true) : querySafe c = true := by
  simp only [isHexDigit, decide_eq_true_eq] at h
  simp only [querySafe, decide_eq_true_eq]
  omega

/-- `params.get` finds the head pair with the requested name. -/
theorem jsGetParam_cons_hit (n v : JStr) (rest : List (JStr × JStr)) :
    jsGetParam ((n, v) :: rest) n = some v := by
  simp [jsGetParam, List.find?_cons_of_pos]

/-- `params.get` skips a head pair with a different name. -/
theorem jsGetParam_cons_miss {n m : JStr} (v : JStr) (rest : List (JStr × JStr))
    (h : n ≠ m) : jsGetParam ((n, v) :: rest) m = jsGetParam rest m := by
  simp [jsGetParam, List.find?_cons_of_neg, h]

/-- A string starts with its own prefix. -/
theorem startsWithJ_append (pre r : JStr) : startsWithJ pre (pre ++ r) = true := by
  simp [startsWithJ, List.take_left]

/-- Dropping the prefix length of an append. -/
theorem drop_prefix_append (pre r : JStr) : (pre ++ r).drop pre.length = r :=
  List.drop_left pre r

/-! ## C7 — malformed percent-decoding of `dn` -/

/-- C7 (counterexample): a magnet URI with a valid `xt` and `dn=100%` — whose
percent-decoding is malformed — makes the parser throw (`decodeURIComponent`
raises a `URIError`, which the catch block rethrows); the name does not fall
back to the raw value as the claim states. -/
theorem c7_counterexample :
    parseMagnetLink
        (s2j "magnet:?xt=urn:btih:aabbccdd00112233445566778899aabbccddeeff&dn=100%") =
      .error .uriError := by
  rfl

/-- C7 (amended): for every valid-`xt` magnet URI whose `dn` value's
percent-decoding is malformed (after the one decode `URLSearchParams`
performs, `decodeURIComponent` throws on the result), the parser fails with
the `URIError` instead of falling back to the raw value. -/
theorem c7_amended (H D : JStr) (hH : isHex40 H = true)
    (hD1 : ∀ c ∈ D, querySafe c = true) (hD2 : (35 : Nat) ∉ D)
    (hD3 : (38 : Nat) ∉ D) (hD4 : (61 : Nat) ∉ D)
    (hdec : decodeURIComponent (formDecodeStr D) = none) :
    parseMagnetLink (s2j "magnet:?xt=urn:btih:" ++ H ++ (s2j "&dn=" ++ D)) =
      .error .uriError := by
  have hHall : ∀ c ∈ H, isHexDigit c = true := by
    intro c hc
    have : H.length = 40 ∧ H.all isHexDigit = true := by simpa [isHex40] using hH
    exact List.all_eq_true.mp this.2 c hc
  have hlink : s2j "magnet:?xt=urn:btih:" ++ H ++ (s2j "&dn=" ++ D) =
      s2j "magnet:?" ++ (s2j "xt=urn:btih:" ++ H ++ (s2j "&dn=" ++ D)) := by
    rw [show s2j "magnet:?xt=urn:btih:" = s2j "magnet:?" ++ s2j "xt=urn:btih:" from rfl]
    simp
  have hsearch : urlSearch (s2j "magnet:?xt=urn:btih:" ++ H ++ (s2j "&dn=" ++ D)) =
      s2j "xt=urn:btih:" ++ H ++ (s2j "&dn=" ++ D) := by
    rw [hlink]
    apply urlSearch_magnet
    · intro c hc
      rcases List.mem_append.mp hc with hc | hc
      · rcases List.mem_append.mp hc with hc | hc
        · fin_cases hc <;> decide
        · exact querySafe_hex (hHall c hc)
      · rcases List.mem_append.mp hc with hc | hc
        · fin_cases hc <;> decide
        · exact hD1 c hc
    · intro hm
      rcases List.mem_append.mp hm with hm | hm
      · rcases List.mem_append.mp hm with hm | hm
        · simp [s2j] at hm
        · have := hHall 35 hm
          simp [isHexDigit] at this
      · rcases List.mem_append.mp hm with hm | hm
        · simp [s2j] at hm
        · exact hD2 hm
  have hshape : s2j "xt=urn:btih:" ++ H ++ (s2j "&dn=" ++ D) =
      ((s2j "xt", s2j "urn:btih:" ++ H).1 ++ 61 :: (s2j "xt", s2j "urn:btih:" ++ H).2) ++
        (([(s2j "dn", D)]).map fun p => (38 : Nat) :: (p.1 ++ 61 :: p.2)).flatten := by
    rw [show s2j "xt=urn:btih:" = s2j "xt" ++ 61 :: s2j "urn:btih:" from rfl,
      show s2j "&dn=" = 38 :: s2j "dn" ++ [61] from rfl]
    simp
  have hquery : parseQuery (s2j "xt=urn:btih:" ++ H ++ (s2j "&dn=" ++ D)) =
      [(formDecodeStr (s2j "xt"), formDecodeStr (s2j "urn:btih:" ++ H)),
       (formDecodeStr (s2j "dn"), formDecodeStr D)] := by
    rw [hshape, parseQuery_build]
    · rfl
    · exact ⟨(by decide : (61 : Nat) ∉ s2j "xt"), (by decide : (38 : Nat) ∉ s2j "xt"),
        (by decide : s2j "xt" ≠ [])⟩
    · intro hm
      rcases List.mem_append.mp hm with hm | hm
      · simp [s2j] at hm
      · have := hHall 38 hm
        simp [isHexDigit] at this
    · intro p hp
      simp only [List.mem_singleton] at hp
      subst hp
      exact ⟨⟨(by decide : (61 : Nat) ∉ s2j "dn"), (by decide : (38 : Nat) ∉ s2j "dn"),
        (by decide : s2j "dn" ≠ [])⟩, hD3⟩
  have hfdxt : formDecodeStr (s2j "xt") = s2j "xt" := by
    apply formDecodeStr_plain <;> decide
  have hfddn : formDecodeStr (s2j "dn") = s2j "dn" := by
    apply formDecodeStr_plain <;> decide
  have hfdv : formDecodeStr (s2j "urn:btih:" ++ H) = s2j "urn:btih:" ++ H := by
    apply formDecodeStr_plain
    · intro c hc
      rcases List.mem_append.mp hc with hc | hc
      · fin_cases hc <;> decide
      · have := hHall c hc
        simp only [isHexDigit, decide_eq_true_eq] at this
        omega
    · intro hm
      rcases List.mem_append.mp hm with hm | hm
      · simp [s2j] at hm
      · have := hHall 37 hm
        simp [isHexDigit] at this
    · intro hm
      rcases List.mem_append.mp hm with hm | hm
      · simp [s2j] at hm
      · have := hHall 43 hm
        simp [isHexDigit] at this
  have hfdD : formDecodeStr D ≠ [] := by
    intro h0
    rw [h0] at hdec
    exact (by decide : decodeURIComponent [] ≠ none) hdec
  have hxtne : ¬(s2j "urn:btih:" ++ H = [] ∨
      ¬ startsWithJ (s2j "urn:btih:") (s2j "urn:btih:" ++ H) = true) := by
    simp [startsWithJ_append]
    intro h
    exact absurd h (by decide)
  have hdrop : (s2j "urn:btih:" ++ H).drop 9 = H := by
    rw [show (9 : Nat) = (s2j "urn:btih:").length from rfl]
    exact List.drop_left _ _
  unfold parseMagnetLink
  rw [hsearch, hquery, hfdxt, hfddn, hfdv]
  match hfd : formDecodeStr D, hfdD with
  | c :: cs, _ =>
    rw [hfd] at hdec
    simp only [jsGetParam_cons_hit]
    rw [if_neg hxtne, hdrop, if_neg (by simp [isHex40_toLower hH])]
    have hgdn : jsGetParam [(s2j "xt", s2j "urn:btih:" ++ H), (s2j "dn", c :: cs)]
        (s2j "dn") = some (c :: cs) := by
      rw [jsGetParam_cons_miss _ _ (by decide), jsGetParam_cons_hit]
    simp only [hgdn, hdec]

/-- C7 (witness): the amended statement evaluated at `dn=100%`. -/
theorem c7_witness :
    parseMagnetLink (s2j "magnet:?xt=urn:btih:" ++
        s2j "aabbccdd00112233445566778899aabbccddeeff" ++ (s2j "&dn=" ++ s2j "100%")) =
      .error .uriError := by
  exact c7_amended (s2j "aabbccdd00112233445566778899aabbccddeeff") (s2j "100%")
    (by decide) (by decide) (by decide) (by decide) (by decide) (by decide)

/-! ## C1 — dictionary key order in the encoder -/




/-- Inserting with agreeing comparisons coincides. -/
theorem insByKeyBytes_agree (x : JStr × Bytes) : ∀ (l : List (JStr × Bytes)),
    (∀ y ∈ l, cuLt (textEncode x.1) (textEncode y.1) = cuLt x.1 y.1) →
    insByKeyBytes x l = insPair x l := by
  intro l
  induction l with
  | nil => intro _; rfl
  | cons y ys ih =>
    intro h
    simp only [insByKeyBytes, insPair, h y (by simp)]
    split
    · rfl
    · rw [ih (fun z hz => h z (by simp [hz]))]

/-- `insPair` permutes a cons. -/
theorem insPair_perm (x : JStr × Bytes) : ∀ (l : List (JStr × Bytes)),
    (insPair x l).Perm (x :: l) := by
  intro l
  induction l with
  | nil => simp [insPair]
  | cons y ys ih =>
    simp only [insPair]
    split
    · exact List.Perm.refl _
    · exact (List.Perm.cons y ih).trans (List.Perm.swap x y ys)

/-- `sortPairs` is a permutation of its input. -/
theorem sortPairs_perm : ∀ (l : List (JStr × Bytes)), (sortPairs l).Perm l := by
  intro l
  induction l with
  | nil => simp [sortPairs]
  | cons x xs ih =>
    have : sortPairs (x :: xs) = insPair x (sortPairs xs) := rfl
    rw [this]
    exact (insPair_perm x (sortPairs xs)).trans (List.Perm.cons x ih)

/-- Sorting with agreeing comparisons coincides. -/
theorem sortByKeyBytes_agree : ∀ (l : List (JStr × Bytes)),
    (∀ a ∈ l, ∀ b ∈ l, cuLt (textEncode a.1) (textEncode b.1) = cuLt a.1 b.1) →
    sortByKeyBytes l = sortPairs l := by
  intro l
  induction l with
  | nil => intro _; rfl
  | cons x xs ih =>
    intro h
    have h1 : sortByKeyBytes (x :: xs) = insByKeyBytes x (sortByKeyBytes xs) := rfl
    have h2 : sortPairs (x :: xs) = insPair x (sortPairs xs) := rfl
    rw [h1, h2, ih (fun a ha b hb => h a (by simp [ha]) b (by simp [hb]))]
    apply insByKeyBytes_agree
    intro y hy
    have hyxs : y ∈ xs := (sortPairs_perm xs).mem_iff.mp hy
    exact h x (by simp) y (by simp [hyxs])

/-- Members of `objSet` come from the accumulator or are the assigned pair. -/
theorem objSet_mem {A : Type} : ∀ (acc : List (JStr × A)) (k : JStr) (v : A) (x : JStr × A),
    x ∈ objSet acc k v → x ∈ acc ∨ x = (k, v) := by
  intro acc
  induction acc with
  | nil =>
    intro k v x hx
    simp [objSet] at hx
    exact Or.inr hx
  | cons y ys ih =>
    intro k v x hx
    by_cases hk : y.1 = k
    · simp only [objSet] at hx
      rw [show (y.1, y.2) = y from rfl] at hx
      rw [if_pos hk] at hx
      rcases List.mem_cons.mp hx with hx | hx
      · right
        rw [hx, hk]
      · left
        simp [hx]
    · simp only [objSet] at hx
      rw [show (y.1, y.2) = y from rfl, if_neg hk] at hx
      rcases List.mem_cons.mp hx with hx | hx
      · left
        simp [hx]
      · rcases ih k v x hx with h | h
        · left
          simp [h]
        · right
          exact h

/-- Members of the normalized object come from the original pair list. -/
theorem objNormalize_mem {A : Type} (l : List (JStr × A)) :
    ∀ x ∈ objNormalize l, x ∈ l := by
  have main : ∀ (l2 : List (JStr × A)) (acc : List (JStr × A)) (x : JStr × A),
      x ∈ l2.foldl (fun acc kv => objSet acc kv.1 kv.2) acc → x ∈ acc ∨ x ∈ l2 := by
    intro l2
    induction l2 with
    | nil =>
      intro acc x hx
      exact Or.inl hx
    | cons y ys ih =>
      intro acc x hx
      simp only [List.foldl_cons] at hx
      rcases ih (objSet acc y.1 y.2) x hx with h | h
      · rcases objSet_mem acc y.1 y.2 x h with h2 | h2
        · exact Or.inl h2
        · right
          simp [h2, show (y.1, y.2) = y from rfl]
      · right
        simp [h]
  intro x hx
  rcases main l [] x hx with h | h
  · simp at h
  · exact h

/-- Keys of `encEntries` come from the original keys. -/
theorem encEntries_keys : ∀ (pairs : List (JStr × BValue)) (q : JStr × Bytes),
    q ∈ encEntries pairs → ∃ p ∈ pairs, q.1 = p.1 := by
  intro pairs
  induction pairs with
  | nil => intro q hq; simp [encEntries] at hq
  | cons p ps ih =>
    intro q hq
    rw [show p = (p.1, p.2) from rfl] at hq
    simp only [encEntries] at hq
    rcases List.mem_cons.mp hq with hq | hq
    · exact ⟨p, by simp, by simp [hq]⟩
    · obtain ⟨p2, hp2, hq2⟩ := ih q hq
      exact ⟨p2, by simp [hp2], hq2⟩

/-- C1 (counterexample): a dictionary whose keys are U+10000 (a surrogate
pair) and U+E000.  JavaScript's default sort puts the surrogate pair first
(its UTF-16 code units start with 0xD800 < 0xE000), but its UTF-8 bytes
`F0 90 80 80` sort after U+E000's `EE 80 80`, so the emitted entry order is
not the ascending byte-wise order of the raw key bytes. -/
theorem c1_counterexample :
    encodeBencode (.dict [([0xD800, 0xDC00], .num (some 0)), ([0xE000], .num (some 0))]) ≠
      specDictEncode [([0xD800, 0xDC00], .num (some 0)), ([0xE000], .num (some 0))] := by
  decide

/-- C1 (amended): the encoder emits `d`, then the entries sorted by
JavaScript's default string comparison — ascending lexicographic order of the
keys' UTF-16 code units — then `e`; this coincides with ascending byte-wise
order of the raw key bytes whenever every key is ASCII, and the counterexample
shows the two orders differ on keys beyond the basic multilingual plane. -/
theorem c1_amended :
    (∀ pairs : List (JStr × BValue),
      encodeBencode (.dict pairs) =
        [100] ++ ((sortPairs (objNormalize (encEntries pairs))).map (·.2)).flatten ++ [101]) ∧
    (∀ pairs : List (JStr × BValue), (∀ p ∈ pairs, ∀ c ∈ p.1, c < 0x80) →
      encodeBencode (.dict pairs) = specDictEncode pairs) := by
  constructor
  · intro pairs
    rfl
  · intro pairs hascii
    have hkeys : ∀ q ∈ objNormalize (encEntries pairs), ∀ c ∈ q.1, c < 0x80 := by
      intro q hq c hc
      obtain ⟨p, hp, hqp⟩ := encEntries_keys pairs q (objNormalize_mem _ q hq)
      exact hascii p hp c (hqp ▸ hc)
    show _ = specDictEncode pairs
    unfold specDictEncode
    rw [sortByKeyBytes_agree]
    · rfl
    · intro a ha b hb
      rw [textEncode_ascii (fun c hc => by have := hkeys a ha c hc; omega),
        textEncode_ascii (fun c hc => by have := hkeys b hb c hc; omega)]

/-- C1 (witness): the amended ASCII statement evaluated on a dictionary
supplied with keys out of order: `b` before `a`. -/
theorem c1_witness :
    encodeBencode (.dict [(s2j "b", .num (some 1)), (s2j "a", .num (some 2))]) =
      specDictEncode [(s2j "b", .num (some 1)), (s2j "a", .num (some 2))] := by
  exact c1_amended.2 [(s2j "b", .num (some 1)), (s2j "a", .num (some 2))] (by decide)

/-! ## UTF round trips and decimal parsing

Encoding a well-formed UTF-16 string to UTF-8 and decoding it back is the
identity, and `parseInt` inverts decimal printing; these feed the bencode
round-trip development below. -/

theorem u8dF_round1 {c : Nat} (h2 : c < 0x80) (f : Nat) (r : Bytes) :
    u8dF (f + 1) (c :: r) = c :: u8dF f r := by
  simp only [u8dF]
  rw [if_pos (by omega : c ≤ 0x7F)]

theorem u8dF_round2 {c : Nat} (h1 : 0x80 ≤ c) (h2 : c < 0x800) (f : Nat) (r : Bytes) :
    u8dF (f + 1) ((0xC0 + c / 64) :: (0x80 + c % 64) :: r) = c :: u8dF f r := by
  simp only [u8dF, contIn]
  rw [if_neg (by omega : ¬0xC0 + c / 64 ≤ 0x7F),
    if_pos (by omega : 0xC2 ≤ 0xC0 + c / 64 ∧ 0xC0 + c / 64 ≤ 0xDF),
    if_pos (by simp only [decide_eq_true_eq]; omega)]
  have hv : (0xC0 + c / 64 - 0xC0) * 64 + (0x80 + c % 64 - 0x80) = c := by omega
  rw [hv]

theorem u8dF_round3 {c : Nat} (h1 : 0x800 ≤ c) (h2 : c < 0x10000)
    (h3 : ¬(0xD800 ≤ c ∧ c ≤ 0xDFFF)) (f : Nat) (r : Bytes) :
    u8dF (f + 1) ((0xE0 + c / 4096) :: (0x80 + c / 64 % 64) :: (0x80 + c % 64) :: r) =
      c :: u8dF f r := by
  simp only [u8dF, contIn]
  rw [if_neg (by omega : ¬0xE0 + c / 4096 ≤ 0x7F),
    if_neg (by omega : ¬(0xC2 ≤ 0xE0 + c / 4096 ∧ 0xE0 + c / 4096 ≤ 0xDF)),
    if_pos (by omega : 0xE0 ≤ 0xE0 + c / 4096 ∧ 0xE0 + c / 4096 ≤ 0xEF)]
  have hcont1 : decide ((if 0xE0 + c / 4096 = 0xE0 then 0xA0 else 0x80) ≤ 0x80 + c / 64 % 64 ∧
      0x80 + c / 64 % 64 ≤ if 0xE0 + c / 4096 = 0xED then 0x9F else 0xBF) = true := by
    simp only [decide_eq_true_eq]
    split_ifs <;> constructor <;> omega
  rw [if_pos hcont1, if_pos (by simp only [decide_eq_true_eq]; omega)]
  have hv : (0xE0 + c / 4096 - 0xE0) * 4096 + (0x80 + c / 64 % 64 - 0x80) * 64 +
      (0x80 + c % 64 - 0x80) = c := by omega
  rw [hv]

theorem u8dF_round4 {c : Nat} (h1 : 0x10000 ≤ c) (h2 : c < 0x110000) (f : Nat) (r : Bytes) :
    u8dF (f + 1) ((0xF0 + c / 262144) :: (0x80 + c / 4096 % 64) :: (0x80 + c / 64 % 64) ::
      (0x80 + c % 64) :: r) = c :: u8dF f r := by
  simp only [u8dF, contIn]
  rw [if_neg (by omega : ¬0xF0 + c / 262144 ≤ 0x7F),
    if_neg (by omega : ¬(0xC2 ≤ 0xF0 + c / 262144 ∧ 0xF0 + c / 262144 ≤ 0xDF)),
    if_neg (by omega : ¬(0xE0 ≤ 0xF0 + c / 262144 ∧ 0xF0 + c / 262144 ≤ 0xEF)),
    if_pos (by omega : 0xF0 ≤ 0xF0 + c / 262144 ∧ 0xF0 + c / 262144 ≤ 0xF4)]
  have hcont1 : decide ((if 0xF0 + c / 262144 = 0xF0 then 0x90 else 0x80) ≤
      0x80 + c / 4096 % 64 ∧
      0x80 + c / 4096 % 64 ≤ if 0xF0 + c / 262144 = 0xF4 then 0x8F else 0xBF) = true := by
    simp only [decide_eq_true_eq]
    split_ifs <;> constructor <;> omega
  rw [if_pos hcont1, if_pos (by simp only [decide_eq_true_eq]; omega),
    if_pos (by simp only [decide_eq_true_eq]; omega)]
  have hv : (0xF0 + c / 262144 - 0xF0) * 262144 + (0x80 + c / 4096 % 64 - 0x80) * 4096 +
      (0x80 + c / 64 % 64 - 0x80) * 64 + (0x80 + c % 64 - 0x80) = c := by omega
  rw [hv]

theorem utf8_decode_enc {c : Nat} (hc : c < 0x110000) (hs : ¬(0xD800 ≤ c ∧ c ≤ 0xDFFF))
    (f : Nat) (r : Bytes) :
    u8dF (f + 1) (utf8EncodeChar c ++ r) = c :: u8dF f r := by
  by_cases ha : c < 0x80
  · rw [utf8EncodeChar, if_pos ha]
    exact u8dF_round1 ha f r
  · by_cases hb : c < 0x800
    · rw [utf8EncodeChar, if_neg ha, if_pos hb]
      exact u8dF_round2 (by omega) hb f r
    · by_cases hc2 : c < 0x10000
      · rw [utf8EncodeChar, if_neg ha, if_neg hb, if_pos hc2]
        exact u8dF_round3 (by omega) hc2 hs f r
      · rw [utf8EncodeChar, if_neg ha, if_neg hb, if_neg hc2]
        exact u8dF_round4 (by omega) hc f r

theorem utf8EncodeChar_ne_nil (c : Nat) : utf8EncodeChar c ≠ [] := by
  unfold utf8EncodeChar
  split_ifs <;> simp

theorem u8dF_flatMap : ∀ (cps : List Nat) (f : Nat),
    (∀ c ∈ cps, c < 0x110000 ∧ ¬(0xD800 ≤ c ∧ c ≤ 0xDFFF)) → cps.length ≤ f →
    u8dF f (cps.flatMap utf8EncodeChar) = cps := by
  intro cps
  induction cps with
  | nil =>
    intro f _ _
    cases f <;> rfl
  | cons c rest ih =>
    intro f hsc hf
    match f, hf with
    | f + 1, hf =>
      have hc := hsc c (by simp)
      rw [List.flatMap_cons, utf8_decode_enc hc.1 hc.2]
      rw [ih f (fun x hx => hsc x (by simp [hx])) (by simp at hf; omega)]

theorem flatMap_enc_length (cps : List Nat) :
    cps.length ≤ (cps.flatMap utf8EncodeChar).length := by
  induction cps with
  | nil => simp
  | cons c rest ih =>
    rw [List.flatMap_cons, List.length_append, List.length_cons]
    have := utf8EncodeChar_ne_nil c
    have hlen : 1 ≤ (utf8EncodeChar c).length := by
      cases h : utf8EncodeChar c with
      | nil => exact absurd h this
      | cons a l => simp [h]
    omega

set_option maxRecDepth 2000 in
theorem cuToCpF_wf : ∀ (f : Nat) (s : JStr), s.length ≤ f → wfJStr s = true →
    (∀ c ∈ cuToCpF f s, c < 0x110000 ∧ ¬(0xD800 ≤ c ∧ c ≤ 0xDFFF)) ∧
    (cuToCpF f s).flatMap cpToCu = s := by
  intro f
  induction f with
  | zero =>
    intro s hl _
    have : s = [] := List.length_eq_zero.mp (by omega)
    subst this
    simp [cuToCpF]
  | succ f ih =>
    intro s hl hwf
    match s with
    | [] => simp [cuToCpF]
    | u :: rest =>
      rw [wfJStr.eq_def] at hwf
      simp only [] at hwf
      by_cases h1 : u < 0xD800 ∨ (0xDFFF < u ∧ u < 0x10000)
      · rw [if_pos h1] at hwf
        have h1' : u < 0xD800 ∨ 0xDFFF < u := by omega
        rw [cuToCpF.eq_def]
        simp only []
        rw [if_pos h1']
        obtain ⟨ha, hb⟩ := ih rest (by simp at hl; omega) hwf
        constructor
        · intro c hc
          rcases List.mem_cons.mp hc with hcu | hcr
          · subst hcu; exact ⟨by omega, by omega⟩
          · exact ha c hcr
        · rw [List.flatMap_cons, cpToCu, if_pos (by omega : u < 0x10000), hb]
          rfl
      · rw [if_neg h1] at hwf
        by_cases h2 : u ≤ 0xDBFF
        · rw [if_pos h2] at hwf
          match rest with
          | [] => simp at hwf
          | v :: rest2 =>
            simp only [Bool.and_eq_true, decide_eq_true_eq] at hwf
            obtain ⟨⟨hv1, hv2⟩, hwf2⟩ := hwf
            rw [cuToCpF.eq_def]
            simp only []
            rw [if_neg (by omega : ¬(u < 0xD800 ∨ 0xDFFF < u)), if_pos h2,
              if_pos (show (0xDC00 ≤ v ∧ v ≤ 0xDFFF) from ⟨hv1, hv2⟩)]
            obtain ⟨ha, hb⟩ := ih rest2 (by simp at hl ⊢; omega) hwf2
            constructor
            · intro c hc
              rcases List.mem_cons.mp hc with hcu | hcr
              · rw [hcu]
                refine ⟨by omega, ?_⟩
                intro hcon
                omega
              · exact ha c hcr
            · rw [List.flatMap_cons, cpToCu,
                if_neg (by omega : ¬(0x10000 + (u - 0xD800) * 0x400 + (v - 0xDC00)) < 0x10000)]
              rw [hb]
              have e1 : 0xD800 + (0x10000 + (u - 0xD800) * 0x400 + (v - 0xDC00) - 0x10000) / 0x400 = u := by
                omega
              have e2 : 0xDC00 + (0x10000 + (u - 0xD800) * 0x400 + (v - 0xDC00) - 0x10000) % 0x400 = v := by
                omega
              rw [e1, e2]
              rfl
        · rw [if_neg h2] at hwf
          simp at hwf

theorem textDecode_textEncode {s : JStr} (h : wfJStr s = true) :
    textDecode (textEncode s) = s := by
  obtain ⟨ha, hb⟩ := cuToCpF_wf s.length s (le_refl _) h
  rw [textDecode, textEncode, utf8DecodeReplace, cuToCodePoints]
  rw [u8dF_flatMap (cuToCpF s.length s) _ ha (flatMap_enc_length _), hb]

theorem digitsVal_append (s : JStr) (c : Nat) :
    digitsVal (s ++ [c]) = digitsVal s * 10 + (c - 48) := by
  simp [digitsVal, List.foldl_append]

theorem natDigits_ok : ∀ (f n : Nat), n < f →
    natDigits f n ≠ [] ∧ (∀ c ∈ natDigits f n, 48 ≤ c ∧ c ≤ 57) ∧
    digitsVal (natDigits f n) = n := by
  intro f
  induction f with
  | zero => intro n h; omega
  | succ f ih =>
    intro n h
    by_cases h10 : n < 10
    · rw [natDigits, if_pos h10]
      refine ⟨by simp, ?_, ?_⟩
      · intro c hc
        simp at hc
        omega
      · simp [digitsVal]
    · rw [natDigits, if_neg h10]
      obtain ⟨h1, h2, h3⟩ := ih (n / 10) (by omega)
      refine ⟨by simp, ?_, ?_⟩
      · intro c hc
        rcases List.mem_append.mp hc with hc1 | hc2
        · exact h2 c hc1
        · simp at hc2
          omega
      · rw [digitsVal_append, h3]
        omega

theorem natDecimal_ok (n : Nat) :
    natDecimal n ≠ [] ∧ (∀ c ∈ natDecimal n, 48 ≤ c ∧ c ≤ 57) ∧
    digitsVal (natDecimal n) = n :=
  natDigits_ok (n + 1) n (by omega)

theorem intDecimal_chars (m : Int) : ∀ c ∈ intDecimal m, c = 45 ∨ (48 ≤ c ∧ c ≤ 57) := by
  intro c hc
  rw [intDecimal] at hc
  split_ifs at hc with hm
  · rcases List.mem_cons.mp hc with h | h
    · exact Or.inl h
    · exact Or.inr ((natDecimal_ok _).2.1 c h)
  · exact Or.inr ((natDecimal_ok _).2.1 c hc)

theorem jsParseInt_intDecimal (m : Int) : jsParseInt (intDecimal m) = some m := by
  rw [intDecimal]
  split_ifs with hm
  · obtain ⟨h1, h2, h3⟩ := natDecimal_ok m.natAbs
    match hd : natDecimal m.natAbs, h1 with
    | d :: rest, _ =>
      have hdd : 48 ≤ d ∧ d ≤ 57 := h2 d (by rw [hd]; simp)
      have hws : (45 :: d :: rest).dropWhile jsIsWs = 45 :: d :: rest :=
        List.dropWhile_cons_of_neg (by simp [jsIsWs])
      simp only [jsParseInt, hws, reduceIte]
      have htw : (d :: rest).takeWhile isDigit = d :: rest := by
        rw [List.takeWhile_eq_self_iff.mpr]
        intro a ha
        have := h2 a (by rw [hd]; exact ha)
        simp [isDigit]
        omega
      rw [leadingDigitsVal, if_pos (by simp [isDigit]; omega), htw]
      rw [← hd, h3]
      have hcoe : -((m.natAbs : Nat) : Int) = m := by omega
      simp [hcoe]
      rw [abs_of_neg hm, neg_neg]
  · obtain ⟨h1, h2, h3⟩ := natDecimal_ok m.toNat
    rw [jsParseInt_digits h1 (by
      rw [List.all_eq_true]
      intro a ha
      have := h2 a ha
      simp [isDigit]
      omega), h3]
    have hcoe : ((m.toNat : Nat) : Int) = m := by omega
    simp [hcoe]

/-! ## Positional context lemmas

Reading, dropping, and slicing a buffer `pre ++ l ++ post` at offsets inside
the `l` region sees only `l`. -/

/-- `get?` inside the middle region of a three-part buffer. -/
theorem get?_ctx (pre l post : Bytes) (i : Nat) (h : i < l.length) :
    (pre ++ l ++ post).get? (pre.length + i) = l.get? i := by
  rw [List.append_assoc, List.get?_append_right (by omega),
    show pre.length + i - pre.length = i by omega]
  exact List.get?_append h

/-- `get?` at the start of the middle region. -/
theorem get?_ctx0 (pre l post : Bytes) (h : 0 < l.length) :
    (pre ++ l ++ post).get? pre.length = l.get? 0 := by
  have := get?_ctx pre l post 0 h
  simpa using this

/-- `drop` inside the middle region of a three-part buffer. -/
theorem drop_ctx (pre l post : Bytes) (i : Nat) (h : i ≤ l.length) :
    (pre ++ l ++ post).drop (pre.length + i) = l.drop i ++ post := by
  rw [List.append_assoc, List.drop_append, List.drop_append_of_le_length h]

/-- `take` ending inside the middle region of a three-part buffer. -/
theorem take_ctx (pre l post : Bytes) (i : Nat) (h : i ≤ l.length) :
    (pre ++ l ++ post).take (pre.length + i) = pre ++ l.take i := by
  rw [List.append_assoc, List.take_append, List.take_append_of_le_length h]

/-- `jsSlice` with both endpoints inside the middle region of a three-part
buffer slices only the middle region. -/
theorem jsSlice_ctx (pre l post : Bytes) (a b : Nat) (h : b ≤ l.length) :
    jsSlice (pre ++ l ++ post) (pre.length + a) (pre.length + b) = jsSlice l a b := by
  rw [jsSlice, take_ctx pre l post b h, jsSlice, List.drop_append]

/-! ## Shape of encoded values -/

/-- Every encoding is at least two bytes long. -/
theorem encodeBencode_length_ge : ∀ v : BValue, 2 ≤ (encodeBencode v).length := by
  intro v
  cases v with
  | num n =>
    cases n with
    | none => simp [encodeBencode]
    | some m => simp [encodeBencode]
  | str b =>
    have h1 := (natDecimal_ok b.length).1
    have : 1 ≤ (natDecimal b.length).length := by
      cases h : natDecimal b.length with
      | nil => exact absurd h h1
      | cons a l => simp
    simp [encodeBencode, encStrBytes]
    omega
  | list items => simp [encodeBencode]
  | dict pairs => simp [encodeBencode]

/-- Every encoding starts with a byte other than the terminator `e`. -/
theorem encodeBencode_head : ∀ v : BValue, ∃ h t, encodeBencode v = h :: t ∧ h ≠ 101 := by
  intro v
  cases v with
  | num n =>
    cases n with
    | none => exact ⟨105, _, rfl, by omega⟩
    | some m => exact ⟨105, _, rfl, by omega⟩
  | str b =>
    have h1 := (natDecimal_ok b.length).1
    match hd : natDecimal b.length, h1 with
    | d :: ds, _ =>
      have hdd : 48 ≤ d ∧ d ≤ 57 := (natDecimal_ok b.length).2.1 d (by rw [hd]; simp)
      refine ⟨d, ds ++ [58] ++ b, ?_, by omega⟩
      show encStrBytes b = _
      rw [encStrBytes, hd]
      simp
  | list items => exact ⟨108, _, rfl, by omega⟩
  | dict pairs => exact ⟨100, _, rfl, by omega⟩

/-! ## Decoding an encoded integer and an encoded string -/

/-- Decoding at the start of an encoded integer yields the integer and the
offset just past it, for any successor fuel. -/
theorem decodeB_encNum (m : Int) (pre post : Bytes) (f : Nat) :
    decodeB (f + 1) (pre ++ encodeBencode (.num (some m)) ++ post) pre.length =
      .ok (.num (some m), pre.length + (encodeBencode (.num (some m))).length) := by
  have henc : encodeBencode (.num (some m)) = 105 :: (intDecimal m ++ [101]) := rfl
  have hch := intDecimal_chars m
  have hne : (101 : Nat) ∉ intDecimal m := by
    intro hmem
    rcases hch 101 hmem with h | h <;> omega
  have hget : (pre ++ encodeBencode (.num (some m)) ++ post).get? pre.length = some 105 := by
    rw [get?_ctx0 _ _ _ (by rw [henc]; simp), henc]
    rfl
  have hidx : jsIndexOf (pre ++ encodeBencode (.num (some m)) ++ post) 101 (pre.length + 1) =
      some ((intDecimal m).length + (pre.length + 1)) := by
    rw [jsIndexOf, drop_ctx pre _ post 1 (by have := encodeBencode_length_ge (.num (some m)); omega)]
    rw [henc]
    show (fIdx ((intDecimal m ++ [101]) ++ post) 101).map _ = _
    rw [List.append_assoc]
    show (fIdx (intDecimal m ++ (101 :: post)) 101).map _ = _
    rw [fIdx_append_not_mem hne, fIdx_cons_self]
    simp
  have hsl : jsSlice (pre ++ encodeBencode (.num (some m)) ++ post) (pre.length + 1)
      ((intDecimal m).length + (pre.length + 1)) = intDecimal m := by
    rw [show (intDecimal m).length + (pre.length + 1) = pre.length + (1 + (intDecimal m).length) by omega]
    rw [jsSlice_ctx pre _ post 1 _ (by rw [henc]; simp; omega)]
    rw [henc, jsSlice]
    rw [show (1 + (intDecimal m).length) = (105 :: intDecimal m).length by simp; omega]
    rw [show (105 : Nat) :: (intDecimal m ++ [101]) = (105 :: intDecimal m) ++ [101] from rfl]
    rw [List.take_left]
    simp
  have hdec : textDecode (intDecimal m) = intDecimal m :=
    textDecode_ascii (fun c hc => by rcases hch c hc with h | h <;> omega)
  rw [decodeB, hget]
  simp only [hidx]
  rw [hsl, hdec, jsParseInt_intDecimal]
  simp only [pure, Except.pure, Except.ok.injEq, Prod.mk.injEq, BValue.num.injEq]
  refine ⟨trivial, ?_⟩
  rw [henc]
  simp
  omega

/-- Decoding at the start of an encoded byte string yields the byte string and
the offset just past it, for any successor fuel. -/
theorem decodeB_encStr (b : Bytes) (pre post : Bytes) (f : Nat) :
    decodeB (f + 1) (pre ++ encStrBytes b ++ post) pre.length =
      .ok (.str b, pre.length + (encStrBytes b).length) := by
  obtain ⟨hne, hdig, hval⟩ := natDecimal_ok b.length
  have hne58 : (58 : Nat) ∉ natDecimal b.length := by
    intro hmem
    have := hdig 58 hmem
    omega
  match hd : natDecimal b.length, hne with
  | d :: ds, _ =>
    have hdd : 48 ≤ d ∧ d ≤ 57 := hdig d (by rw [hd]; simp)
    have hlen1 : 1 ≤ (natDecimal b.length).length := by rw [hd]; simp
    have hget : (pre ++ encStrBytes b ++ post).get? pre.length = some d := by
      rw [get?_ctx0 _ _ _ (by
        have := encodeBencode_length_ge (.str b)
        simp only [encodeBencode] at this
        omega)]
      rw [encStrBytes, hd]
      rfl
    have hidx : jsIndexOf (pre ++ encStrBytes b ++ post) 58 pre.length =
        some ((natDecimal b.length).length + pre.length) := by
      rw [jsIndexOf, show pre.length = pre.length + 0 by omega,
        drop_ctx pre _ post 0 (by omega)]
      rw [List.drop_zero, encStrBytes, List.append_assoc, List.append_assoc,
        show ([58] : Bytes) ++ (b ++ post) = 58 :: (b ++ post) from rfl,
        fIdx_append_not_mem hne58, fIdx_cons_self]
      simp
    have hsl : jsSlice (pre ++ encStrBytes b ++ post) pre.length
        ((natDecimal b.length).length + pre.length) = natDecimal b.length := by
      rw [show pre.length = pre.length + 0 by omega,
        show (natDecimal b.length).length + (pre.length + 0) = pre.length + (natDecimal b.length).length by omega]
      rw [jsSlice_ctx pre _ post 0 _ (by rw [encStrBytes]; simp)]
      rw [jsSlice, List.drop_zero, encStrBytes]
      rw [show natDecimal b.length ++ [58] ++ b = natDecimal b.length ++ ([58] ++ b) from List.append_assoc _ _ _]
      rw [List.take_left]
    have hdec : textDecode (natDecimal b.length) = natDecimal b.length :=
      textDecode_ascii (fun c hc => by have := hdig c hc; omega)
    have hpi : jsParseInt (textDecode (jsSlice (pre ++ encStrBytes b ++ post) pre.length
        ((natDecimal b.length).length + pre.length))) = some (b.length : Int) := by
      rw [hsl, hdec, jsParseInt_digits hne (by
        rw [List.all_eq_true]
        intro a ha
        have := hdig a ha
        simp [isDigit]
        omega), hval]
      simp
    have := decodeB_stringCase (f := f) hget hdd hidx hpi
    rw [this]
    have htn : ((b.length : Int)).toNat = b.length := by omega
    have hsl2 : jsSlice (pre ++ encStrBytes b ++ post)
        ((natDecimal b.length).length + pre.length + 1)
        ((natDecimal b.length).length + pre.length + 1 + ((b.length : Int)).toNat) = b := by
      rw [htn]
      rw [show (natDecimal b.length).length + pre.length + 1 + b.length = pre.length + ((natDecimal b.length).length + 1 + b.length) by omega,
        show (natDecimal b.length).length + pre.length + 1 = pre.length + ((natDecimal b.length).length + 1) by omega]
      rw [jsSlice_ctx pre _ post _ _ (by rw [encStrBytes]; simp; omega)]
      rw [jsSlice]
      rw [show (natDecimal b.length).length + 1 + b.length = (encStrBytes b).length by rw [encStrBytes]; simp; omega]
      rw [List.take_length]
      rw [encStrBytes, List.append_assoc, List.drop_append]
      rfl
    rw [hsl2, htn]
    congr 1
    rw [Prod.mk.injEq]
    refine ⟨rfl, ?_⟩
    rw [encStrBytes]
    simp
    omega

/-! ## Dictionary normalization and sorting: structural lemmas -/

/-- `insPair` permutes a cons (any value type). -/
theorem insPair_permA {A : Type} (x : JStr × A) : ∀ (l : List (JStr × A)),
    (insPair x l).Perm (x :: l) := by
  intro l
  induction l with
  | nil => simp [insPair]
  | cons y ys ih =>
    simp only [insPair]
    split
    · exact List.Perm.refl _
    · exact (List.Perm.cons y ih).trans (List.Perm.swap x y ys)

/-- `sortPairs` is a permutation of its input (any value type). -/
theorem sortPairs_permA {A : Type} : ∀ (l : List (JStr × A)), (sortPairs l).Perm l := by
  intro l
  induction l with
  | nil => simp [sortPairs]
  | cons x xs ih =>
    have : sortPairs (x :: xs) = insPair x (sortPairs xs) := rfl
    rw [this]
    exact (insPair_permA x (sortPairs xs)).trans (List.Perm.cons x ih)

/-- Assigning a fresh key appends the pair. -/
theorem objSet_append_not_mem {A : Type} : ∀ (acc : List (JStr × A)) (k : JStr) (v : A),
    k ∉ acc.map (·.1) → objSet acc k v = acc ++ [(k, v)] := by
  intro acc
  induction acc with
  | nil => intro k v _; rfl
  | cons y ys ih =>
    intro k v h
    have hk : y.1 ≠ k := by
      intro he
      exact h (by simp [← he])
    rw [show y = (y.1, y.2) from rfl, objSet, if_neg hk,
      ih k v (fun hm => h (by simp [hm]))]
    rfl

/-- Building the object from a list with pairwise-distinct keys changes
nothing. -/
theorem objNormalize_of_nodup {A : Type} (l : List (JStr × A))
    (h : (l.map (·.1)).Nodup) : objNormalize l = l := by
  have main : ∀ (l2 acc : List (JStr × A)), ((acc ++ l2).map (·.1)).Nodup →
      l2.foldl (fun a kv => objSet a kv.1 kv.2) acc = acc ++ l2 := by
    intro l2
    induction l2 with
    | nil => intro acc _; simp
    | cons y ys ih =>
      intro acc hn
      have hky : y.1 ∉ acc.map (·.1) := by
        intro hm
        rw [List.map_append] at hn
        have hd := (List.nodup_append.mp hn).2.2
        exact hd hm (by simp)
      simp only [List.foldl_cons]
      rw [objSet_append_not_mem acc y.1 y.2 hky, show (y.1, y.2) = y from rfl]
      rw [ih (acc ++ [y]) (by simpa using hn)]
      simp
  have := main l [] (by simpa using h)
  simpa [objNormalize] using this

/-! ## Key-preserving entry maps commute with normalization and sorting -/

/-- `objSet` commutes with a key-preserving per-entry map. -/
theorem objSet_mapKeyed {A B : Type} (f : JStr × A → B) :
    ∀ (acc : List (JStr × A)) (k : JStr) (v : A),
    objSet (acc.map (fun p => (p.1, f p))) k (f (k, v)) =
      (objSet acc k v).map (fun p => (p.1, f p)) := by
  intro acc
  induction acc with
  | nil => intro k v; rfl
  | cons y ys ih =>
    intro k v
    by_cases hk : y.1 = k
    · simp only [List.map_cons, objSet, if_pos hk]
      subst hk
      rfl
    · simp only [List.map_cons, objSet, if_neg hk, ih]

/-- The object-building fold commutes with a key-preserving per-entry map. -/
theorem foldl_objSet_mapKeyed {A B : Type} (f : JStr × A → B) :
    ∀ (l acc : List (JStr × A)),
    (l.map (fun p => (p.1, f p))).foldl (fun a kv => objSet a kv.1 kv.2)
        (acc.map (fun p => (p.1, f p))) =
      (l.foldl (fun a kv => objSet a kv.1 kv.2) acc).map (fun p => (p.1, f p)) := by
  intro l
  induction l with
  | nil => intro acc; rfl
  | cons y ys ih =>
    intro acc
    obtain ⟨k, v⟩ := y
    simp only [List.map_cons, List.foldl_cons]
    rw [objSet_mapKeyed f acc k v]
    exact ih (objSet acc k v)

/-- `objNormalize` commutes with a key-preserving per-entry map. -/
theorem objNormalize_mapKeyed {A B : Type} (f : JStr × A → B)
    (l : List (JStr × A)) :
    objNormalize (l.map (fun p => (p.1, f p))) =
      (objNormalize l).map (fun p => (p.1, f p)) := by
  have := foldl_objSet_mapKeyed f l []
  simpa [objNormalize] using this

/-- `insPair` commutes with a key-preserving per-entry map. -/
theorem insPair_mapKeyed {A B : Type} (f : JStr × A → B) (x : JStr × A) :
    ∀ (l : List (JStr × A)),
    insPair (x.1, f x) (l.map (fun p => (p.1, f p))) =
      (insPair x l).map (fun p => (p.1, f p)) := by
  intro l
  induction l with
  | nil => rfl
  | cons y ys ih =>
    simp only [List.map_cons, insPair]
    split
    · simp
    · rw [ih]
      rfl

/-- `sortPairs` commutes with a key-preserving per-entry map. -/
theorem sortPairs_mapKeyed {A B : Type} (f : JStr × A → B) :
    ∀ (l : List (JStr × A)),
    sortPairs (l.map (fun p => (p.1, f p))) =
      (sortPairs l).map (fun p => (p.1, f p)) := by
  intro l
  induction l with
  | nil => rfl
  | cons y ys ih =>
    have h1 : sortPairs ((y :: ys).map (fun p => (p.1, f p))) =
        insPair (y.1, f y) (sortPairs (ys.map (fun p => (p.1, f p)))) := rfl
    have h2 : sortPairs (y :: ys) = insPair y (sortPairs ys) := rfl
    rw [h1, h2, ih, show ((y.1, f y) : JStr × B) = (y.1, f (y.1, y.2)) from rfl]
    exact insPair_mapKeyed f y (sortPairs ys)

/-- `encEntries` is the key-preserving map that encodes each entry. -/
theorem encEntries_eq_map : ∀ (pairs : List (JStr × BValue)),
    encEntries pairs =
      pairs.map (fun p => (p.1, encStrBytes (textEncode p.1) ++ encodeBencode p.2)) := by
  intro pairs
  induction pairs with
  | nil => rfl
  | cons p ps ih =>
    rw [show p = (p.1, p.2) from rfl, encEntries, ih]
    rfl

/-- `canonEntries` is the key-preserving map that canonicalizes each value. -/
theorem canonEntries_eq_map : ∀ (pairs : List (JStr × BValue)),
    canonEntries pairs = pairs.map (fun p => (p.1, canon p.2)) := by
  intro pairs
  induction pairs with
  | nil => rfl
  | cons p ps ih =>
    rw [show p = (p.1, p.2) from rfl, canonEntries, ih]
    rfl


/-- The dictionary encoding is `d`, the entry sequence of the normalized,
key-sorted entry list, then `e`. -/
theorem encDict_eq (pairs : List (JStr × BValue)) :
    encodeBencode (.dict pairs) =
      [100] ++ encPairsSeq (sortPairs (objNormalize pairs)) ++ [101] := by
  rw [show encodeBencode (.dict pairs) =
    [100] ++ ((sortPairs (objNormalize (encEntries pairs))).map (·.2)).flatten ++ [101] from rfl]
  rw [encEntries_eq_map,
    objNormalize_mapKeyed (fun p => encStrBytes (textEncode p.1) ++ encodeBencode p.2),
    sortPairs_mapKeyed (fun p => encStrBytes (textEncode p.1) ++ encodeBencode p.2)]
  rw [encPairsSeq, List.flatMap]
  rw [List.map_map]
  rfl

/-- The canonical form of a dictionary is the normalized, key-sorted entry
list with canonicalized values. -/
theorem canonDict_eq (pairs : List (JStr × BValue)) :
    canon (.dict pairs) =
      .dict ((sortPairs (objNormalize pairs)).map fun p => (p.1, canon p.2)) := by
  rw [show canon (.dict pairs) = .dict (sortPairs (objNormalize (canonEntries pairs))) from rfl]
  rw [canonEntries_eq_map, objNormalize_mapKeyed (fun p => canon p.2),
    sortPairs_mapKeyed (fun p => canon p.2)]

/-- Entry-wise content of `wfPairs`. -/
theorem wfPairs_mem : ∀ (pairs : List (JStr × BValue)), wfPairs pairs = true →
    ∀ p ∈ pairs, wfJStr p.1 = true ∧ wfB p.2 = true := by
  intro pairs
  induction pairs with
  | nil => intro _ p hp; simp at hp
  | cons q qs ih =>
    intro h p hp
    rw [show q = (q.1, q.2) from rfl, wfPairs] at h
    simp at h
    rcases List.mem_cons.mp hp with hp | hp
    · rw [hp]
      exact ⟨h.1, h.2.1⟩
    · exact ih h.2.2 p hp

/-- Element-wise content of `wfItems`. -/
theorem wfItems_mem : ∀ (items : List BValue), wfItems items = true →
    ∀ v ∈ items, wfB v = true := by
  intro items
  induction items with
  | nil => intro _ v hv; simp at hv
  | cons w ws ih =>
    intro h v hv
    rw [wfItems] at h
    simp at h
    rcases List.mem_cons.mp hv with hv | hv
    · rw [hv]; exact h.1
    · exact ih h.2 v hv

/-- Length of the entry byte sequence distributes over cons. -/
theorem encPairsSeq_cons (p : JStr × BValue) (L : List (JStr × BValue)) :
    encPairsSeq (p :: L) =
      (encStrBytes (textEncode p.1) ++ encodeBencode p.2) ++ encPairsSeq L := by
  rw [encPairsSeq, List.flatMap_cons, encPairsSeq]

/-! ## The decode/encode round trip -/

/-- The list loop inverts `encItems`, given the round trip for each element:
positioned at the start of the encoded elements with the terminator byte
following, it decodes exactly the canonical elements and stops at the
terminator. -/
theorem decodeItemsB_enc (n : Nat)
    (IH : ∀ w : BValue, sizeOf w ≤ n → wfB w = true → ∀ (pre post : Bytes) (f : Nat),
      (encodeBencode w).length ≤ f →
      decodeB f (pre ++ encodeBencode w ++ post) pre.length =
        .ok (canon w, pre.length + (encodeBencode w).length)) :
    ∀ (items : List BValue), (∀ x ∈ items, sizeOf x ≤ n) → wfItems items = true →
    ∀ (pre post : Bytes) (f : Nat), (encItems items).length + 1 ≤ f →
    decodeItemsB f (pre ++ encItems items ++ (101 :: post)) pre.length =
      .ok (canonItems items, pre.length + (encItems items).length) := by
  intro items
  induction items with
  | nil =>
    intro _ _ pre post f hf
    match f, hf with
    | f + 1, _ =>
      have hshape : pre ++ encItems [] ++ (101 :: post) = pre ++ [101] ++ post := by
        rw [show encItems [] = ([] : Bytes) from rfl]
        simp
      rw [hshape, decodeItemsB, get?_ctx0 _ _ _ (by simp)]
      rw [show ([101] : Bytes).get? 0 = some 101 from rfl]
      simp [pure, Except.pure, canonItems, show encItems [] = ([] : Bytes) from rfl]
  | cons v vs ihv =>
    intro hsz hwf pre post f hf
    have hwB : wfB v = true ∧ wfItems vs = true := by
      rw [wfItems] at hwf
      simpa using hwf
    have h2 := encodeBencode_length_ge v
    have hlen : (encItems (v :: vs)).length =
        (encodeBencode v).length + (encItems vs).length := by
      rw [show encItems (v :: vs) = encodeBencode v ++ encItems vs from rfl]
      simp
    match f, hf with
    | f + 1, hf =>
      have hshape : pre ++ encItems (v :: vs) ++ (101 :: post) =
          pre ++ encodeBencode v ++ (encItems vs ++ 101 :: post) := by
        rw [show encItems (v :: vs) = encodeBencode v ++ encItems vs from rfl]
        simp
      rw [hshape]
      obtain ⟨hb, tb, hebt, hbne⟩ := encodeBencode_head v
      have hget : (pre ++ encodeBencode v ++ (encItems vs ++ 101 :: post)).get? pre.length =
          some hb := by
        rw [get?_ctx0 _ _ _ (by omega), hebt]
        rfl
      rw [decodeItemsB, hget]
      simp only []
      rw [if_neg hbne]
      have hdecv := IH v (hsz v (by simp)) hwB.1 pre (encItems vs ++ 101 :: post) f
        (by omega)
      rw [hdecv]
      simp only []
      have hdrest := ihv (fun x hx => hsz x (by simp [hx])) hwB.2
        (pre ++ encodeBencode v) post f (by omega)
      have hshape2 : (pre ++ encodeBencode v) ++ encItems vs ++ (101 :: post) =
          pre ++ encodeBencode v ++ (encItems vs ++ 101 :: post) := by
        simp
      rw [hshape2, List.length_append] at hdrest
      rw [hdrest]
      simp only [pure, Except.pure, Except.ok.injEq, Prod.mk.injEq]
      constructor
      · rfl
      · omega

/-- The dictionary loop inverts the entry byte sequence, given the round trip
for each value: positioned at the start of the encoded entries with the
terminator byte following, it assigns each decoded key its canonical decoded
value in order and stops at the terminator. -/
theorem decodePairsB_enc (n : Nat)
    (IH : ∀ w : BValue, sizeOf w ≤ n → wfB w = true → ∀ (pre post : Bytes) (f : Nat),
      (encodeBencode w).length ≤ f →
      decodeB f (pre ++ encodeBencode w ++ post) pre.length =
        .ok (canon w, pre.length + (encodeBencode w).length)) :
    ∀ (L : List (JStr × BValue)), (∀ p ∈ L, sizeOf p.2 ≤ n) →
    (∀ p ∈ L, wfJStr p.1 = true ∧ wfB p.2 = true) →
    ∀ (acc : List (JStr × BValue)) (pre post : Bytes) (f : Nat),
    (encPairsSeq L).length + 1 ≤ f →
    decodePairsB f (pre ++ encPairsSeq L ++ (101 :: post)) pre.length acc =
      .ok (L.foldl (fun a p => objSet a p.1 (canon p.2)) acc,
        pre.length + (encPairsSeq L).length) := by
  intro L
  induction L with
  | nil =>
    intro _ _ acc pre post f hf
    match f, hf with
    | f + 1, _ =>
      have hshape : pre ++ encPairsSeq [] ++ (101 :: post) = pre ++ [101] ++ post := by
        rw [show encPairsSeq [] = ([] : Bytes) from rfl]
        simp
      rw [hshape, decodePairsB, get?_ctx0 _ _ _ (by simp)]
      rw [show ([101] : Bytes).get? 0 = some 101 from rfl]
      simp [pure, Except.pure, show encPairsSeq [] = ([] : Bytes) from rfl]
  | cons p L' ihL =>
    intro hsz hwfm acc pre post f hf
    obtain ⟨k, v⟩ := p
    have hwfk : wfJStr k = true := (hwfm (k, v) (by simp)).1
    have hwfv : wfB v = true := (hwfm (k, v) (by simp)).2
    have hEk := encodeBencode_length_ge (.str (textEncode k))
    rw [show encodeBencode (.str (textEncode k)) = encStrBytes (textEncode k) from rfl] at hEk
    have hEv := encodeBencode_length_ge v
    have hlen : (encPairsSeq ((k, v) :: L')).length =
        (encStrBytes (textEncode k)).length + (encodeBencode v).length +
          (encPairsSeq L').length := by
      rw [encPairsSeq_cons]
      simp
      omega
    match f, hf with
    | g + 1, hf =>
      have hg : (encStrBytes (textEncode k)).length + (encodeBencode v).length +
          (encPairsSeq L').length ≤ g := by omega
      have hshape : pre ++ encPairsSeq ((k, v) :: L') ++ (101 :: post) =
          pre ++ encStrBytes (textEncode k) ++
            (encodeBencode v ++ (encPairsSeq L' ++ 101 :: post)) := by
        rw [encPairsSeq_cons]
        simp
      rw [hshape]
      obtain ⟨hb, tb, hebt, hbne⟩ := encodeBencode_head (.str (textEncode k))
      rw [show encodeBencode (.str (textEncode k)) = encStrBytes (textEncode k) from rfl] at hebt
      have hget : (pre ++ encStrBytes (textEncode k) ++
          (encodeBencode v ++ (encPairsSeq L' ++ 101 :: post))).get? pre.length = some hb := by
        rw [get?_ctx0 _ _ _ (by omega), hebt]
        rfl
      rw [decodePairsB, hget]
      simp only []
      rw [if_neg hbne]
      obtain ⟨g2, rfl⟩ : ∃ g2, g = g2 + 1 := ⟨g - 1, by omega⟩
      · have hkey := decodeB_encStr (textEncode k) pre
          (encodeBencode v ++ (encPairsSeq L' ++ 101 :: post)) g2
        rw [hkey]
        simp only []
        have hval := IH v (hsz (k, v) (by simp)) hwfv (pre ++ encStrBytes (textEncode k))
          (encPairsSeq L' ++ 101 :: post) (g2 + 1) (by omega)
        have hshape2 : (pre ++ encStrBytes (textEncode k)) ++ encodeBencode v ++
            (encPairsSeq L' ++ 101 :: post) =
            pre ++ encStrBytes (textEncode k) ++
              (encodeBencode v ++ (encPairsSeq L' ++ 101 :: post)) := by
          simp
        rw [hshape2, List.length_append] at hval
        rw [hval]
        simp only []
        rw [textDecode_textEncode hwfk]
        have hrest := ihL (fun q hq => hsz q (by simp [hq]))
          (fun q hq => hwfm q (by simp [hq])) (objSet acc k (canon v))
          (pre ++ encStrBytes (textEncode k) ++ encodeBencode v) post (g2 + 1) (by omega)
        have hshape3 : (pre ++ encStrBytes (textEncode k) ++ encodeBencode v) ++
            encPairsSeq L' ++ (101 :: post) =
            pre ++ encStrBytes (textEncode k) ++
              (encodeBencode v ++ (encPairsSeq L' ++ 101 :: post)) := by
          simp
        rw [hshape3, List.length_append, List.length_append] at hrest
        rw [show pre.length + (encStrBytes (textEncode k)).length +
          (encodeBencode v).length =
          pre.length + ((encStrBytes (textEncode k)).length + (encodeBencode v).length)
          by omega] at hrest
        rw [show pre.length + ((encStrBytes (textEncode k)).length) +
          (encodeBencode v).length =
          pre.length + ((encStrBytes (textEncode k)).length + (encodeBencode v).length)
          by omega]
        rw [hrest]
        simp only [List.foldl_cons, Except.ok.injEq, Prod.mk.injEq]
        exact ⟨by trivial, by omega⟩

/-- Round trip: decoding an encoded well-formed value at any position, with
fuel at least the encoding's length, yields its canonical form and the offset
just past the encoding. -/
theorem decodeB_enc : ∀ (n : Nat) (v : BValue), sizeOf v ≤ n → wfB v = true →
    ∀ (pre post : Bytes) (f : Nat), (encodeBencode v).length ≤ f →
    decodeB f (pre ++ encodeBencode v ++ post) pre.length =
      .ok (canon v, pre.length + (encodeBencode v).length) := by
  intro n
  induction n with
  | zero =>
    intro v hsz
    exfalso
    have : 0 < sizeOf v := by cases v <;> simp_arith
    omega
  | succ n ih =>
    intro v hsz hwf pre post f hf
    cases v with
    | num m =>
      cases m with
      | none => rw [wfB] at hwf; simp at hwf
      | some m =>
        obtain ⟨f', rfl⟩ : ∃ f', f = f' + 1 :=
          ⟨f - 1, by have := encodeBencode_length_ge (.num (some m)); omega⟩
        exact decodeB_encNum m pre post f'
    | str b =>
      obtain ⟨f', rfl⟩ : ∃ f', f = f' + 1 :=
        ⟨f - 1, by have := encodeBencode_length_ge (.str b); omega⟩
      have := decodeB_encStr b pre post f'
      rw [show encodeBencode (.str b) = encStrBytes b from rfl]
      exact this
    | list items =>
      have hlw : wfItems items = true := by rw [wfB] at hwf; exact hwf
      have henc : encodeBencode (.list items) = 108 :: (encItems items ++ [101]) := rfl
      have hl : (encodeBencode (.list items)).length = (encItems items).length + 2 := by
        rw [henc]; simp
      obtain ⟨f', rfl⟩ : ∃ f', f = f' + 1 :=
        ⟨f - 1, by have := encodeBencode_length_ge (.list items); omega⟩
      have hget : (pre ++ encodeBencode (.list items) ++ post).get? pre.length =
          some 108 := by
        rw [get?_ctx0 _ _ _ (by omega), henc]
        rfl
      rw [decodeB, hget]
      simp only []
      have hitems := decodeItemsB_enc n
        (fun w hw => ih w hw) items
        (fun x hx => by
          have h1 := List.sizeOf_lt_of_mem hx
          have h2 : sizeOf (BValue.list items) = 1 + sizeOf items := by
            simp [BValue.list.sizeOf_spec]
          omega)
        hlw (pre ++ [108]) post f' (by omega)
      have hshape : (pre ++ [108]) ++ encItems items ++ (101 :: post) =
          pre ++ encodeBencode (.list items) ++ post := by
        rw [henc]
        simp
      have hplen : (pre ++ [108] : Bytes).length = pre.length + 1 := by simp
      rw [hshape, hplen] at hitems
      rw [hitems]
      simp only [pure, Except.pure, Except.ok.injEq, Prod.mk.injEq]
      refine ⟨rfl, ?_⟩
      omega
    | dict pairs =>
      rw [wfB] at hwf
      simp only [Bool.and_eq_true, decide_eq_true_eq] at hwf
      obtain ⟨hp, hnd⟩ := hwf
      have hnorm : objNormalize pairs = pairs := objNormalize_of_nodup pairs hnd
      have henc : encodeBencode (.dict pairs) =
          [100] ++ encPairsSeq (sortPairs pairs) ++ [101] := by
        rw [encDict_eq, hnorm]
      have hl : (encodeBencode (.dict pairs)).length =
          (encPairsSeq (sortPairs pairs)).length + 2 := by
        rw [henc]; simp
      obtain ⟨f', rfl⟩ : ∃ f', f = f' + 1 :=
        ⟨f - 1, by have := encodeBencode_length_ge (.dict pairs); omega⟩
      have hget : (pre ++ encodeBencode (.dict pairs) ++ post).get? pre.length =
          some 100 := by
        rw [get?_ctx0 _ _ _ (by have := encodeBencode_length_ge (.dict pairs); omega), henc]
        rfl
      rw [decodeB, hget]
      simp only []
      have hMsub : ∀ q ∈ sortPairs pairs, q ∈ pairs :=
        fun q hq => (sortPairs_permA pairs).mem_iff.mp hq
      have hpairs := decodePairsB_enc n
        (fun w hw => ih w hw) (sortPairs pairs)
        (fun q hq => by
          obtain ⟨qk, qv⟩ := q
          have h1 := List.sizeOf_lt_of_mem (hMsub _ hq)
          have h2 : sizeOf (BValue.dict pairs) = 1 + sizeOf pairs := by
            simp [BValue.dict.sizeOf_spec]
          have h3 : sizeOf ((qk, qv) : JStr × BValue) = 1 + sizeOf qk + sizeOf qv := by
            simp [Prod.mk.sizeOf_spec]
          simp only []
          omega)
        (fun q hq => wfPairs_mem pairs hp q (hMsub q hq))
        [] (pre ++ [100]) post f' (by omega)
      have hshape : (pre ++ [100]) ++ encPairsSeq (sortPairs pairs) ++ (101 :: post) =
          pre ++ encodeBencode (.dict pairs) ++ post := by
        rw [henc]
        simp
      have hplen : (pre ++ [100] : Bytes).length = pre.length + 1 := by simp
      rw [hshape, hplen] at hpairs
      rw [hpairs]
      simp only []
      have hfold : (sortPairs pairs).foldl (fun a p => objSet a p.1 (canon p.2)) [] =
          (sortPairs pairs).map (fun p => (p.1, canon p.2)) := by
        have hkeys : (((sortPairs pairs).map fun p => (p.1, canon p.2)).map (·.1)).Nodup := by
          rw [List.map_map]
          have : ((·.1) ∘ fun p : JStr × BValue => (p.1, canon p.2)) =
              fun p : JStr × BValue => p.1 := rfl
          rw [this]
          exact ((sortPairs_permA pairs).map (·.1)).nodup_iff.mpr hnd
        have hid := objNormalize_of_nodup _ hkeys
        rw [objNormalize, List.foldl_map] at hid
        exact hid
      rw [hfold]
      simp only [pure, Except.pure, Except.ok.injEq, Prod.mk.injEq]
      constructor
      · rw [canonDict_eq, hnorm]
      · omega

/-! ## The code-unit order: asymmetry, transitivity, connexity -/

/-- `cuLt` is asymmetric. -/
theorem cuLt_asymm : ∀ a b : List Nat, cuLt a b = true → cuLt b a = false := by
  intro a
  induction a with
  | nil =>
    intro b h
    cases b with
    | nil => simp [cuLt] at h
    | cons x xs => rfl
  | cons x xs ih =>
    intro b h
    cases b with
    | nil => simp [cuLt] at h
    | cons y ys =>
      rw [cuLt] at h ⊢
      by_cases hxy : x < y
      · rw [if_neg (by omega), if_pos hxy]
      · by_cases hyx : y < x
        · rw [if_neg hxy, if_pos hyx] at h
          simp at h
        · rw [if_neg hxy, if_neg hyx] at h
          rw [if_neg hyx, if_neg hxy]
          exact ih ys h

/-- `cuLt` is transitive. -/
theorem cuLt_trans : ∀ a b c : List Nat,
    cuLt a b = true → cuLt b c = true → cuLt a c = true := by
  intro a
  induction a with
  | nil =>
    intro b c h1 h2
    cases c with
    | nil =>
      cases b with
      | nil => simp [cuLt] at h1
      | cons y ys => simp [cuLt] at h2
    | cons z zs => rfl
  | cons x xs ih =>
    intro b c h1 h2
    cases b with
    | nil => simp [cuLt] at h1
    | cons y ys =>
      cases c with
      | nil => simp [cuLt] at h2
      | cons z zs =>
        rw [cuLt] at h1 h2 ⊢
        by_cases hxy : x < y
        · by_cases hyz : y < z
          · rw [if_pos (by omega)]
          · by_cases hzy : z < y
            · rw [if_neg hyz, if_pos hzy] at h2
              simp at h2
            · have : y = z := by omega
              subst this
              rw [if_pos hxy]
        · by_cases hyx : y < x
          · rw [if_neg hxy, if_pos hyx] at h1
            simp at h1
          · have hxy2 : x = y := by omega
            subst hxy2
            rw [if_neg (by omega), if_neg (by omega)] at h1
            by_cases hyz : x < z
            · rw [if_pos hyz]
            · by_cases hzy : z < x
              · rw [if_neg hyz, if_pos hzy] at h2
                simp at h2
              · rw [if_neg hyz, if_neg hzy] at h2 ⊢
                exact ih ys zs h1 h2

/-- `cuLt` is connex: mutually incomparable sequences are equal. -/
theorem cuLt_conn : ∀ a b : List Nat,
    cuLt a b = false → cuLt b a = false → a = b := by
  intro a
  induction a with
  | nil =>
    intro b h1 _
    cases b with
    | nil => rfl
    | cons y ys => simp [cuLt] at h1
  | cons x xs ih =>
    intro b h1 h2
    cases b with
    | nil => simp [cuLt] at h2
    | cons y ys =>
      rw [cuLt] at h1 h2
      by_cases hxy : x < y
      · rw [if_pos hxy] at h1
        simp at h1
      · by_cases hyx : y < x
        · rw [if_pos hyx] at h2
          simp at h2
        · have : x = y := by omega
          subst this
          rw [if_neg hxy, if_neg hxy] at h1 h2
          rw [ih ys h1 h2]

/-! ## Sortedness of `sortPairs` and idempotence on distinct keys -/

/-- Inserting into a weakly key-sorted list keeps it weakly key-sorted. -/
theorem insPair_sorted {A : Type} (x : JStr × A) :
    ∀ l : List (JStr × A), l.Pairwise (fun a b => cuLt b.1 a.1 = false) →
    (insPair x l).Pairwise (fun a b => cuLt b.1 a.1 = false) := by
  intro l
  induction l with
  | nil => intro _; simp [insPair]
  | cons y ys ih =>
    intro hl
    rw [List.pairwise_cons] at hl
    obtain ⟨hy, hys⟩ := hl
    rw [insPair]
    split
    · rename_i hxy
      rw [List.pairwise_cons]
      constructor
      · intro z hz
        rcases List.mem_cons.mp hz with hz | hz
        · rw [hz]
          exact cuLt_asymm _ _ hxy
        · cases hzx : cuLt z.1 x.1 with
          | false => rfl
          | true =>
            have := cuLt_trans _ _ _ hzx hxy
            rw [hy z hz] at this
            simp at this
      · rw [List.pairwise_cons]
        exact ⟨hy, hys⟩
    · rename_i hxy
      rw [List.pairwise_cons]
      constructor
      · intro z hz
        have hz2 : z ∈ x :: ys := (insPair_permA x ys).mem_iff.mp hz
        rcases List.mem_cons.mp hz2 with hz2 | hz2
        · rw [hz2]
          simpa using hxy
        · exact hy z hz2
      · exact ih hys

/-- The output of `sortPairs` is weakly key-sorted. -/
theorem sortPairs_sorted {A : Type} :
    ∀ l : List (JStr × A), (sortPairs l).Pairwise (fun a b => cuLt b.1 a.1 = false) := by
  intro l
  induction l with
  | nil => simp [sortPairs]
  | cons x xs ih =>
    rw [show sortPairs (x :: xs) = insPair x (sortPairs xs) from rfl]
    exact insPair_sorted x (sortPairs xs) ih

/-- Sorting a strictly key-sorted list changes nothing. -/
theorem sortPairs_of_sortedStrict {A : Type} :
    ∀ l : List (JStr × A), l.Pairwise (fun a b => cuLt a.1 b.1 = true) →
    sortPairs l = l := by
  intro l
  induction l with
  | nil => intro _; rfl
  | cons x xs ih =>
    intro hl
    rw [List.pairwise_cons] at hl
    obtain ⟨hx, hxs⟩ := hl
    rw [show sortPairs (x :: xs) = insPair x (sortPairs xs) from rfl, ih hxs]
    cases xs with
    | nil => rfl
    | cons y ys =>
      rw [insPair, if_pos (hx y (by simp))]

/-- Sorting is idempotent on lists with pairwise-distinct keys. -/
theorem sortPairs_idem_of_nodup {A : Type} (l : List (JStr × A))
    (h : (l.map (·.1)).Nodup) : sortPairs (sortPairs l) = sortPairs l := by
  apply sortPairs_of_sortedStrict
  have hR := sortPairs_sorted l
  have hnd : ((sortPairs l).map (·.1)).Nodup :=
    ((sortPairs_permA l).map (·.1)).nodup_iff.mpr h
  have hne : (sortPairs l).Pairwise (fun a b => a.1 ≠ b.1) :=
    List.pairwise_map.mp hnd
  exact (hR.and hne).imp (fun hab => by
    rcases hab with ⟨h1, h2⟩
    rename_i a b
    cases hc : cuLt a.1 b.1 with
    | true => rfl
    | false => exact absurd (cuLt_conn _ _ hc h1) h2)

/-- `flatMap` after a `map` fuses. -/
theorem flatMap_map_comp {α β γ : Type} (g : α → β) (f : β → List γ) :
    ∀ l : List α, (l.map g).flatMap f = l.flatMap fun x => f (g x) := by
  intro l
  induction l with
  | nil => rfl
  | cons x xs ih => simp only [List.map_cons, List.flatMap_cons, ih]

/-- `flatMap` respects pointwise agreement on members. -/
theorem flatMap_congr_mem {α γ : Type} (f g : α → List γ) :
    ∀ l : List α, (∀ x ∈ l, f x = g x) → l.flatMap f = l.flatMap g := by
  intro l
  induction l with
  | nil => intro _; rfl
  | cons x xs ih =>
    intro h
    simp only [List.flatMap_cons]
    rw [h x (by simp), ih (fun y hy => h y (by simp [hy]))]

/-- `canonItems` is the element-wise map of `canon`. -/
theorem canonItems_eq_map : ∀ items : List BValue, canonItems items = items.map canon := by
  intro items
  induction items with
  | nil => rfl
  | cons v vs ih => rw [canonItems, ih]; rfl

/-- `encItems` is the element-wise concatenation of encodings. -/
theorem encItems_eq_flatMap : ∀ items : List BValue,
    encItems items = items.flatMap encodeBencode := by
  intro items
  induction items with
  | nil => rfl
  | cons v vs ih => rw [encItems, ih, List.flatMap_cons]

/-- Canonicalization changes neither the encoding nor (twice applied) itself:
on well-formed trees `canon` is idempotent and encoding-invariant. -/
theorem canon_enc : ∀ (n : Nat) (v : BValue), sizeOf v ≤ n → wfB v = true →
    encodeBencode (canon v) = encodeBencode v ∧ canon (canon v) = canon v := by
  intro n
  induction n with
  | zero =>
    intro v hsz
    exfalso
    have : 0 < sizeOf v := by cases v <;> simp_arith
    omega
  | succ n ih =>
    intro v hsz hwf
    cases v with
    | num m => exact ⟨rfl, rfl⟩
    | str b => exact ⟨rfl, rfl⟩
    | list items =>
      have hlw : wfItems items = true := by rw [wfB] at hwf; exact hwf
      have hsize : ∀ x ∈ items, sizeOf x ≤ n := by
        intro x hx
        have h1 := List.sizeOf_lt_of_mem hx
        have h2 : sizeOf (BValue.list items) = 1 + sizeOf items := by
          simp [BValue.list.sizeOf_spec]
        omega
      have hihs : ∀ x ∈ items, encodeBencode (canon x) = encodeBencode x ∧
          canon (canon x) = canon x :=
        fun x hx => ih x (hsize x hx) (wfItems_mem items hlw x hx)
      constructor
      · rw [show canon (.list items) = .list (canonItems items) from rfl]
        rw [show encodeBencode (.list (canonItems items)) =
          [108] ++ encItems (canonItems items) ++ [101] from rfl]
        rw [show encodeBencode (.list items) =
          [108] ++ encItems items ++ [101] from rfl]
        rw [encItems_eq_flatMap, encItems_eq_flatMap, canonItems_eq_map]
        rw [flatMap_map_comp]
        rw [flatMap_congr_mem _ _ items (fun x hx => (hihs x hx).1)]
      · rw [show canon (.list items) = .list (canonItems items) from rfl]
        rw [show canon (.list (canonItems items)) =
          .list (canonItems (canonItems items)) from rfl]
        rw [canonItems_eq_map, canonItems_eq_map, List.map_map]
        congr 1
        apply List.map_congr_left
        intro x hx
        exact (hihs x hx).2
    | dict pairs =>
      rw [wfB] at hwf
      simp only [Bool.and_eq_true, decide_eq_true_eq] at hwf
      obtain ⟨hp, hnd⟩ := hwf
      have hnorm : objNormalize pairs = pairs := objNormalize_of_nodup pairs hnd
      have hMsub : ∀ q ∈ sortPairs pairs, q ∈ pairs :=
        fun q hq => (sortPairs_permA pairs).mem_iff.mp hq
      have hsize : ∀ q ∈ sortPairs pairs, sizeOf q.2 ≤ n := by
        intro q hq
        obtain ⟨qk, qv⟩ := q
        have h1 := List.sizeOf_lt_of_mem (hMsub _ hq)
        have h2 : sizeOf (BValue.dict pairs) = 1 + sizeOf pairs := by
          simp [BValue.dict.sizeOf_spec]
        have h3 : sizeOf ((qk, qv) : JStr × BValue) = 1 + sizeOf qk + sizeOf qv := by
          simp [Prod.mk.sizeOf_spec]
        simp only []
        omega
      have hihs : ∀ q ∈ sortPairs pairs, encodeBencode (canon q.2) = encodeBencode q.2 ∧
          canon (canon q.2) = canon q.2 :=
        fun q hq => ih q.2 (hsize q hq) (wfPairs_mem pairs hp q (hMsub q hq)).2
      have hcd : canon (.dict pairs) =
          .dict ((sortPairs pairs).map fun p => (p.1, canon p.2)) := by
        rw [canonDict_eq, hnorm]
      have hndM : ((sortPairs pairs).map (·.1)).Nodup :=
        ((sortPairs_permA pairs).map (·.1)).nodup_iff.mpr hnd
      have hndMg : (((sortPairs pairs).map fun p => (p.1, canon p.2)).map (·.1)).Nodup := by
        rw [List.map_map]
        exact hndM
      have hsortM : sortPairs (sortPairs pairs) = sortPairs pairs :=
        sortPairs_idem_of_nodup pairs hnd
      have hsortMg : sortPairs ((sortPairs pairs).map fun p => (p.1, canon p.2)) =
          (sortPairs pairs).map fun p => (p.1, canon p.2) := by
        rw [sortPairs_mapKeyed (fun p => canon p.2), hsortM]
      have hnormMg : objNormalize ((sortPairs pairs).map fun p => (p.1, canon p.2)) =
          (sortPairs pairs).map fun p => (p.1, canon p.2) :=
        objNormalize_of_nodup _ hndMg
      constructor
      · rw [hcd, encDict_eq, encDict_eq, hnorm, hnormMg, hsortMg]
        rw [encPairsSeq, encPairsSeq, flatMap_map_comp]
        rw [flatMap_congr_mem _ _ (sortPairs pairs) (fun q hq => by
          simp only []
          rw [(hihs q hq).1])]
      · rw [hcd, canonDict_eq, hnormMg, hsortMg, List.map_map]
        congr 1
        apply List.map_congr_left
        intro q hq
        show (q.1, canon (canon q.2)) = (q.1, canon q.2)
        rw [(hihs q hq).2]


/-- C2 (counterexample): the buffer `"i00e"` is accepted by `decodeBencode`
(parseInt tolerates the redundant leading zero), decoding to the integer 0
with all four bytes consumed; re-encoding produces the three-byte `"i0e"`.
Since reordering dictionary keys never changes a buffer's length,
`Encode(Decode(buf))` is not `buf` with keys reordered and nothing else
changed. -/
theorem c2_counterexample :
    decodeBencode (s2j "i00e") = .ok (.num (some 0), 4) ∧
    encodeBencode (.num (some 0)) = s2j "i0e" ∧
    (encodeBencode (.num (some 0))).length ≠ (s2j "i00e").length :=
  ⟨rfl, rfl, by decide⟩

/-- C2 (amended): on well-formed trees the round trip holds up to dictionary
canonicalization, which is exactly JavaScript structural equality of the
results: `Decode(Encode(v))` succeeds, consumes the whole buffer, and returns
the canonical form of `v` — structurally equal to `v` (`streq`, key order
ignored) — and `Encode` maps the canonical form back to the very same bytes,
so on buffers produced by the encoder, `Encode(Decode(buf)) = buf` and the
only change from the source tree's own encoding is the key reordering
`Encode` itself performs. -/
theorem c2_amended :
    (∀ v : BValue, wfB v = true →
      decodeBencode (encodeBencode v) = .ok (canon v, (encodeBencode v).length) ∧
      streq (canon v) v) ∧
    (∀ v : BValue, wfB v = true → encodeBencode (canon v) = encodeBencode v) := by
  constructor
  · intro v hwf
    constructor
    · have h := decodeB_enc (sizeOf v) v (le_refl _) hwf [] []
        (2 * (encodeBencode v).length + 2) (by omega)
      simp only [List.nil_append, List.append_nil, List.length_nil, Nat.zero_add] at h
      rw [decodeBencode]
      exact h
    · show canon (canon v) = canon v
      exact (canon_enc (sizeOf v) v (le_refl _) hwf).2
  · intro v hwf
    exact (canon_enc (sizeOf v) v (le_refl _) hwf).1

/-- C2 (witness): the amended round trip applied to the concrete two-key
dictionary `{b: 1, a: "x"}`. -/
theorem c2_witness :
    wfB (.dict [(s2j "b", .num (some 1)), (s2j "a", .str (s2j "x"))]) = true ∧
    (decodeBencode (encodeBencode (.dict [(s2j "b", .num (some 1)), (s2j "a", .str (s2j "x"))])) =
      .ok (canon (.dict [(s2j "b", .num (some 1)), (s2j "a", .str (s2j "x"))]),
        (encodeBencode (.dict [(s2j "b", .num (some 1)), (s2j "a", .str (s2j "x"))])).length) ∧
      streq (canon (.dict [(s2j "b", .num (some 1)), (s2j "a", .str (s2j "x"))]))
        (.dict [(s2j "b", .num (some 1)), (s2j "a", .str (s2j "x"))])) ∧
    encodeBencode (canon (.dict [(s2j "b", .num (some 1)), (s2j "a", .str (s2j "x"))])) =
      encodeBencode (.dict [(s2j "b", .num (some 1)), (s2j "a", .str (s2j "x"))]) :=
  ⟨by decide,
    c2_amended.1 (.dict [(s2j "b", .num (some 1)), (s2j "a", .str (s2j "x"))]) (by decide),
    c2_amended.2 (.dict [(s2j "b", .num (some 1)), (s2j "a", .str (s2j "x"))]) (by decide)⟩

/-! ## Percent-coding identities on unescaped strings -/

/-- `encodeURIComponent` passes a string of unescaped-set code units through. -/
theorem encodeURIComponent_unescaped : ∀ s : JStr,
    (∀ c ∈ s, uriUnescaped c = true) → encodeURIComponent s = some s := by
  intro s
  induction s with
  | nil => intro _; rfl
  | cons c cs ih =>
    intro h
    rw [encodeURIComponent.eq_def]
    simp only []
    rw [if_pos (h c (by simp)), ih (fun a ha => h a (by simp [ha]))]
    rfl

/-- Unescaped-set code units are query-safe. -/
theorem uriUnescaped_querySafe {c : Nat} (h : uriUnescaped c = true) :
    querySafe c = true := by
  simp only [uriUnescaped, decide_eq_true_eq] at h
  simp only [querySafe, decide_eq_true_eq]
  omega

/-- `params.get` misses a list none of whose names match. -/
theorem jsGetParam_all_miss {l : List (JStr × JStr)} {n : JStr}
    (h : ∀ p ∈ l, p.1 ≠ n) : jsGetParam l n = none := by
  induction l with
  | nil => rfl
  | cons p rest ih =>
    rw [show p = (p.1, p.2) from rfl, jsGetParam_cons_miss _ _ (h p (by simp))]
    exact ih (fun q hq => h q (by simp [hq]))

/-- `params.getAll` skips an entry with a different name. -/
theorem jsGetAllParam_cons_miss {p : JStr × JStr} {rest : List (JStr × JStr)}
    {n : JStr} (h : p.1 ≠ n) :
    jsGetAllParam (p :: rest) n = jsGetAllParam rest n := by
  simp [jsGetAllParam, List.filter, h]

/-- `params.getAll` collects an entry with the matching name. -/
theorem jsGetAllParam_cons_hit (n v : JStr) (rest : List (JStr × JStr)) :
    jsGetAllParam ((n, v) :: rest) n = v :: jsGetAllParam rest n := by
  simp [jsGetAllParam, List.filter]

/-- `params.getAll` over a run of same-name entries returns the values. -/
theorem jsGetAllParam_same (n : JStr) : ∀ vs : List JStr,
    jsGetAllParam (vs.map fun v => (n, v)) n = vs := by
  intro vs
  induction vs with
  | nil => rfl
  | cons v rest ih =>
    rw [List.map_cons, jsGetAllParam_cons_hit, ih]

/-! ## C8 — generate-then-parse round trip -/

/-- C8 (counterexample): a descriptor whose name is `50%` generates
successfully — `encodeURIComponent` turns the name into `50%25` — but parsing
the produced URI throws a `URIError`: `URLSearchParams` decodes the value once
back to `50%`, and the parser's second `decodeURIComponent` rejects the bare
`%`.  Generate-then-parse recovers nothing, not even the infoHash. -/
theorem c8_counterexample :
    generateMagnetLink
        ⟨s2j "aabbccdd00112233445566778899aabbccddeeff", some (s2j "50%"),
          none, none, none⟩ none false none =
      .ok (s2j "magnet:?xt=urn:btih:aabbccdd00112233445566778899aabbccddeeff&dn=50%25") ∧
    parseMagnetLink
        (s2j "magnet:?xt=urn:btih:aabbccdd00112233445566778899aabbccddeeff&dn=50%25") =
      .error .uriError :=
  ⟨rfl, rfl⟩

/-- Unescaped-set code units are ASCII and none of `# & = % +`. -/
theorem uriUnescaped_props {c : Nat} (h : uriUnescaped c = true) :
    c ≤ 0x7F ∧ c ≠ 35 ∧ c ≠ 38 ∧ c ≠ 61 ∧ c ≠ 37 ∧ c ≠ 43 := by
  simp only [uriUnescaped, decide_eq_true_eq] at h
  omega

/-- C8 (amended): generate-then-parse is the identity on descriptors whose
stored hash is 40 lower-case hex digits (as the parser and extractor produce)
and whose name and trackers consist of `encodeURIComponent`-unescaped code
units that a second `decodeURIComponent` returns unchanged (no name is passed
to the generator and the descriptor's tracker list is non-empty, so the
descriptor's own data is what is emitted): the parser recovers the infoHash,
the name, and the tracker list exactly.  Names or trackers outside this set
can make parsing throw instead of recovering the generated values. -/
theorem c8_amended (H : JStr) (NM : Option JStr) (TS : List JStr) (aT : Bool)
    (cT : Option (List JStr))
    (hH : isHex40 H = true) (hHlow : jsToLowerCase H = H)
    (hNM : ∀ nm, NM = some nm → nm ≠ [] ∧ (∀ c ∈ nm, uriUnescaped c = true) ∧
      decodeURIComponent nm = some nm)
    (hTS : TS ≠ []) (hTSu : ∀ t ∈ TS, ∀ c ∈ t, uriUnescaped c = true) :
    (generateMagnetLink ⟨H, NM, some TS, none, none⟩ none aT cT).bind parseMagnetLink =
      .ok ⟨H, NM, some TS, none, none⟩ := by
  have hHall : ∀ c ∈ H, isHexDigit c = true := by
    intro c hc
    have : H.length = 40 ∧ H.all isHexDigit = true := by simpa [isHex40] using hH
    exact List.all_eq_true.mp this.2 c hc
  rcases hTSe : TS with _ | ⟨t0, ts⟩
  · exact absurd hTSe hTS
  subst hTSe
  have hTSu' : ∀ t ∈ t0 :: ts, ∀ c ∈ t, uriUnescaped c = true := hTSu
  have htsenc : ((t0 :: ts).all fun x => (encodeURIComponent x).isSome) = true := by
    rw [List.all_eq_true]
    intro x hx
    rw [encodeURIComponent_unescaped x (hTSu' x hx)]
    rfl
  have htsmap : ((t0 :: ts).map fun x => (encodeURIComponent x).getD []) = t0 :: ts := by
    apply (List.map_congr_left ?_).trans (List.map_id _)
    intro x hx
    rw [encodeURIComponent_unescaped x (hTSu' x hx)]
    rfl
  have htr : ∀ NM2 : Option JStr, trackerPart ⟨H, NM2, some (t0 :: ts), none, none⟩ aT cT =
      .ok (t0 :: ts) := by
    intro NM2
    rw [show trackerPart ⟨H, NM2, some (t0 :: ts), none, none⟩ aT cT =
      encTrackers (t0 :: ts) from rfl, encTrackers_ok htsenc, htsmap]
  have hflatc : ∀ c ∈ ((t0 :: ts).map (s2j "&tr=" ++ ·)).flatten,
      querySafe c = true ∧ c ≠ 35 := by
    intro c hc
    obtain ⟨l, hl, hcl⟩ := List.mem_flatten.mp hc
    obtain ⟨x, hx, rfl⟩ := List.mem_map.mp hl
    rcases List.mem_append.mp hcl with h | h
    · fin_cases h <;> exact ⟨by decide, by decide⟩
    · have hu := hTSu' x hx c h
      have := uriUnescaped_props hu
      exact ⟨uriUnescaped_querySafe hu, this.2.1⟩
  have hfdtr : ∀ x ∈ t0 :: ts, formDecodeStr x = x := by
    intro x hx
    apply formDecodeStr_plain
    · intro c hc
      exact (uriUnescaped_props (hTSu' x hx c hc)).1
    · intro hm
      exact (uriUnescaped_props (hTSu' x hx 37 hm)).2.2.2.2.1 rfl
    · intro hm
      exact (uriUnescaped_props (hTSu' x hx 43 hm)).2.2.2.2.2 rfl
  have hfdv : formDecodeStr (s2j "urn:btih:" ++ H) = s2j "urn:btih:" ++ H := by
    apply formDecodeStr_plain
    · intro c hc
      rcases List.mem_append.mp hc with hc | hc
      · fin_cases hc <;> decide
      · have := hHall c hc
        simp only [isHexDigit, decide_eq_true_eq] at this
        omega
    · intro hm
      rcases List.mem_append.mp hm with hm | hm
      · simp [s2j] at hm
      · have := hHall 37 hm
        simp [isHexDigit] at this
    · intro hm
      rcases List.mem_append.mp hm with hm | hm
      · simp [s2j] at hm
      · have := hHall 43 hm
        simp [isHexDigit] at this
  have hxtne : ¬(s2j "urn:btih:" ++ H = [] ∨
      ¬ startsWithJ (s2j "urn:btih:") (s2j "urn:btih:" ++ H) = true) := by
    simp [startsWithJ_append]
    intro h
    exact absurd h (by decide)
  have hdrop : (s2j "urn:btih:" ++ H).drop 9 = H := by
    rw [show (9 : Nat) = (s2j "urn:btih:").length from rfl]
    exact List.drop_left _ _
  rcases hNMe : NM with _ | nm
  · have hgen : generateMagnetLink ⟨H, none, some (t0 :: ts), none, none⟩ none aT cT =
        .ok (s2j "magnet:?xt=urn:btih:" ++ H ++
          ((t0 :: ts).map (s2j "&tr=" ++ ·)).flatten) := by
      unfold generateMagnetLink
      simp only [jsOrStr]
      rw [htr none]
    rw [hgen]
    simp only [Except.bind]
    have hlink : s2j "magnet:?xt=urn:btih:" ++ H ++
        ((t0 :: ts).map (s2j "&tr=" ++ ·)).flatten =
        s2j "magnet:?" ++ (s2j "xt=urn:btih:" ++ H ++
          ((t0 :: ts).map (s2j "&tr=" ++ ·)).flatten) := by
      rw [show s2j "magnet:?xt=urn:btih:" = s2j "magnet:?" ++ s2j "xt=urn:btih:" from rfl]
      simp
    have hsearch : urlSearch (s2j "magnet:?xt=urn:btih:" ++ H ++
        ((t0 :: ts).map (s2j "&tr=" ++ ·)).flatten) =
        s2j "xt=urn:btih:" ++ H ++ ((t0 :: ts).map (s2j "&tr=" ++ ·)).flatten := by
      rw [hlink]
      apply urlSearch_magnet
      · intro c hc
        rcases List.mem_append.mp hc with hc | hc
        · rcases List.mem_append.mp hc with hc | hc
          · fin_cases hc <;> decide
          · exact querySafe_hex (hHall c hc)
        · exact (hflatc c hc).1
      · intro hm
        rcases List.mem_append.mp hm with hm | hm
        · rcases List.mem_append.mp hm with hm | hm
          · simp [s2j] at hm
          · have := hHall 35 hm
            simp [isHexDigit] at this
        · exact (hflatc 35 hm).2 rfl
    have hshape : s2j "xt=urn:btih:" ++ H ++ ((t0 :: ts).map (s2j "&tr=" ++ ·)).flatten =
        ((s2j "xt", s2j "urn:btih:" ++ H).1 ++ 61 :: (s2j "xt", s2j "urn:btih:" ++ H).2) ++
          (((t0 :: ts).map fun tr => (s2j "tr", tr)).map
            fun p => (38 : Nat) :: (p.1 ++ 61 :: p.2)).flatten := by
      rw [List.map_map]
      rw [show ((fun p : JStr × JStr => (38 : Nat) :: (p.1 ++ 61 :: p.2)) ∘
        fun tr => (s2j "tr", tr)) = (s2j "&tr=" ++ ·) from rfl]
      rw [show s2j "xt=urn:btih:" = s2j "xt" ++ 61 :: s2j "urn:btih:" from rfl]
      simp
    have hquery : parseQuery (s2j "xt=urn:btih:" ++ H ++
        ((t0 :: ts).map (s2j "&tr=" ++ ·)).flatten) =
        (s2j "xt", s2j "urn:btih:" ++ H) :: (t0 :: ts).map fun tr => (s2j "tr", tr) := by
      rw [hshape, parseQuery_build]
      · apply (List.map_congr_left ?_).trans (List.map_id _)
        intro p hp
        rcases List.mem_cons.mp hp with hp | hp
        · rw [hp]
          show (formDecodeStr (s2j "xt"), formDecodeStr (s2j "urn:btih:" ++ H)) =
            (s2j "xt", s2j "urn:btih:" ++ H)
          rw [show formDecodeStr (s2j "xt") = s2j "xt" from rfl, hfdv]
        · obtain ⟨tr, htr2, rfl⟩ := List.mem_map.mp hp
          show (formDecodeStr (s2j "tr"), formDecodeStr tr) = (s2j "tr", tr)
          rw [show formDecodeStr (s2j "tr") = s2j "tr" from rfl, hfdtr tr htr2]
      · exact ⟨(by decide : (61 : Nat) ∉ s2j "xt"), (by decide : (38 : Nat) ∉ s2j "xt"),
          (by decide : s2j "xt" ≠ [])⟩
      · intro hm
        rcases List.mem_append.mp hm with hm | hm
        · simp [s2j] at hm
        · have := hHall 38 hm
          simp [isHexDigit] at this
      · intro p hp
        obtain ⟨tr, htr2, rfl⟩ := List.mem_map.mp hp
        refine ⟨⟨(by decide : (61 : Nat) ∉ s2j "tr"), (by decide : (38 : Nat) ∉ s2j "tr"),
          (by decide : s2j "tr" ≠ [])⟩, ?_⟩
        intro hm
        exact (uriUnescaped_props (hTSu' tr htr2 38 hm)).2.2.1 rfl
    unfold parseMagnetLink
    rw [hsearch, hquery]
    simp only [jsGetParam_cons_hit]
    rw [if_neg hxtne, hdrop, hHlow, if_neg (by simp [hH])]
    have hdn : jsGetParam ((s2j "xt", s2j "urn:btih:" ++ H) ::
        (t0 :: ts).map fun tr => (s2j "tr", tr)) (s2j "dn") = none := by
      apply jsGetParam_all_miss
      intro p hp
      rcases List.mem_cons.mp hp with hp | hp
      · rw [hp]
        show s2j "xt" ≠ s2j "dn"
        decide
      · obtain ⟨tr, _, rfl⟩ := List.mem_map.mp hp
        show s2j "tr" ≠ s2j "dn"
        decide
    rw [hdn]
    simp only []
    have hall : jsGetAllParam ((s2j "xt", s2j "urn:btih:" ++ H) ::
        (t0 :: ts).map fun tr => (s2j "tr", tr)) (s2j "tr") = t0 :: ts := by
      rw [jsGetAllParam_cons_miss (by show s2j "xt" ≠ s2j "tr"; decide), jsGetAllParam_same]
    rw [hall]
  · obtain ⟨hnme, hnmu, hnmd⟩ := hNM nm hNMe
    obtain ⟨c0, cs0, rfl⟩ : ∃ c0 cs0, nm = c0 :: cs0 := by
      cases nm with
      | nil => exact absurd rfl hnme
      | cons a b => exact ⟨a, b, rfl⟩
    have hnmu' : ∀ c ∈ c0 :: cs0, uriUnescaped c = true := hnmu
    have hnmd' : decodeURIComponent (c0 :: cs0) = some (c0 :: cs0) := hnmd
    have hfdnm : formDecodeStr (c0 :: cs0) = c0 :: cs0 := by
      apply formDecodeStr_plain
      · intro c hc
        exact (uriUnescaped_props (hnmu' c hc)).1
      · intro hm
        exact (uriUnescaped_props (hnmu' 37 hm)).2.2.2.2.1 rfl
      · intro hm
        exact (uriUnescaped_props (hnmu' 43 hm)).2.2.2.2.2 rfl
    have hgen : generateMagnetLink ⟨H, some (c0 :: cs0), some (t0 :: ts), none, none⟩
        none aT cT =
        .ok (s2j "magnet:?xt=urn:btih:" ++ H ++ s2j "&dn=" ++ (c0 :: cs0) ++
          ((t0 :: ts).map (s2j "&tr=" ++ ·)).flatten) := by
      unfold generateMagnetLink
      simp only [jsOrStr]
      rw [encodeURIComponent_unescaped (c0 :: cs0) hnmu']
      simp only [Option.map_some']
      rw [htr (some (c0 :: cs0))]
    rw [hgen]
    simp only [Except.bind]
    rw [show s2j "magnet:?xt=urn:btih:" ++ H ++ s2j "&dn=" ++ (c0 :: cs0) ++
      ((t0 :: ts).map (s2j "&tr=" ++ ·)).flatten =
      s2j "magnet:?xt=urn:btih:" ++ H ++ (s2j "&dn=" ++ (c0 :: cs0)) ++
      ((t0 :: ts).map (s2j "&tr=" ++ ·)).flatten from by simp]
    have hlink : s2j "magnet:?xt=urn:btih:" ++ H ++ (s2j "&dn=" ++ (c0 :: cs0)) ++
        ((t0 :: ts).map (s2j "&tr=" ++ ·)).flatten =
        s2j "magnet:?" ++ (s2j "xt=urn:btih:" ++ H ++ ((s2j "&dn=" ++ (c0 :: cs0)) ++
          ((t0 :: ts).map (s2j "&tr=" ++ ·)).flatten)) := by
      rw [show s2j "magnet:?xt=urn:btih:" = s2j "magnet:?" ++ s2j "xt=urn:btih:" from rfl]
      simp
    have hsearch : urlSearch (s2j "magnet:?xt=urn:btih:" ++ H ++
        (s2j "&dn=" ++ (c0 :: cs0)) ++ ((t0 :: ts).map (s2j "&tr=" ++ ·)).flatten) =
        s2j "xt=urn:btih:" ++ H ++ ((s2j "&dn=" ++ (c0 :: cs0)) ++
          ((t0 :: ts).map (s2j "&tr=" ++ ·)).flatten) := by
      rw [hlink]
      apply urlSearch_magnet
      · intro c hc
        rcases List.mem_append.mp hc with hc | hc
        · rcases List.mem_append.mp hc with hc | hc
          · fin_cases hc <;> decide
          · exact querySafe_hex (hHall c hc)
        · rcases List.mem_append.mp hc with hc | hc
          · rcases List.mem_append.mp hc with hc | hc
            · fin_cases hc <;> decide
            · exact uriUnescaped_querySafe (hnmu' c hc)
          · exact (hflatc c hc).1
      · intro hm
        rcases List.mem_append.mp hm with hm | hm
        · rcases List.mem_append.mp hm with hm | hm
          · simp [s2j] at hm
          · have := hHall 35 hm
            simp [isHexDigit] at this
        · rcases List.mem_append.mp hm with hm | hm
          · rcases List.mem_append.mp hm with hm | hm
            · simp [s2j] at hm
            · exact (uriUnescaped_props (hnmu' 35 hm)).2.1 rfl
          · exact (hflatc 35 hm).2 rfl
    have hshape : s2j "xt=urn:btih:" ++ H ++ ((s2j "&dn=" ++ (c0 :: cs0)) ++
        ((t0 :: ts).map (s2j "&tr=" ++ ·)).flatten) =
        ((s2j "xt", s2j "urn:btih:" ++ H).1 ++ 61 :: (s2j "xt", s2j "urn:btih:" ++ H).2) ++
          (((s2j "dn", (c0 :: cs0)) :: (t0 :: ts).map fun tr => (s2j "tr", tr)).map
            fun p => (38 : Nat) :: (p.1 ++ 61 :: p.2)).flatten := by
      conv_rhs => rw [List.map_cons, List.map_map]
      rw [show ((fun p : JStr × JStr => (38 : Nat) :: (p.1 ++ 61 :: p.2)) ∘
        fun tr => (s2j "tr", tr)) = (s2j "&tr=" ++ ·) from rfl]
      rw [show (38 : Nat) :: ((s2j "dn", (c0 :: cs0)).1 ++ 61 ::
        (s2j "dn", (c0 :: cs0)).2) = s2j "&dn=" ++ (c0 :: cs0) from rfl]
      rw [show s2j "xt=urn:btih:" = s2j "xt" ++ 61 :: s2j "urn:btih:" from rfl]
      rw [List.flatten_cons]
      simp
    have hquery : parseQuery (s2j "xt=urn:btih:" ++ H ++ ((s2j "&dn=" ++ (c0 :: cs0)) ++
        ((t0 :: ts).map (s2j "&tr=" ++ ·)).flatten)) =
        (s2j "xt", s2j "urn:btih:" ++ H) :: (s2j "dn", (c0 :: cs0)) ::
          (t0 :: ts).map fun tr => (s2j "tr", tr) := by
      rw [hshape, parseQuery_build]
      · apply (List.map_congr_left ?_).trans (List.map_id _)
        intro p hp
        rcases List.mem_cons.mp hp with hp | hp
        · rw [hp]
          show (formDecodeStr (s2j "xt"), formDecodeStr (s2j "urn:btih:" ++ H)) =
            (s2j "xt", s2j "urn:btih:" ++ H)
          rw [show formDecodeStr (s2j "xt") = s2j "xt" from rfl, hfdv]
        rcases List.mem_cons.mp hp with hp | hp
        · rw [hp]
          show (formDecodeStr (s2j "dn"), formDecodeStr (c0 :: cs0)) =
            (s2j "dn", (c0 :: cs0))
          rw [show formDecodeStr (s2j "dn") = s2j "dn" from rfl, hfdnm]
        · obtain ⟨tr, htr2, rfl⟩ := List.mem_map.mp hp
          show (formDecodeStr (s2j "tr"), formDecodeStr tr) = (s2j "tr", tr)
          rw [show formDecodeStr (s2j "tr") = s2j "tr" from rfl, hfdtr tr htr2]
      · exact ⟨(by decide : (61 : Nat) ∉ s2j "xt"), (by decide : (38 : Nat) ∉ s2j "xt"),
          (by decide : s2j "xt" ≠ [])⟩
      · intro hm
        rcases List.mem_append.mp hm with hm | hm
        · simp [s2j] at hm
        · have := hHall 38 hm
          simp [isHexDigit] at this
      · intro p hp
        rcases List.mem_cons.mp hp with hp | hp
        · rw [hp]
          refine ⟨⟨(by decide : (61 : Nat) ∉ s2j "dn"), (by decide : (38 : Nat) ∉ s2j "dn"),
            (by decide : s2j "dn" ≠ [])⟩, ?_⟩
          intro hm
          exact (uriUnescaped_props (hnmu' 38 hm)).2.2.1 rfl
        · obtain ⟨tr, htr2, rfl⟩ := List.mem_map.mp hp
          refine ⟨⟨(by decide : (61 : Nat) ∉ s2j "tr"), (by decide : (38 : Nat) ∉ s2j "tr"),
            (by decide : s2j "tr" ≠ [])⟩, ?_⟩
          intro hm
          exact (uriUnescaped_props (hTSu' tr htr2 38 hm)).2.2.1 rfl
    unfold parseMagnetLink
    rw [hsearch, hquery]
    simp only [jsGetParam_cons_hit]
    rw [if_neg hxtne, hdrop, hHlow, if_neg (by simp [hH])]
    have hdn : jsGetParam ((s2j "xt", s2j "urn:btih:" ++ H) :: (s2j "dn", (c0 :: cs0)) ::
        (t0 :: ts).map fun tr => (s2j "tr", tr)) (s2j "dn") = some (c0 :: cs0) := by
      rw [jsGetParam_cons_miss _ _ (by show s2j "xt" ≠ s2j "dn"; decide),
        jsGetParam_cons_hit]
    rw [hdn]
    simp only [hnmd']
    have hall : jsGetAllParam ((s2j "xt", s2j "urn:btih:" ++ H) ::
        (s2j "dn", (c0 :: cs0)) :: (t0 :: ts).map fun tr => (s2j "tr", tr))
        (s2j "tr") = t0 :: ts := by
      rw [jsGetAllParam_cons_miss (by show s2j "xt" ≠ s2j "tr"; decide),
        jsGetAllParam_cons_miss (by show s2j "dn" ≠ s2j "tr"; decide), jsGetAllParam_same]
    rw [hall]


/-- C8 (witness): generate-then-parse on a descriptor with a lower-case hash,
the name `MyFile` and the tracker `tracker.example` returns the descriptor. -/
theorem c8_witness :
    (generateMagnetLink
        ⟨s2j "aabbccdd00112233445566778899aabbccddeeff", some (s2j "MyFile"),
          some [s2j "tracker.example"], none, none⟩ none false none).bind
      parseMagnetLink =
      .ok ⟨s2j "aabbccdd00112233445566778899aabbccddeeff", some (s2j "MyFile"),
        some [s2j "tracker.example"], none, none⟩ :=
  c8_amended (s2j "aabbccdd00112233445566778899aabbccddeeff")
    (some (s2j "MyFile")) [s2j "tracker.example"] false none
    (by decide) (by decide)
    (by
      intro nm h
      cases h
      exact ⟨by decide, by decide, rfl⟩)
    (by decide) (by decide)
